import Mathlib

/-!
# fpath-bezier: path builder and edge-flag rasteriser

A shallow embedding of `src/fpath_builder.c` and `src/fpath.c`.

Conventions of the embedding.

* `int32_t` / `fixed_t` values are `Int`.  C signed arithmetic is modelled
  without wrap-around (signed overflow is undefined in C); `/` and `%` of C
  are `Int.tdiv` and `Int.tmod` (truncation toward zero).
* `uint32_t` fields are `Nat`; the one unsigned subtraction that can wrap
  (`max_points - 1`) is written with an explicit `% 2^32`.
* A C array is a `List`; a read outside the list yields the zero point and a
  write outside the list is dropped.  Theorems that depend on an access being
  in bounds carry the bound as a hypothesis.
* Functions of the Pebble SDK that the repository only calls
  (`atan2_lookup`, `cos_lookup`, `sin_lookup`, the bitmap geometry) are
  parameters of the definitions that use them.
* Unbounded recursion takes a fuel argument and returns `none` when it runs
  out; `malloc` is a Boolean parameter telling whether the allocation
  succeeds.
-/

namespace FPathBezier

/-! ## Points (`fpath.h`) -/

/-- The C struct `FPoint`: a coordinate pair in 28.4 fixed point. -/
structure FPoint where
  x : Int
  y : Int
deriving DecidableEq, Repr

/-- The C macro `FPointZero`. -/
def FPointZero : FPoint := ⟨0, 0⟩

/-- The C function `fpoint_equal` (`fpath.c`). -/
def fpoint_equal (point_a point_b : FPoint) : Bool :=
  point_a.x == point_b.x && point_a.y == point_b.y

/-- The C struct `FPath`. -/
structure FPath where
  num_points : Nat
  points : List FPoint
  rotation : Int
  offset : FPoint
deriving DecidableEq, Repr

/-! ## Path builder (`fpath_builder.h`, `fpath_builder.c`) -/

/-- The C struct `FPathBuilder`; `points` is the flexible array member. -/
structure FPathBuilder where
  max_points : Nat
  num_points : Nat
  points : List FPoint
deriving DecidableEq, Repr

/-- Modelled from the spec: the constant `TRIG_MAX_ANGLE` of the Pebble SDK
header, the integer angle that stands for a full turn (0x10000). -/
def TRIG_MAX_ANGLE : Int := 65536

/-- The C constant `FIXED_POINT_SCALE`. -/
def FIXED_POINT_SCALE : Int := 16

/-- The global `max_angle_tolerance = (TRIG_MAX_ANGLE / 360) * 10`. -/
def max_angle_tolerance : Int := Int.tdiv TRIG_MAX_ANGLE 360 * 10

/-- The conversion `(int16_t) v` of an `int32_t` value. -/
def toInt16 (v : Int) : Int := (v + 32768) % 65536 - 32768

/-- The C expression `a - 1` on `uint32_t`. -/
def uint32_pred (a : Nat) : Nat := (a + 4294967295) % 4294967296

/-- The C function `fpath_builder_create`.  `malloc_ok` tells whether the
allocation succeeds; the `memset` zeroes every slot. -/
def fpath_builder_create (malloc_ok : Bool) (max_points : Nat) : Option FPathBuilder :=
  if malloc_ok then
    some { max_points := max_points, num_points := 0,
           points := List.replicate max_points FPointZero }
  else none

/-- The C function `fpath_builder_line_to_point`: the returned flag and the
builder after the call. -/
def fpath_builder_line_to_point (builder : FPathBuilder) (to_point : FPoint) :
    Bool × FPathBuilder :=
  if builder.num_points ≥ uint32_pred builder.max_points then
    (false, builder)
  else
    (true, { builder with
               points := builder.points.set builder.num_points to_point,
               num_points := builder.num_points + 1 })

/-- The C function `fpath_builder_move_to_point`. -/
def fpath_builder_move_to_point (builder : FPathBuilder) (to_point : FPoint) :
    Bool × FPathBuilder :=
  if builder.num_points ≠ 0 then (false, builder)
  else fpath_builder_line_to_point builder to_point

/-- The angle `atan2_lookup((int16_t)(dy / 16), (int16_t)(dx / 16))` of a chord. -/
def chord_angle (atan2_lookup : Int → Int → Int) (dy dx : Int) : Int :=
  atan2_lookup (toInt16 (Int.tdiv dy FIXED_POINT_SCALE)) (toInt16 (Int.tdiv dx FIXED_POINT_SCALE))

/-- The two statements `if (da >= TRIG_MAX_ANGLE) da = TRIG_MAX_ANGLE - da;`. -/
def wrap_angle (da : Int) : Int :=
  if da ≥ TRIG_MAX_ANGLE then TRIG_MAX_ANGLE - da else da

/-- The value `da1` of `recursive_bezier_fixed` after its wrap. -/
def bezier_da1 (atan2_lookup : Int → Int → Int) (x1 y1 x2 y2 x3 y3 : Int) : Int :=
  wrap_angle (Int.natAbs (chord_angle atan2_lookup (y3 - y2) (x3 - x2)
    - chord_angle atan2_lookup (y2 - y1) (x2 - x1)))

/-- The value `da2` of `recursive_bezier_fixed` after its wrap. -/
def bezier_da2 (atan2_lookup : Int → Int → Int) (x2 y2 x3 y3 x4 y4 : Int) : Int :=
  wrap_angle (Int.natAbs (chord_angle atan2_lookup (y4 - y3) (x4 - x3)
    - chord_angle atan2_lookup (y3 - y2) (x3 - x2)))

/-- The test `da1 + da2 < max_angle_tolerance` that stops the subdivision. -/
def bezier_flat (atan2_lookup : Int → Int → Int)
    (x1 y1 x2 y2 x3 y3 x4 y4 : Int) : Bool :=
  decide (bezier_da1 atan2_lookup x1 y1 x2 y2 x3 y3
    + bezier_da2 atan2_lookup x2 y2 x3 y3 x4 y4 < max_angle_tolerance)

/-- The midpoint `(a + b) / 2` of the subdivision. -/
def mid (a b : Int) : Int := Int.tdiv (a + b) 2

/-- The C function `recursive_bezier_fixed`.  The first argument bounds the
depth of the recursion; `none` means the bound was reached. -/
def recursive_bezier_fixed (atan2_lookup : Int → Int → Int) :
    Nat → FPathBuilder → Int → Int → Int → Int → Int → Int → Int → Int →
    Option (Bool × FPathBuilder)
  | 0, _, _, _, _, _, _, _, _, _ => none
  | fuel + 1, builder, x1, y1, x2, y2, x3, y3, x4, y4 =>
    let x12 := mid x1 x2
    let y12 := mid y1 y2
    let x23 := mid x2 x3
    let y23 := mid y2 y3
    let x34 := mid x3 x4
    let y34 := mid y3 y4
    let x123 := mid x12 x23
    let y123 := mid y12 y23
    let x234 := mid x23 x34
    let y234 := mid y23 y34
    let x1234 := mid x123 x234
    let y1234 := mid y123 y234
    if bezier_flat atan2_lookup x1 y1 x2 y2 x3 y3 x4 y4 then
      some (fpath_builder_line_to_point builder ⟨x1234, y1234⟩)
    else
      match recursive_bezier_fixed atan2_lookup fuel builder
          x1 y1 x12 y12 x123 y123 x1234 y1234 with
      | none => none
      | some (false, b1) => some (false, b1)
      | some (true, b1) =>
        match recursive_bezier_fixed atan2_lookup fuel b1
            x1234 y1234 x234 y234 x34 y34 x4 y4 with
        | none => none
        | some (false, b2) => some (false, b2)
        | some (true, b2) => some (true, b2)

/-- The C function `bezier_fixed`. -/
def bezier_fixed (atan2_lookup : Int → Int → Int) (fuel : Nat)
    (builder : FPathBuilder) (p1 p2 p3 p4 : FPoint) : Option (Bool × FPathBuilder) :=
  match recursive_bezier_fixed atan2_lookup fuel builder
      p1.x p1.y p2.x p2.y p3.x p3.y p4.x p4.y with
  | none => none
  | some (true, b1) => some (fpath_builder_line_to_point b1 p4)
  | some (false, b1) => some (false, b1)

/-- The C function `fpath_builder_curve_to_point`; the start of the curve is
`builder->points[builder->num_points-1]`, with the index computed on
`uint32_t`. -/
def fpath_builder_curve_to_point (atan2_lookup : Int → Int → Int) (fuel : Nat)
    (builder : FPathBuilder) (to_point control_point_1 control_point_2 : FPoint) :
    Option (Bool × FPathBuilder) :=
  let from_point := builder.points.getD (uint32_pred builder.num_points) FPointZero
  bezier_fixed atan2_lookup fuel builder from_point control_point_1 control_point_2 to_point

/-- The loop `while (num_points > 1 && fpoint_equal(&points[0], &points[num_points]))
num_points--;` of `fpath_builder_create_path`, as a function of the starting
`num_points`. -/
def strip_closing_points (points : List FPoint) : Nat → Nat
  | 0 => 0
  | n + 1 =>
    if n + 1 > 1 ∧ fpoint_equal (points.getD 0 FPointZero) (points.getD (n + 1) FPointZero) then
      strip_closing_points points n
    else n + 1

/-- The C function `fpath_builder_create_path`; `none` is the `NULL` return. -/
def fpath_builder_create_path (malloc_ok : Bool) (builder : FPathBuilder) : Option FPath :=
  if builder.num_points ≤ 1 then none
  else
    let num_points := strip_closing_points builder.points builder.num_points
    if malloc_ok then
      some { num_points := num_points, points := builder.points.take num_points,
             rotation := 0, offset := FPointZero }
    else none

/-- The builders the public interface can produce: those obtained from a
successful `fpath_builder_create N` by calls of move_to, line_to and
curve_to (the latter on a non-empty builder, and returning). -/
inductive Reachable (atan2_lookup : Int → Int → Int) (N : Nat) : FPathBuilder → Prop
  | create (b : FPathBuilder) (h : fpath_builder_create true N = some b) :
      Reachable atan2_lookup N b
  | move_to (b : FPathBuilder) (p : FPoint) (hb : Reachable atan2_lookup N b) :
      Reachable atan2_lookup N (fpath_builder_move_to_point b p).2
  | line_to (b : FPathBuilder) (p : FPoint) (hb : Reachable atan2_lookup N b) :
      Reachable atan2_lookup N (fpath_builder_line_to_point b p).2
  | curve_to (b b1 : FPathBuilder) (fuel : Nat) (r : Bool) (p c1 c2 : FPoint)
      (hb : Reachable atan2_lookup N b) (hne : b.num_points ≠ 0)
      (h : fpath_builder_curve_to_point atan2_lookup fuel b p c1 c2 = some (r, b1)) :
      Reachable atan2_lookup N b1

/-- The calls `fpath_builder_line_to_point(builder, p)` for the points of a
list, in order: the flags returned and the builder after the last call. -/
def line_to_many : FPathBuilder → List FPoint → List Bool × FPathBuilder
  | b, [] => ([], b)
  | b, p :: ps =>
    let r := fpath_builder_line_to_point b p
    let rest := line_to_many r.2 ps
    (r.1 :: rest.1, rest.2)

/-- What a call on builder `b` keeps: the capacity, the size of the array,
the points already stored, and `num_points` does not shrink nor pass
`max_points - 1`. -/
def Extends (b b1 : FPathBuilder) : Prop :=
  b1.max_points = b.max_points ∧ b1.points.length = b.points.length ∧
  b.num_points ≤ b1.num_points ∧
  (b.num_points ≤ b.max_points - 1 → b1.num_points ≤ b.max_points - 1) ∧
  ∀ i, i < b.num_points → b1.points[i]? = b.points[i]?

/-- The builder of the duplicate-collapse example: capacity 8 and the four
points (16,16), (32,16), (32,32), (16,16), put there by one move_to and three
line_to calls. -/
def closed_square_builder : Option FPathBuilder :=
  (fpath_builder_create true 8).map fun b =>
    (fpath_builder_line_to_point
      (fpath_builder_line_to_point
        (fpath_builder_line_to_point
          (fpath_builder_move_to_point b ⟨16, 16⟩).2 ⟨32, 16⟩).2 ⟨32, 32⟩).2 ⟨16, 16⟩).2

/-- The invariant of a builder of capacity `N`: the count stays below the
capacity, the capacity and the array size are `N`, and the slots from
`num_points` on hold the zero point. -/
def CapacityInv (N : Nat) (b : FPathBuilder) : Prop :=
  b.num_points ≤ N - 1 ∧ b.max_points = N ∧ b.points.length = N ∧
  ∀ i, b.num_points ≤ i → i < N → b.points[i]? = some FPointZero

/-- The point `(x1234, y1234)` of `recursive_bezier_fixed`: the third-level
midpoint of the control polygon `p1 p2 p3 p4`. -/
def bezier_midpoint (p1 p2 p3 p4 : FPoint) : FPoint :=
  ⟨mid (mid (mid p1.x p2.x) (mid p2.x p3.x)) (mid (mid p2.x p3.x) (mid p3.x p4.x)),
   mid (mid (mid p1.y p2.y) (mid p2.y p3.y)) (mid (mid p2.y p3.y) (mid p3.y p4.y))⟩

/-! ## Fixed-point helpers and the edge stepper (`fpath.c`) -/

/-- The C macro `INT_TO_FIXED`. -/
def INT_TO_FIXED (a : Int) : Int := a * FIXED_POINT_SCALE

/-- The C macro `FIXED_TO_INT`; the division of C truncates toward zero. -/
def FIXED_TO_INT (a : Int) : Int := Int.tdiv a FIXED_POINT_SCALE

/-- The C function `floorDivMod`: the pair `(*floor, *mod)`.  `none` is the
failed `Assert(denominator > 0)`, a store through the null pointer. -/
def floorDivMod (numerator denominator : Int) : Option (Int × Int) :=
  if denominator > 0 then
    if numerator ≥ 0 then
      some (Int.tdiv numerator denominator, Int.tmod numerator denominator)
    else
      let floor := -(Int.tdiv (-numerator) denominator)
      let mod := Int.tmod (-numerator) denominator
      if mod ≠ 0 then some (floor - 1, denominator - mod) else some (floor, mod)
  else none

/-- The C struct `Edge`. -/
structure Edge where
  x : Int
  xStep : Int
  numerator : Int
  denominator : Int
  errorTerm : Int
  y : Int
  height : Int
deriving DecidableEq, Repr

/-- The C function `edge_step`: the edge after the call (the call returns its
`height`). -/
def edge_step (e : Edge) : Edge :=
  let x := e.x + e.xStep
  let y := e.y + 1
  let height := e.height - 1
  let errorTerm := e.errorTerm + e.numerator
  if errorTerm ≥ e.denominator then
    { e with x := x + 1, y := y, height := height, errorTerm := errorTerm - e.denominator }
  else
    { e with x := x, y := y, height := height, errorTerm := errorTerm }

/-- The C function `fceil`. -/
def fceil (value : Int) : Int :=
  let numerator := value - 1 + FIXED_POINT_SCALE
  if numerator ≥ 0 then
    Int.tdiv numerator FIXED_POINT_SCALE
  else
    -(Int.tdiv (-numerator) FIXED_POINT_SCALE)
      - (if Int.tmod (-numerator) FIXED_POINT_SCALE ≠ 0 then 1 else 0)

/-- The C function `edge_init`, on the edge `e` it is handed (whose fields it
leaves alone when the height is 0).  `none` is a failed assertion of
`floorDivMod`. -/
def edge_init (e : Edge) (top bottom : FPoint) : Option Edge :=
  let y := fceil top.y
  let yEnd := fceil bottom.y
  let height := yEnd - y
  if height ≠ 0 then
    let dN := bottom.y - top.y
    let dM := bottom.x - top.x
    let initialNumerator := dM * 16 * y - dM * top.y + dN * top.x - 1 + dN * 16
    match floorDivMod initialNumerator (dN * 16), floorDivMod (dM * 16) (dN * 16) with
    | some (x, errorTerm), some (xStep, numerator) =>
      some { x := x, xStep := xStep, numerator := numerator, denominator := dN * 16,
             errorTerm := errorTerm, y := y, height := height }
    | _, _ => none
  else
    some { e with y := y, height := height }

/-! ## Render context and the black-and-white rasteriser (`fpath.c`) -/

/-- The SDK struct `GRect`: origin and size. -/
structure GRect where
  x : Int
  y : Int
  w : Int
  h : Int
deriving DecidableEq, Repr

/-- What the code uses of an SDK `GBitmap`: the bytes at each offset from
`gbitmap_get_data` (offsets outside the allocation included, so that every
access the code makes can be followed), `gbitmap_get_bytes_per_row` and
`gbitmap_get_bounds`.  The row size is used as the SDK returns it: the
`int16_t` and `uint16_t` copies the code makes of it are exact below 2^15. -/
structure GBitmap where
  data : Int → Nat
  row_size_bytes : Int
  bounds : GRect

/-- The C struct `FContext`.  `frameBuffer` is the bitmap that
`graphics_capture_frame_buffer(fctx->gctx)` hands out; colours are their
`argb` byte. -/
structure FContext where
  frameBuffer : GBitmap
  flagBuffer : GBitmap
  min : FPoint
  max : FPoint
  strokeColor : Nat
  fillColor : Nat
  aarampDirty : Bool
  aaramp : List Nat

/-- Modelled from the spec: the SDK constant `TRIG_MAX_RATIO`, the value of
`cos_lookup` and `sin_lookup` that stands for 1 (0xffff). -/
def TRIG_MAX_RATIO : Int := 65535

/-- Modelled from the spec: the SDK colour `GColorWhite` of the build
without `PBL_COLOR` (1-bit colours: 0 = black, 1 = white). -/
def GColorWhite : Nat := 1

/-- The conversion `(uint16_t) v` of an `int32_t` value. -/
def toUInt16 (v : Int) : Nat := (v % 65536).toNat

/-- The C function `fpath_begin_fill_bw`. -/
def fpath_begin_fill_bw (fctx : FContext) : FContext :=
  let bounds := fctx.flagBuffer.bounds
  { fctx with
    max := ⟨INT_TO_FIXED bounds.x, INT_TO_FIXED bounds.y⟩,
    min := ⟨INT_TO_FIXED (bounds.x + bounds.w), INT_TO_FIXED (bounds.y + bounds.h)⟩ }

/-- The statements `p = data + y * stride + x / 8; mask = 1 << (x % 8);
*p ^= mask;` of `fpath_plot_edge_bw`. -/
def toggle_flag_bw (stride : Int) (data : Int → Nat) (x y : Int) : Int → Nat :=
  let p := y * stride + Int.tdiv x 8
  let mask := 1 <<< (Int.tmod x 8).toNat
  Function.update data p (data p ^^^ mask)

/-- The loop `while (height--) \x7b ... edge_step(&edge); \x7d` of
`fpath_plot_edge_bw`, for `n` iterations. -/
def plot_loop_bw (stride : Int) : Nat → (Int → Nat) → Edge → (Int → Nat)
  | 0, data, _ => data
  | n + 1, data, edge =>
    plot_loop_bw stride n (toggle_flag_bw stride data edge.x edge.y) (edge_step edge)

/-- The local `Edge edge;` of the plot functions before `edge_init`. -/
def Edge.uninit : Edge := ⟨0, 0, 0, 0, 0, 0, 0⟩

/-- The edge that `fpath_plot_edge_bw` initialises: the point with the
smaller `y` is the top. -/
def plot_edge_init (a b : FPoint) : Option Edge :=
  if a.y > b.y then edge_init Edge.uninit b a else edge_init Edge.uninit a b

/-- The C function `fpath_plot_edge_bw`.  The loop runs `edge.height` times
(the height is never negative, see `plot_edge_positions`). -/
def fpath_plot_edge_bw (fctx : FContext) (a b : FPoint) : Option FContext :=
  match plot_edge_init a b with
  | none => none
  | some edge =>
    let data := plot_loop_bw fctx.flagBuffer.row_size_bytes edge.height.toNat
      fctx.flagBuffer.data edge
    some { fctx with flagBuffer := { fctx.flagBuffer with data := data } }

/-- The body of the first loop of `fpath_draw_filled_bw`/`_aa` up to the
bounding box: rotation by `(c, s)`, then offset and `adjust`. -/
def transform_point (c s adjust : Int) (offset src : FPoint) : FPoint :=
  ⟨Int.tdiv (src.x * c) TRIG_MAX_RATIO - Int.tdiv (src.y * s) TRIG_MAX_RATIO
      + (offset.x + adjust),
   Int.tdiv (src.x * s) TRIG_MAX_RATIO + Int.tdiv (src.y * c) TRIG_MAX_RATIO
      + (offset.y + adjust)⟩

/-- The four statements that grow the bounding box around a visited point. -/
def grow_bounds (fctx : FContext) (dest : FPoint) : FContext :=
  { fctx with
    min := ⟨if dest.x < fctx.min.x then dest.x else fctx.min.x,
            if dest.y < fctx.min.y then dest.y else fctx.min.y⟩,
    max := ⟨if dest.x > fctx.max.x then dest.x else fctx.max.x,
            if dest.y > fctx.max.y then dest.y else fctx.max.y⟩ }

/-- The array `points` of `fpath_draw_filled_bw` after its first loop. -/
def transformed_points_bw (cos_lookup sin_lookup : Int → Int) (fpath : FPath) : List FPoint :=
  (List.range fpath.num_points).map fun k =>
    transform_point (cos_lookup fpath.rotation) (sin_lookup fpath.rotation)
      (Int.tdiv (-FIXED_POINT_SCALE) 2) fpath.offset (fpath.points.getD k FPointZero)

/-- The second loop of `fpath_draw_filled_bw`: the edges
`(points[k], points[(k+1) % n])` for the `k` of a list, in order. -/
def plot_edges_bw (num_points : Nat) (points : List FPoint) :
    List Nat → FContext → Option FContext
  | [], fctx => some fctx
  | k :: ks, fctx =>
    match fpath_plot_edge_bw fctx (points.getD k FPointZero)
        (points.getD ((k + 1) % num_points) FPointZero) with
    | none => none
    | some fctx1 => plot_edges_bw num_points points ks fctx1

/-- The C function `fpath_draw_filled_bw`; when `malloc` fails nothing is
drawn. -/
def fpath_draw_filled_bw (cos_lookup sin_lookup : Int → Int) (malloc_ok : Bool)
    (fctx : FContext) (fpath : FPath) : Option FContext :=
  if malloc_ok then
    let points := transformed_points_bw cos_lookup sin_lookup fpath
    plot_edges_bw fpath.num_points points (List.range fpath.num_points)
      (points.foldl grow_bounds fctx)
  else some fctx

/-- The byte `color` of `fpath_end_fill_bw`; `pbl_color` tells whether the
build defines `PBL_COLOR`. -/
def fill_byte_bw (pbl_color : Bool) (fillColor : Nat) : Nat :=
  if pbl_color then fillColor else if fillColor = GColorWhite then 255 else 0

/-- The state of the scan of `fpath_end_fill_bw`: flag bytes, frame-buffer
bytes and the flag `inside`. -/
structure ScanState where
  data : Int → Nat
  fbData : Int → Nat
  inside : Bool

/-- The body of the inner loop of `fpath_end_fill_bw` at `(row, col)`. -/
def end_fill_step_bw (pbl_color : Bool) (color : Nat) (stride fbStride : Int) (row : Nat)
    (st : ScanState) (col : Nat) : ScanState :=
  let dest : Int := if pbl_color then fbStride * row + col else fbStride * row + Int.tdiv col 8
  let src : Int := stride * row + Int.tdiv col 8
  let mask : Nat := 1 <<< (Int.tmod col 8).toNat
  let inside := if st.data src &&& mask ≠ 0 then !st.inside else st.inside
  let data := Function.update st.data src (st.data src &&& (255 ^^^ mask))
  let fbData :=
    if inside then
      Function.update st.fbData dest
        (if pbl_color then color else (color &&& mask) ||| (st.fbData dest &&& (255 ^^^ mask)))
    else st.fbData
  { data := data, fbData := fbData, inside := inside }

/-- One pass of the outer loop of `fpath_end_fill_bw`: `inside = false`, then
the columns `colBegin .. colEnd`, both included. -/
def end_fill_row_bw (pbl_color : Bool) (color : Nat) (stride fbStride : Int)
    (colBegin colEnd : Nat) (st : ScanState) (row : Nat) : ScanState :=
  (List.range' colBegin (colEnd + 1 - colBegin)).foldl
    (end_fill_step_bw pbl_color color stride fbStride row) { st with inside := false }

/-- The C function `fpath_end_fill_bw`.  The loop counters are `uint16_t`;
the loops are unrolled for counters that do not wrap (`rowEnd` and `colEnd`
below 65535). -/
def fpath_end_fill_bw (pbl_color : Bool) (fctx : FContext) : FContext :=
  let color := fill_byte_bw pbl_color fctx.fillColor
  let rowBegin := toUInt16 (FIXED_TO_INT fctx.min.y)
  let rowEnd := toUInt16 (FIXED_TO_INT fctx.max.y + 1)
  let colBegin := toUInt16 (FIXED_TO_INT fctx.min.x)
  let colEnd := toUInt16 (FIXED_TO_INT fctx.max.x + 1)
  let st := (List.range' rowBegin (rowEnd - rowBegin)).foldl
    (end_fill_row_bw pbl_color color fctx.flagBuffer.row_size_bytes
      fctx.frameBuffer.row_size_bytes colBegin colEnd)
    { data := fctx.flagBuffer.data, fbData := fctx.frameBuffer.data, inside := false }
  { fctx with
    flagBuffer := { fctx.flagBuffer with data := st.data },
    frameBuffer := { fctx.frameBuffer with data := st.fbData } }

/-! ## Specification-side notions for the rasteriser -/

/-- The ceiling of `n / d` for `d > 0`: the least integer `m` with
`n ≤ m * d` (see `ceil_div_le_iff`). -/
def ceil_div (n d : Int) : Int := -((-n) / d)

/-- The column in which the edge from `top` to `bottom` crosses the scanline
`y = 16 * r`: the exact intersection
`top.x + (16 r - top.y) * (bottom.x - top.x) / (bottom.y - top.y)`, in
sixteenths of a pixel, rounded up to a whole pixel. -/
def crossing_column (top bottom : FPoint) (r : Int) : Int :=
  ceil_div (top.x * (bottom.y - top.y) + (16 * r - top.y) * (bottom.x - top.x))
    (16 * (bottom.y - top.y))

/-- The end of the edge `(a, b)` with the smaller `y`, as
`fpath_plot_edge_bw` picks it. -/
def edge_top (a b : FPoint) : FPoint := if a.y > b.y then b else a

/-- The other end of the edge `(a, b)`. -/
def edge_bottom (a b : FPoint) : FPoint := if a.y > b.y then a else b

/-- The edge `(a, b)` spans row `r`: `ceil(top.y/16) ≤ r < ceil(bottom.y/16)`. -/
def spans_row (a b : FPoint) (r : Int) : Bool :=
  decide (ceil_div (edge_top a b).y 16 ≤ r ∧ r < ceil_div (edge_bottom a b).y 16)

/-- The positions `(edge.x, edge.y)` that the loop of `fpath_plot_edge_bw`
visits in `n` iterations from `edge`. -/
def edge_positions : Nat → Edge → List (Int × Int)
  | 0, _ => []
  | n + 1, edge => (edge.x, edge.y) :: edge_positions n (edge_step edge)

/-- The invariant of the DDA of the edge from `top` to `bottom`: the
denominator is `16 * dN > 0`, step and numerator split `16 * dM`, and `x` and
the error term split the exact crossing of scanline `y`, shifted by
`denominator - 1` so that `x` is its ceiling. -/
def EdgeInv (top bottom : FPoint) (e : Edge) : Prop :=
  0 < 16 * (bottom.y - top.y) ∧
  e.denominator = 16 * (bottom.y - top.y) ∧
  0 ≤ e.numerator ∧ e.numerator < e.denominator ∧
  e.xStep * e.denominator + e.numerator = 16 * (bottom.x - top.x) ∧
  0 ≤ e.errorTerm ∧ e.errorTerm < e.denominator ∧
  e.x * e.denominator + e.errorTerm =
    top.x * (bottom.y - top.y) + (16 * e.y - top.y) * (bottom.x - top.x)
      + e.denominator - 1

/-- The offset `y * stride + x / 8` of the flag byte of position `(x, y)`. -/
def flag_addr (stride x y : Int) : Int := y * stride + Int.tdiv x 8

/-- The bit `x % 8` of position `(x, y)` in its flag byte. -/
def flag_bit (x : Int) : Nat := (Int.tmod x 8).toNat

/-- The statement `*src &= ~mask;` of `fpath_end_fill_bw` at `(row, col)`. -/
def clear_flag_bw (stride : Int) (row : Nat) (data : Int → Nat) (col : Nat) : Int → Nat :=
  Function.update data (stride * row + Int.tdiv col 8)
    (data (stride * row + Int.tdiv col 8) &&& (255 ^^^ (1 <<< (Int.tmod col 8).toNat)))

/-- The flag bytes after the scan of one row of `fpath_end_fill_bw`. -/
def clear_row_bw (stride : Int) (colBegin colEnd : Nat) (data : Int → Nat) (row : Nat) :
    Int → Nat :=
  (List.range' colBegin (colEnd + 1 - colBegin)).foldl (clear_flag_bw stride row) data

/-- Position `p` lies in the rows and columns that `fpath_end_fill_bw` scans
for the bounding box of `fctx`. -/
def InScanRange (fctx : FContext) (p : Int × Int) : Prop :=
  FIXED_TO_INT fctx.min.x ≤ p.1 ∧ p.1 ≤ FIXED_TO_INT fctx.max.x + 1 ∧
  FIXED_TO_INT fctx.min.y ≤ p.2 ∧ p.2 < FIXED_TO_INT fctx.max.y + 1

/-- The bounding box of `fctx` contains the point `q`. -/
def BoxContains (fctx : FContext) (q : FPoint) : Prop :=
  fctx.min.x ≤ q.x ∧ q.x ≤ fctx.max.x ∧ fctx.min.y ≤ q.y ∧ q.y ≤ fctx.max.y

/-- The bounding box of `c2` contains that of `c1`. -/
def BoxLe (c1 c2 : FContext) : Prop :=
  c2.min.x ≤ c1.min.x ∧ c2.min.y ≤ c1.min.y ∧ c1.max.x ≤ c2.max.x ∧ c1.max.y ≤ c2.max.y

/-- Every set bit of the flag bytes singled out by `inbuf` is the bit of a
position that `fpath_end_fill_bw` will scan. -/
def FlagsInRange (inbuf : Int → Prop) (fctx : FContext) : Prop :=
  ∀ a i, inbuf a → (fctx.flagBuffer.data a).testBit i = true →
    ∃ p : Int × Int, InScanRange fctx p ∧
      a = flag_addr fctx.flagBuffer.row_size_bytes p.1 p.2 ∧ i = flag_bit p.1

/-- The bounding box of a fill on a `w` by `h` surface whose points satisfy
`-16 < x ≤ 16 w`, `-16 < y ≤ 16 h`: what `fpath_begin_fill_bw` sets and
`grow_bounds` keeps. -/
def BoxSane (w h : Int) (fctx : FContext) : Prop :=
  -16 < fctx.min.x ∧ fctx.min.x ≤ 16 * (w + 1) ∧ -16 < fctx.min.y ∧ fctx.min.y ≤ 16 * (h + 1) ∧
  0 ≤ fctx.max.x ∧ fctx.max.x ≤ 16 * w ∧ 0 ≤ fctx.max.y ∧ fctx.max.y ≤ 16 * h

/-- The transformed point `q` is within the bounds `-16 < x ≤ 16 w` and
`-16 < y ≤ 16 h` of a `w` by `h` surface. -/
def PointInSurface (w h : Int) (q : FPoint) : Prop :=
  -16 < q.x ∧ q.x ≤ 16 * w ∧ -16 < q.y ∧ q.y ≤ 16 * h

/-- A sequence of `fpath_draw_filled_bw` calls, each with the outcome of its
`malloc`. -/
def draw_all_bw (cos_lookup sin_lookup : Int → Int) :
    FContext → List (Bool × FPath) → Option FContext
  | fctx, [] => some fctx
  | fctx, (malloc_ok, fpath) :: rest =>
    match fpath_draw_filled_bw cos_lookup sin_lookup malloc_ok fctx fpath with
    | none => none
    | some fctx1 => draw_all_bw cos_lookup sin_lookup fctx1 rest

/-- The fields of the context that drawing leaves alone are the same in `c`
and `c1`. -/
def SameSurface (c c1 : FContext) : Prop :=
  c1.frameBuffer = c.frameBuffer ∧
  c1.flagBuffer.row_size_bytes = c.flagBuffer.row_size_bytes ∧
  c1.flagBuffer.bounds = c.flagBuffer.bounds ∧
  c1.fillColor = c.fillColor

/-- A bitmap of zero bytes with the given row size and bounds at the origin. -/
def blank_bitmap (row_size_bytes w h : Int) : GBitmap :=
  { data := fun _ => 0, row_size_bytes := row_size_bytes, bounds := ⟨0, 0, w, h⟩ }

/-- A context for a `w` by `h` surface as `fpath_init_context_bw` leaves it:
the flag bitmap is one larger in each direction and blank. -/
def blank_context (w h fbStride stride : Int) (fillColor : Nat) : FContext :=
  { frameBuffer := blank_bitmap fbStride w h,
    flagBuffer := blank_bitmap stride (w + 1) (h + 1),
    min := FPointZero, max := FPointZero, strokeColor := 0, fillColor := fillColor,
    aarampDirty := true, aaramp := [] }

/-- The square with corners (24,24) and (56,56), unrotated and not moved. -/
def square_path : FPath :=
  { num_points := 4, points := [⟨24, 24⟩, ⟨56, 24⟩, ⟨56, 56⟩, ⟨24, 56⟩],
    rotation := 0, offset := FPointZero }

/-- A `cos_lookup` that is `TRIG_MAX_RATIO` everywhere (its value at angle 0). -/
def cos_zero : Int → Int := fun _ => TRIG_MAX_RATIO

/-- A `sin_lookup` that is 0 everywhere (its value at angle 0). -/
def sin_zero : Int → Int := fun _ => 0

/-- The flag bit of position `(x, y)` in the flag bytes `data`. -/
def flag_at (stride : Int) (data : Int → Nat) (x y : Int) : Bool :=
  (data (flag_addr stride x y)).testBit (flag_bit x)

/-- Edge `k` of the closed polygon `Q_0 .. Q_(n-1)`, from `Q_k` to
`Q_((k+1) mod n)`, spans row `r` and crosses it in column `x`. -/
def edge_hits (n : Nat) (Q : List FPoint) (r x : Int) (k : Nat) : Bool :=
  spans_row (Q.getD k FPointZero) (Q.getD ((k + 1) % n) FPointZero) r &&
  decide (crossing_column
    (edge_top (Q.getD k FPointZero) (Q.getD ((k + 1) % n) FPointZero))
    (edge_bottom (Q.getD k FPointZero) (Q.getD ((k + 1) % n) FPointZero)) r = x)

/-- The number of edges of the closed polygon `Q_0 .. Q_(n-1)` that span row
`r` and cross it in a column `≤ c`. -/
def edge_crossings (n : Nat) (Q : List FPoint) (r c : Int) : Nat :=
  (List.range n).countP fun k =>
    spans_row (Q.getD k FPointZero) (Q.getD ((k + 1) % n) FPointZero) r &&
    decide (crossing_column
      (edge_top (Q.getD k FPointZero) (Q.getD ((k + 1) % n) FPointZero))
      (edge_bottom (Q.getD k FPointZero) (Q.getD ((k + 1) % n) FPointZero)) r ≤ c)

/-- The value of pixel `(c, r)` in frame-buffer bytes with row size
`fbStride`: its byte in the build with `PBL_COLOR`, its bit (0 or 1) in the
1-bit build. -/
def surface_pixel (pbl_color : Bool) (fbData : Int → Nat) (fbStride : Int) (c r : Nat) : Nat :=
  if pbl_color then fbData (fbStride * r + c)
  else if (fbData (fbStride * r + Int.tdiv c 8)).testBit (Int.tmod c 8).toNat then 1 else 0

/-- The pixel value that `fpath_end_fill_bw` writes: the byte `fillColor.argb`
with `PBL_COLOR`, else the bit 1 for white and 0 for any other colour. -/
def fill_pixel (pbl_color : Bool) (fillColor : Nat) : Nat :=
  if pbl_color then fillColor else if fillColor = GColorWhite then 1 else 0

/-- The exclusive or of `g cb, g (cb + 1), .., g (cb + m - 1)`. -/
def prefix_xor (g : Nat → Bool) (cb : Nat) : Nat → Bool
  | 0 => false
  | m + 1 => (prefix_xor g cb m ^^ g (cb + m))

/-- The builder obtained from a successful `fpath_builder_create(N)` by one
`fpath_builder_line_to_point` for each point of a list, in order. -/
def builder_of_points (N : Nat) (ps : List FPoint) : Option FPathBuilder :=
  (fpath_builder_create true N).map fun b => (line_to_many b ps).2

/-- The C constant `FIXED_POINT_SCALE_AA`. -/
def FIXED_POINT_SCALE_AA : Int := 2

/-- The C function `fceil_aa`. -/
def fceil_aa (value : Int) : Int :=
  let numerator := value - 1 + FIXED_POINT_SCALE_AA
  if numerator ≥ 0 then
    Int.tdiv numerator FIXED_POINT_SCALE_AA
  else
    -(Int.tdiv (-numerator) FIXED_POINT_SCALE_AA)
      - (if Int.tmod (-numerator) FIXED_POINT_SCALE_AA ≠ 0 then 1 else 0)

/-! ## The anti-aliased rasteriser (`fpath.c`, builds with `PBL_COLOR`) -/

/-- The C function `fpath_rotate_to`. -/
def fpath_rotate_to (fpath : FPath) (angle : Int) : FPath :=
  { fpath with rotation := angle }

/-- The C function `fpath_move_to`. -/
def fpath_move_to (fpath : FPath) (point : FPoint) : FPath :=
  { fpath with offset := point }

/-- Modelled from the spec: field `r` of the SDK type `GColor` (`GColor8`, not
part of the sources), a byte `argb` of four 2-bit channels; in the SDK header
`b` is bits 0-1, `g` bits 2-3, `r` bits 4-5 and `a` bits 6-7. -/
def GColor.r (c : Nat) : Nat := c / 16 % 4

/-- Modelled from the spec: field `g` of the SDK type `GColor`. -/
def GColor.g (c : Nat) : Nat := c / 4 % 4

/-- Modelled from the spec: field `b` of the SDK type `GColor`. -/
def GColor.b (c : Nat) : Nat := c % 4

/-- Modelled from the spec: field `a` of the SDK type `GColor`. -/
def GColor.a (c : Nat) : Nat := c / 64 % 4

/-- Modelled from the spec: the byte `argb` of a `GColor` whose four 2-bit
fields were assigned `a`, `r`, `g`, `b`. -/
def GColor.argb (a r g b : Nat) : Nat := a % 4 * 64 + r % 4 * 16 + g % 4 * 4 + b % 4

/-- The value that `fpath_calc_ramp_aa` stores in one channel of `c` at step
`k`: `(c0.ch * 8 + (c1.ch - c0.ch) * k + 4) / 8` assigned to a 2-bit field. -/
def ramp_channel (ch0 ch1 k : Nat) : Nat :=
  (Int.tdiv ((ch0 : Int) * 8 + ((ch1 : Int) - (ch0 : Int)) * (k : Int) + 4) 8 % 4).toNat

/-- The colour `c` that the loop of `fpath_calc_ramp_aa` stores in
`aaramp[k]`. -/
def ramp_color (c0 c1 k : Nat) : Nat :=
  GColor.argb 3 (ramp_channel (GColor.r c0) (GColor.r c1) k)
    (ramp_channel (GColor.g c0) (GColor.g c1) k)
    (ramp_channel (GColor.b c0) (GColor.b c1) k)

/-- The C function `fpath_calc_ramp_aa`: all nine entries of `aaramp` are
stored. -/
def fpath_calc_ramp_aa (fctx : FContext) : FContext :=
  let c0 := fctx.strokeColor
  let c1 := fctx.fillColor
  { fctx with
    aaramp := c0 :: ((List.range' 1 7).map (ramp_color c0 c1) ++ [c1]),
    aarampDirty := false }

/-- The C function `edge_init_aa`, on the edge `e` it is handed (whose fields
it leaves alone when the height is 0).  `none` is a failed assertion of
`floorDivMod`. -/
def edge_init_aa (e : Edge) (top bottom : FPoint) : Option Edge :=
  let y := fceil_aa top.y
  let yEnd := fceil_aa bottom.y
  let height := yEnd - y
  if height ≠ 0 then
    let dN := bottom.y - top.y
    let dM := bottom.x - top.x
    let initialNumerator := dM * 2 * y - dM * top.y + dN * top.x - 1 + dN * 2
    match floorDivMod initialNumerator (dN * 2), floorDivMod (dM * 2) (dN * 2) with
    | some (x, errorTerm), some (xStep, numerator) =>
      some { x := x, xStep := xStep, numerator := numerator, denominator := dN * 2,
             errorTerm := errorTerm, y := y, height := height }
    | _, _ => none
  else
    some { e with y := y, height := height }

/-- The table `offsets` of `fpath_plot_edge_aa`, in eighths of a pixel. -/
def offsets_aa : List Int := [2, 7, 4, 1, 6, 3, 0, 5]

/-- The body of the loop of `fpath_plot_edge_aa` up to `edge_step`, at
`(edge.x, edge.y) = (x, y)`.  `y & 7` on a two's complement `int32_t` is the
non-negative remainder of `y` by 8. -/
def toggle_flag_aa (stride : Int) (data : Int → Nat) (x y : Int) : Int → Nat :=
  let ySub := (y % 8).toNat
  let mask := 1 <<< ySub
  let pixelX := Int.tdiv (x + offsets_aa.getD ySub 0) 8
  let pixelY := Int.tdiv y 8
  let p := pixelY * stride + pixelX
  Function.update data p (data p ^^^ mask)

/-- The loop `while (height--) \x7b ... edge_step(&edge); \x7d` of
`fpath_plot_edge_aa`, for `n` iterations. -/
def plot_loop_aa (stride : Int) : Nat → (Int → Nat) → Edge → (Int → Nat)
  | 0, data, _ => data
  | n + 1, data, edge =>
    plot_loop_aa stride n (toggle_flag_aa stride data edge.x edge.y) (edge_step edge)

/-- The edge that `fpath_plot_edge_aa` initialises: the point with the
smaller `y` is the top. -/
def plot_edge_init_aa (a b : FPoint) : Option Edge :=
  if a.y > b.y then edge_init_aa Edge.uninit b a else edge_init_aa Edge.uninit a b

/-- The C function `fpath_plot_edge_aa`.  The loop runs `edge.height` times. -/
def fpath_plot_edge_aa (fctx : FContext) (a b : FPoint) : Option FContext :=
  match plot_edge_init_aa a b with
  | none => none
  | some edge =>
    let data := plot_loop_aa fctx.flagBuffer.row_size_bytes edge.height.toNat
      fctx.flagBuffer.data edge
    some { fctx with flagBuffer := { fctx.flagBuffer with data := data } }

/-- The array `points` of `fpath_draw_filled_aa` after its first loop. -/
def transformed_points_aa (cos_lookup sin_lookup : Int → Int) (fpath : FPath) : List FPoint :=
  (List.range fpath.num_points).map fun k =>
    transform_point (cos_lookup fpath.rotation) (sin_lookup fpath.rotation)
      (-1) fpath.offset (fpath.points.getD k FPointZero)

/-- The second loop of `fpath_draw_filled_aa`: the edges
`(points[k], points[(k+1) % n])` for the `k` of a list, in order. -/
def plot_edges_aa (num_points : Nat) (points : List FPoint) :
    List Nat → FContext → Option FContext
  | [], fctx => some fctx
  | k :: ks, fctx =>
    match fpath_plot_edge_aa fctx (points.getD k FPointZero)
        (points.getD ((k + 1) % num_points) FPointZero) with
    | none => none
    | some fctx1 => plot_edges_aa num_points points ks fctx1

/-- The C function `fpath_draw_filled_aa`; when `malloc` fails nothing is
drawn. -/
def fpath_draw_filled_aa (cos_lookup sin_lookup : Int → Int) (malloc_ok : Bool)
    (fctx : FContext) (fpath : FPath) : Option FContext :=
  if malloc_ok then
    let points := transformed_points_aa cos_lookup sin_lookup fpath
    plot_edges_aa fpath.num_points points (List.range fpath.num_points)
      (points.foldl grow_bounds fctx)
  else some fctx

/-- The loop of the C function `countBits`, from the values `v` and `c`, for
at most `fuel` passes. -/
def countBits_loop : Nat → Nat → Nat → Nat
  | 0, _, c => c
  | fuel + 1, v, c => if v = 0 then c else countBits_loop fuel (v &&& (v - 1)) (c + 1)

/-- The C function `countBits` on the byte `v`.  Each pass of the loop lowers
`v`, so `v` passes are enough (see `countBits_loop_fuel`); the count is
returned as a `uint8_t`. -/
def countBits (v : Nat) : Nat := countBits_loop v v 0 % 256

/-- The state of the loops of `fpath_end_fill_aa`: flag bytes, frame-buffer
bytes, the byte `mask` and the offsets of the pointers `dest` (from `fbData`)
and `src` (from `data`). -/
structure ScanStateAA where
  data : Int → Nat
  fbData : Int → Nat
  mask : Nat
  dest : Int
  src : Int

/-- The body of the inner loop of `fpath_end_fill_aa` with its increments
`++dest, ++src`. -/
def end_fill_step_aa (aaramp : List Nat) (st : ScanStateAA) : ScanStateAA :=
  let mask := (st.mask ^^^ st.data st.src) % 256
  let data := Function.update st.data st.src 0
  let coverage := countBits mask
  let fbData :=
    if coverage > 0 then Function.update st.fbData st.dest (aaramp.getD coverage 0)
    else st.fbData
  { data := data, fbData := fbData, mask := mask, dest := st.dest + 1, src := st.src + 1 }

/-- One pass of the outer loop of `fpath_end_fill_aa`: `mask = 0`, the columns
`colBegin` up to `colEnd` (not included), then `dest += fbStep, src += step`. -/
def end_fill_row_aa (aaramp : List Nat) (colBegin colEnd : Nat) (fbStep step : Int)
    (st : ScanStateAA) : ScanStateAA :=
  let st1 := (List.range' colBegin (colEnd - colBegin)).foldl
    (fun st2 _ => end_fill_step_aa aaramp st2) { st with mask := 0 }
  { st1 with dest := st1.dest + fbStep, src := st1.src + step }

/-- The C function `fpath_end_fill_aa`.  The loop counters are `uint16_t`;
the loops are unrolled for counters that do not wrap (`rowEnd` and `colEnd`
below 65535).  `fbStep` and `step` are `uint16_t` too. -/
def fpath_end_fill_aa (fctx0 : FContext) : FContext :=
  let fctx := if fctx0.aarampDirty then fpath_calc_ramp_aa fctx0 else fctx0
  let rowBegin := toUInt16 (FIXED_TO_INT fctx.min.y)
  let rowEnd := toUInt16 (FIXED_TO_INT fctx.max.y + 2)
  let colBegin := toUInt16 (FIXED_TO_INT fctx.min.x)
  let colEnd := toUInt16 (FIXED_TO_INT fctx.max.x + 2)
  let fbStride : Int := toUInt16 fctx.frameBuffer.row_size_bytes
  let fbStep : Int := toUInt16 (fbStride - ((colEnd : Int) - (colBegin : Int)))
  let stride : Int := toUInt16 fctx.flagBuffer.row_size_bytes
  let step : Int := toUInt16 (stride - ((colEnd : Int) - (colBegin : Int)))
  let st := (List.range' rowBegin (rowEnd - rowBegin)).foldl
    (fun st1 _ => end_fill_row_aa fctx.aaramp colBegin colEnd fbStep step st1)
    { data := fctx.flagBuffer.data, fbData := fctx.frameBuffer.data, mask := 0,
      dest := (rowBegin : Int) * fbStride + (colBegin : Int),
      src := (rowBegin : Int) * stride + (colBegin : Int) }
  { fctx with
    flagBuffer := { fctx.flagBuffer with data := st.data },
    frameBuffer := { fctx.frameBuffer with data := st.fbData } }

/-- The C function `fpath_set_stroke_color`; `pbl_color` tells whether the
build defines `PBL_COLOR`. -/
def fpath_set_stroke_color (pbl_color : Bool) (fctx : FContext) (c : Nat) : FContext :=
  { fctx with strokeColor := c,
              aarampDirty := if pbl_color then true else fctx.aarampDirty }

/-- The C function `fpath_set_fill_color`; `pbl_color` tells whether the
build defines `PBL_COLOR`. -/
def fpath_set_fill_color (pbl_color : Bool) (fctx : FContext) (c : Nat) : FContext :=
  { fctx with fillColor := c,
              aarampDirty := if pbl_color then true else fctx.aarampDirty }

/-- The C function `fpath_init_context_aa` when
`graphics_capture_frame_buffer` hands out `frameBuffer`; `flag_stride` is the
row size of the bitmap that `gbitmap_create_blank` returns.  The colours are
the `argb` bytes of `GColorBlack` (192) and `GColorWhite` (255) in the colour
SDK. -/
def fpath_init_context_aa (fctx : FContext) (frameBuffer : GBitmap) (flag_stride : Int) :
    FContext :=
  { fctx with
    frameBuffer := frameBuffer,
    flagBuffer := blank_bitmap flag_stride (frameBuffer.bounds.w + 1)
      (frameBuffer.bounds.h + 1),
    strokeColor := 192, fillColor := 255, aarampDirty := true }

/-- A call on a context of the anti-aliased strategy after its
initialisation. -/
inductive AACall where
  | set_stroke_color (c : Nat)
  | set_fill_color (c : Nat)
  | begin_fill
  | draw_filled (malloc_ok : Bool) (fpath : FPath)
  | end_fill

/-- The context after one call of the anti-aliased strategy (`PBL_COLOR`
build); `none` is a failed assertion inside `fpath_draw_filled_aa`. -/
def run_call_aa (cos_lookup sin_lookup : Int → Int) (fctx : FContext) :
    AACall → Option FContext
  | AACall.set_stroke_color c => some (fpath_set_stroke_color true fctx c)
  | AACall.set_fill_color c => some (fpath_set_fill_color true fctx c)
  | AACall.begin_fill => some (fpath_begin_fill_bw fctx)
  | AACall.draw_filled malloc_ok fpath =>
    fpath_draw_filled_aa cos_lookup sin_lookup malloc_ok fctx fpath
  | AACall.end_fill => some (fpath_end_fill_aa fctx)

/-- The context after a sequence of calls, in order. -/
def run_calls_aa (cos_lookup sin_lookup : Int → Int) : FContext → List AACall → Option FContext
  | fctx, [] => some fctx
  | fctx, call :: rest =>
    match run_call_aa cos_lookup sin_lookup fctx call with
    | none => none
    | some fctx1 => run_calls_aa cos_lookup sin_lookup fctx1 rest

/-! ## Specification-side notions for the anti-aliased rasteriser -/

/-- The number of set bits among the eight low bits of `v`. -/
def bit_count (v : Nat) : Nat := (List.range 8).countP fun i => v.testBit i

/-- The XOR, as a `uint8_t`, of the `m` bytes of `data` at the offsets
`s, s + 1, ..., s + m - 1`. -/
def flag_bytes_xor (data : Int → Nat) (s : Int) : Nat → Nat
  | 0 => 0
  | m + 1 => (flag_bytes_xor data s m ^^^ data (s + (m : Int))) % 256

/-- The ramp that `fpath_end_fill_aa` reads: computed by
`fpath_calc_ramp_aa` when `aarampDirty` is set, else the stored one. -/
def ramp_in_use (fctx : FContext) : List Nat :=
  (if fctx.aarampDirty then fpath_calc_ramp_aa fctx else fctx).aaramp

/-- The count of the XOR of the flag bytes of row `r` from column
`FIXED_TO_INT(min.x)` (`colBegin`) through column `c`. -/
def coverage_aa (fctx : FContext) (r c : Int) : Nat :=
  countBits (flag_bytes_xor fctx.flagBuffer.data
    (r * fctx.flagBuffer.row_size_bytes + FIXED_TO_INT fctx.min.x)
    ((c - FIXED_TO_INT fctx.min.x).toNat + 1))

/-- The state of `fpath_end_fill_aa` after `i` passes of its outer loop that
started at the offsets `s0` (flags) and `d0` (frame buffer) and advanced by
`stride` and `fbStride` per pass, each pass over `n` columns: the flag bytes
of the rows passed are zero, the others are as in `data0`; of the rows passed,
destination byte `j` holds `aaramp[coverage]` when the coverage, the count
of the XOR of the first `j + 1` flag bytes of the row, is positive, and every
other byte is as in `fb0`. -/
def RowsScannedAA (aaramp : List Nat) (data0 fb0 : Int → Nat) (s0 d0 stride fbStride : Int)
    (n i : Nat) (st : ScanStateAA) : Prop :=
  st.src = s0 + (i : Int) * stride ∧ st.dest = d0 + (i : Int) * fbStride ∧
  (∀ k j : Nat, k < i → j < n → st.data (s0 + (k : Int) * stride + (j : Int)) = 0) ∧
  (∀ a, (∀ k : Nat, k < i →
      ¬ (s0 + (k : Int) * stride ≤ a ∧ a < s0 + (k : Int) * stride + (n : Int))) →
    st.data a = data0 a) ∧
  (∀ k j : Nat, k < i → j < n →
    st.fbData (d0 + (k : Int) * fbStride + (j : Int)) =
      if 0 < countBits (flag_bytes_xor data0 (s0 + (k : Int) * stride) (j + 1)) then
        aaramp.getD (countBits (flag_bytes_xor data0 (s0 + (k : Int) * stride) (j + 1))) 0
      else fb0 (d0 + (k : Int) * fbStride + (j : Int))) ∧
  (∀ a, (∀ k : Nat, k < i →
      ¬ (d0 + (k : Int) * fbStride ≤ a ∧ a < d0 + (k : Int) * fbStride + (n : Int))) →
    st.fbData a = fb0 a)

/-- Channel `ch` of the ramp `ramp` interpolates from `c0` to `c1`: for
`k` in 1..7 it is `floor((c0.ch * (8 - k) + c1.ch * k + 4) / 8)` and lies
between the channels of `c0` and `c1`, and over the indices 0..8 it is
monotone, in the direction from `c0.ch` to `c1.ch`. -/
def RampChannelSpec (ch : Nat → Nat) (c0 c1 : Nat) (ramp : List Nat) : Prop :=
  (∀ k, 1 ≤ k → k ≤ 7 →
    ch (ramp.getD k 0) = (ch c0 * (8 - k) + ch c1 * k + 4) / 8 ∧
    min (ch c0) (ch c1) ≤ ch (ramp.getD k 0) ∧
    ch (ramp.getD k 0) ≤ max (ch c0) (ch c1)) ∧
  (∀ j k, j ≤ k → k ≤ 8 →
    (ch c0 ≤ ch c1 → ch (ramp.getD j 0) ≤ ch (ramp.getD k 0)) ∧
    (ch c1 ≤ ch c0 → ch (ramp.getD k 0) ≤ ch (ramp.getD j 0)))

/-- The axis-aligned rectangle with corners `(x0, y0)` and `(x1, y1)`,
unrotated, moved to the offset `(ox, oy)`. -/
def rectangle_path (x0 y0 x1 y1 ox oy : Int) : FPath :=
  { num_points := 4, points := [⟨x0, y0⟩, ⟨x1, y0⟩, ⟨x1, y1⟩, ⟨x0, y1⟩],
    rotation := 0, offset := ⟨ox, oy⟩ }

/-- A context for a `w` by `h` surface as `fpath_init_context_aa` leaves it:
the flag bitmap is one larger in each direction and blank, the stroke colour
is `GColorBlack` (`argb` 192) and the fill colour `GColorWhite` (`argb` 255). -/
def blank_context_aa (w h fbStride stride : Int) : FContext :=
  { blank_context w h fbStride stride 255 with strokeColor := 192 }

/-- The triangle with corners (1,15), (33,15) and (33,19), unrotated and not
moved; drawn anti-aliased, its corners are (0,14), (32,14) and (32,18). -/
def thin_triangle_path : FPath :=
  { num_points := 3, points := [⟨1, 15⟩, ⟨33, 15⟩, ⟨33, 19⟩], rotation := 0,
    offset := FPointZero }

/-- The context that drawing `thin_triangle_path` anti-aliased on a blank 2 by
2 surface with 3-byte flag rows leaves (see `thin_triangle_drawn`): the box
(0,14)-(32,18) and the four flags toggled at the sub-pixel positions (16,7),
(16,8), (0,7) and (8,8). -/
def thin_triangle_context : FContext :=
  { blank_context_aa 2 2 2 3 with
    min := ⟨0, 14⟩, max := ⟨32, 18⟩,
    flagBuffer := { blank_bitmap 3 3 3 with
      data := toggle_flag_aa 3 (toggle_flag_aa 3 (toggle_flag_aa 3
        (toggle_flag_aa 3 (fun _ => 0) 16 7) 16 8) 0 7) 8 8 } }

/-- A context of a 4 by 4 surface between drawing and `fpath_end_fill_aa`:
5-byte flag rows, 4-byte frame-buffer rows, the box (16,16)-(32,32) and the
one flag byte of row 1, column 1 set to 255. -/
def one_flag_context : FContext :=
  { blank_context_aa 4 4 4 5 with
    min := ⟨16, 16⟩, max := ⟨32, 32⟩,
    flagBuffer := { blank_bitmap 5 5 5 with data := fun a => if a = 6 then 255 else 0 } }

/-- A lookup that gives direction 65000 to every chord with `dy < 0` and
direction 100 to every other chord. -/
def atan2_near_axis : Int → Int → Int :=
  fun y _ => if y < 0 then 65000 else 100

/-- The column, in eighths of a pixel, in which the edge from `top` to
`bottom` crosses the sub-scanline `y = 2 * r`: the exact intersection
`top.x + (2 r - top.y) * (bottom.x - top.x) / (bottom.y - top.y)`, in
sixteenths of a pixel, rounded up to a whole eighth. -/
def crossing_column_aa (top bottom : FPoint) (r : Int) : Int :=
  ceil_div (top.x * (bottom.y - top.y) + (2 * r - top.y) * (bottom.x - top.x))
    (2 * (bottom.y - top.y))

/-- The invariant of the DDA that `edge_init_aa` sets up for the edge from
`top` to `bottom`: as `EdgeInv`, with the scale 2 in place of 16. -/
def EdgeInvAA (top bottom : FPoint) (e : Edge) : Prop :=
  0 < 2 * (bottom.y - top.y) ∧
  e.denominator = 2 * (bottom.y - top.y) ∧
  0 ≤ e.numerator ∧ e.numerator < e.denominator ∧
  e.xStep * e.denominator + e.numerator = 2 * (bottom.x - top.x) ∧
  0 ≤ e.errorTerm ∧ e.errorTerm < e.denominator ∧
  e.x * e.denominator + e.errorTerm =
    top.x * (bottom.y - top.y) + (2 * e.y - top.y) * (bottom.x - top.x)
      + e.denominator - 1

/-- The largest absolute coordinate difference between consecutive control
points of the control polygon `(x1,y1) (x2,y2) (x3,y3) (x4,y4)`. -/
def control_span (x1 y1 x2 y2 x3 y3 x4 y4 : Int) : Nat :=
  max (max (max (x2 - x1).natAbs (x3 - x2).natAbs) (x4 - x3).natAbs)
    (max (max (y2 - y1).natAbs (y3 - y2).natAbs) (y4 - y3).natAbs)

/-- The ramp invariant: `aarampDirty` is set, or `aaramp` is the ramp that
`fpath_calc_ramp_aa` computes from the current colours. -/
def RampFresh (fctx : FContext) : Prop :=
  fctx.aarampDirty = true ∨ fctx.aaramp = (fpath_calc_ramp_aa fctx).aaramp

/-- The colours and the ramp are the same in `c` and `c1`. -/
def SameRamp (c c1 : FContext) : Prop :=
  c1.strokeColor = c.strokeColor ∧ c1.fillColor = c.fillColor ∧
  c1.aarampDirty = c.aarampDirty ∧ c1.aaramp = c.aaramp

/-- The number of flag positions on row `r` among those that
`fpath_plot_edge_bw` toggles for the edge `(a, b)`. -/
def row_toggles (a b : FPoint) (r : Int) : Nat :=
  match plot_edge_init a b with
  | none => 0
  | some e => (edge_positions e.height.toNat e).countP fun p => decide (p.2 = r)

/-- The state of the scan of `fpath_end_fill_bw` on the context `fctx1` when
the outer loop has passed its first `i` rows. -/
def scan_state_bw (pbl_color : Bool) (fctx1 : FContext) (i : Nat) : ScanState :=
  (List.range' (toUInt16 (FIXED_TO_INT fctx1.min.y)) i).foldl
    (end_fill_row_bw pbl_color (fill_byte_bw pbl_color fctx1.fillColor)
      fctx1.flagBuffer.row_size_bytes fctx1.frameBuffer.row_size_bytes
      (toUInt16 (FIXED_TO_INT fctx1.min.x)) (toUInt16 (FIXED_TO_INT fctx1.max.x + 1)))
    { data := fctx1.flagBuffer.data, fbData := fctx1.frameBuffer.data, inside := false }

/-! ## Theorems: path builder -/

theorem uint32_pred_eq (a : Nat) (h1 : 1 ≤ a) (h32 : a < 4294967296) :
    uint32_pred a = a - 1 := by
  unfold uint32_pred
  omega

theorem line_to_max_points (b : FPathBuilder) (p : FPoint) :
    (fpath_builder_line_to_point b p).2.max_points = b.max_points := by
  unfold fpath_builder_line_to_point
  split <;> rfl

theorem line_to_length (b : FPathBuilder) (p : FPoint) :
    (fpath_builder_line_to_point b p).2.points.length = b.points.length := by
  unfold fpath_builder_line_to_point
  split <;> simp

theorem line_to_num_points_le (b : FPathBuilder) (p : FPoint) :
    b.num_points ≤ (fpath_builder_line_to_point b p).2.num_points := by
  unfold fpath_builder_line_to_point
  split <;> simp

theorem line_to_false_unchanged (b : FPathBuilder) (p : FPoint)
    (h : (fpath_builder_line_to_point b p).1 = false) :
    (fpath_builder_line_to_point b p).2 = b := by
  unfold fpath_builder_line_to_point at h ⊢
  split
  · rfl
  · rename_i hlt
    simp [hlt] at h

theorem line_to_false_full (b : FPathBuilder) (p : FPoint)
    (h : (fpath_builder_line_to_point b p).1 = false) :
    uint32_pred b.max_points ≤ b.num_points := by
  unfold fpath_builder_line_to_point at h
  split at h
  · assumption
  · simp at h

theorem line_to_true_iff (b : FPathBuilder) (p : FPoint) :
    (fpath_builder_line_to_point b p).1 = true ↔ b.num_points < uint32_pred b.max_points := by
  unfold fpath_builder_line_to_point
  split
  · simp; omega
  · simp; omega

theorem line_to_true_eq (b : FPathBuilder) (p : FPoint)
    (h : b.num_points < uint32_pred b.max_points) :
    fpath_builder_line_to_point b p =
      (true, { b with points := b.points.set b.num_points p,
                      num_points := b.num_points + 1 }) := by
  unfold fpath_builder_line_to_point
  rw [if_neg (by omega)]

theorem line_to_getElem_lt (b : FPathBuilder) (p : FPoint) (i : Nat) (hi : i < b.num_points) :
    (fpath_builder_line_to_point b p).2.points[i]? = b.points[i]? := by
  unfold fpath_builder_line_to_point
  split
  · rfl
  · simp only [List.getElem?_set]
    rw [if_neg (by omega)]

theorem line_to_getElem_gt (b : FPathBuilder) (p : FPoint) (i : Nat)
    (hi : (fpath_builder_line_to_point b p).2.num_points ≤ i) :
    (fpath_builder_line_to_point b p).2.points[i]? = b.points[i]? := by
  by_cases hlt : b.num_points < uint32_pred b.max_points
  · rw [line_to_true_eq b p hlt] at hi ⊢
    simp only [List.getElem?_set]
    simp only at hi
    rw [if_neg (by omega)]
  · have h1 : (fpath_builder_line_to_point b p).1 = false := by
      cases h : (fpath_builder_line_to_point b p).1
      · rfl
      · exact absurd ((line_to_true_iff b p).1 h) hlt
    rw [line_to_false_unchanged b p h1]

/-- A property of builders that every `line_to` keeps is kept by the
flattening recursion, whatever it returns. -/
theorem recursive_bezier_preserves (atan2_lookup : Int → Int → Int)
    (P : FPathBuilder → Prop)
    (hP : ∀ b p, P b → P (fpath_builder_line_to_point b p).2) :
    ∀ (fuel : Nat) (b : FPathBuilder) (x1 y1 x2 y2 x3 y3 x4 y4 : Int) (r : Bool)
      (b1 : FPathBuilder), P b →
      recursive_bezier_fixed atan2_lookup fuel b x1 y1 x2 y2 x3 y3 x4 y4 = some (r, b1) →
      P b1 := by
  intro fuel
  induction fuel with
  | zero =>
    intro b x1 y1 x2 y2 x3 y3 x4 y4 r b1 _ h
    simp [recursive_bezier_fixed] at h
  | succ n ih =>
    intro b x1 y1 x2 y2 x3 y3 x4 y4 r b1 hb h
    simp only [recursive_bezier_fixed] at h
    split at h
    · simp only [Option.some.injEq] at h
      have key := congrArg Prod.snd h
      simp only at key
      rw [← key]
      exact hP _ _ hb
    · split at h
      · exact absurd h (by simp)
      · rename_i b2 hl
        simp only [Option.some.injEq, Prod.mk.injEq] at h
        rw [← h.2]
        exact ih _ _ _ _ _ _ _ _ _ _ _ hb hl
      · rename_i b2 hl
        have hb2 := ih _ _ _ _ _ _ _ _ _ _ _ hb hl
        split at h
        · exact absurd h (by simp)
        · rename_i b3 hr
          simp only [Option.some.injEq, Prod.mk.injEq] at h
          rw [← h.2]
          exact ih _ _ _ _ _ _ _ _ _ _ _ hb2 hr
        · rename_i b3 hr
          simp only [Option.some.injEq, Prod.mk.injEq] at h
          rw [← h.2]
          exact ih _ _ _ _ _ _ _ _ _ _ _ hb2 hr

/-- When the recursion reports failure the builder it leaves is full. -/
theorem recursive_bezier_false_full (atan2_lookup : Int → Int → Int) :
    ∀ (fuel : Nat) (b : FPathBuilder) (x1 y1 x2 y2 x3 y3 x4 y4 : Int) (b1 : FPathBuilder),
      recursive_bezier_fixed atan2_lookup fuel b x1 y1 x2 y2 x3 y3 x4 y4 = some (false, b1) →
      uint32_pred b1.max_points ≤ b1.num_points := by
  intro fuel
  induction fuel with
  | zero =>
    intro b x1 y1 x2 y2 x3 y3 x4 y4 b1 h
    simp [recursive_bezier_fixed] at h
  | succ n ih =>
    intro b x1 y1 x2 y2 x3 y3 x4 y4 b1 h
    simp only [recursive_bezier_fixed] at h
    split at h
    · simp only [Option.some.injEq] at h
      have h1 := congrArg Prod.fst h
      have key := congrArg Prod.snd h
      simp only at h1 key
      have h2 := line_to_false_unchanged b _ h1
      have h3 := line_to_false_full b _ h1
      rw [← key, h2]
      exact h3
    · split at h
      · exact absurd h (by simp)
      · rename_i b2 hl
        simp only [Option.some.injEq, Prod.mk.injEq, true_and] at h
        rw [← h]
        exact ih _ _ _ _ _ _ _ _ _ _ hl
      · rename_i b2 hl
        split at h
        · exact absurd h (by simp)
        · rename_i b3 hr
          simp only [Option.some.injEq, Prod.mk.injEq, true_and] at h
          rw [← h]
          exact ih _ _ _ _ _ _ _ _ _ _ hr
        · simp at h

/-- When the recursion reports success it has appended at least one point. -/
theorem recursive_bezier_true_grows (atan2_lookup : Int → Int → Int) :
    ∀ (fuel : Nat) (b : FPathBuilder) (x1 y1 x2 y2 x3 y3 x4 y4 : Int) (b1 : FPathBuilder),
      recursive_bezier_fixed atan2_lookup fuel b x1 y1 x2 y2 x3 y3 x4 y4 = some (true, b1) →
      b.num_points < b1.num_points := by
  intro fuel
  induction fuel with
  | zero =>
    intro b x1 y1 x2 y2 x3 y3 x4 y4 b1 h
    simp [recursive_bezier_fixed] at h
  | succ n ih =>
    intro b x1 y1 x2 y2 x3 y3 x4 y4 b1 h
    simp only [recursive_bezier_fixed] at h
    split at h
    · simp only [Option.some.injEq] at h
      have h1 := congrArg Prod.fst h
      simp only at h1
      have h2 := (line_to_true_iff b _).1 h1
      rw [line_to_true_eq b _ h2] at h
      simp only [Prod.mk.injEq, true_and] at h
      rw [← h]
      simp
    · split at h
      · exact absurd h (by simp)
      · simp at h
      · rename_i b2 hl
        have hb2 := ih _ _ _ _ _ _ _ _ _ _ hl
        split at h
        · exact absurd h (by simp)
        · simp at h
        · rename_i b3 hr
          simp only [Option.some.injEq, Prod.mk.injEq, true_and] at h
          rw [← h]
          have := ih _ _ _ _ _ _ _ _ _ _ hr
          omega

theorem line_to_keeps_invariant (N : Nat) (hN1 : 1 ≤ N) (hN32 : N < 4294967296)
    (b : FPathBuilder) (p : FPoint) (h : CapacityInv N b) :
    CapacityInv N (fpath_builder_line_to_point b p).2 := by
  obtain ⟨h1, h2, h3, h4⟩ := h
  refine ⟨?_, ?_, ?_, ?_⟩
  · by_cases hlt : b.num_points < uint32_pred b.max_points
    · rw [line_to_true_eq b p hlt]
      rw [h2, uint32_pred_eq N hN1 hN32] at hlt
      simp only
      omega
    · have hf : (fpath_builder_line_to_point b p).1 = false := by
        cases h : (fpath_builder_line_to_point b p).1
        · rfl
        · exact absurd ((line_to_true_iff b p).1 h) hlt
      rw [line_to_false_unchanged b p hf]
      exact h1
  · rw [line_to_max_points, h2]
  · rw [line_to_length, h3]
  · intro i hi hiN
    rw [line_to_getElem_gt b p i hi]
    exact h4 i (le_trans (line_to_num_points_le b p) hi) hiN

theorem extends_refl (b : FPathBuilder) : Extends b b :=
  ⟨rfl, rfl, le_refl _, fun h => h, fun _ _ => rfl⟩

theorem line_to_extends (b0 : FPathBuilder) (h1 : 1 ≤ b0.max_points)
    (h32 : b0.max_points < 4294967296) (b : FPathBuilder) (p : FPoint)
    (h : Extends b0 b) : Extends b0 (fpath_builder_line_to_point b p).2 := by
  obtain ⟨e1, e2, e3, e4, e5⟩ := h
  refine ⟨?_, ?_, ?_, ?_, ?_⟩
  · rw [line_to_max_points, e1]
  · rw [line_to_length, e2]
  · exact le_trans e3 (line_to_num_points_le b p)
  · intro hcap
    have := e4 hcap
    by_cases hlt : b.num_points < uint32_pred b.max_points
    · rw [line_to_true_eq b p hlt]
      rw [e1, uint32_pred_eq _ h1 h32] at hlt
      simp only
      omega
    · have hf : (fpath_builder_line_to_point b p).1 = false := by
        cases h : (fpath_builder_line_to_point b p).1
        · rfl
        · exact absurd ((line_to_true_iff b p).1 h) hlt
      rw [line_to_false_unchanged b p hf]
      exact this
  · intro i hi
    rw [line_to_getElem_lt b p i (by omega)]
    exact e5 i hi

theorem take_eq_of_extends (b b1 : FPathBuilder) (h : Extends b b1) :
    b1.points.take b.num_points = b.points.take b.num_points := by
  apply List.ext_getElem?
  intro n
  simp only [List.getElem?_take]
  split
  · exact h.2.2.2.2 n (by assumption)
  · rfl

theorem prefix_of_extends (b b1 : FPathBuilder) (h : Extends b b1) :
    b.points.take b.num_points <+: b1.points.take b1.num_points := by
  rw [← take_eq_of_extends b b1 h]
  exact List.take_isPrefix_take.2 (Or.inl h.2.2.1)

/-- A property of builders that every `line_to` keeps is kept by `curve_to`. -/
theorem curve_to_preserves (atan2_lookup : Int → Int → Int)
    (P : FPathBuilder → Prop)
    (hP : ∀ b p, P b → P (fpath_builder_line_to_point b p).2)
    (fuel : Nat) (b : FPathBuilder) (p c1 c2 : FPoint) (r : Bool) (b1 : FPathBuilder)
    (hb : P b)
    (h : fpath_builder_curve_to_point atan2_lookup fuel b p c1 c2 = some (r, b1)) :
    P b1 := by
  simp only [fpath_builder_curve_to_point, bezier_fixed] at h
  split at h
  · exact absurd h (by simp)
  · rename_i b2 hrec
    simp only [Option.some.injEq] at h
    have key := congrArg Prod.snd h
    simp only at key
    rw [← key]
    exact hP _ _ (recursive_bezier_preserves atan2_lookup P hP _ _ _ _ _ _ _ _ _ _ _ _ hb hrec)
  · rename_i b2 hrec
    simp only [Option.some.injEq, Prod.mk.injEq] at h
    rw [← h.2]
    exact recursive_bezier_preserves atan2_lookup P hP _ _ _ _ _ _ _ _ _ _ _ _ hb hrec

/-- C3. On a builder with `max_points ≥ 1` and `num_points = max_points - 1`,
`fpath_builder_line_to_point` returns false and the builder it leaves is the
builder it was given: `num_points`, `max_points` and every stored point are
unchanged. -/
theorem line_to_at_capacity_fails (b : FPathBuilder) (p : FPoint)
    (h1 : 1 ≤ b.max_points) (h32 : b.max_points < 4294967296)
    (hfull : b.num_points = b.max_points - 1) :
    fpath_builder_line_to_point b p = (false, b) := by
  unfold fpath_builder_line_to_point
  rw [uint32_pred_eq _ h1 h32, if_pos (by omega)]

theorem line_to_at_capacity_fails_witness :
    fpath_builder_line_to_point
      { max_points := 3, num_points := 2, points := [⟨16, 0⟩, ⟨32, 0⟩, ⟨0, 0⟩] } ⟨48, 16⟩ =
    (false, { max_points := 3, num_points := 2, points := [⟨16, 0⟩, ⟨32, 0⟩, ⟨0, 0⟩] }) :=
  line_to_at_capacity_fails _ _ (by decide) (by decide) (by decide)

/-- C4. On a builder with `max_points ≥ 1` and `num_points < max_points - 1`,
`fpath_builder_line_to_point` returns true, `num_points` grows by exactly one,
the slot at the old `num_points` holds `p`, `max_points` and every slot below
are unchanged, and the stored sequence becomes the old sequence with `p`
appended. -/
theorem line_to_with_room_appends (b : FPathBuilder) (p : FPoint)
    (hlen : b.points.length = b.max_points)
    (h1 : 1 ≤ b.max_points) (h32 : b.max_points < 4294967296)
    (hroom : b.num_points < b.max_points - 1) :
    (fpath_builder_line_to_point b p).1 = true ∧
    (fpath_builder_line_to_point b p).2.num_points = b.num_points + 1 ∧
    (fpath_builder_line_to_point b p).2.points[b.num_points]? = some p ∧
    (fpath_builder_line_to_point b p).2.max_points = b.max_points ∧
    (∀ i, i < b.num_points →
      (fpath_builder_line_to_point b p).2.points[i]? = b.points[i]?) ∧
    (fpath_builder_line_to_point b p).2.points.take
        (fpath_builder_line_to_point b p).2.num_points =
      b.points.take b.num_points ++ [p] := by
  have hlt : b.num_points < uint32_pred b.max_points := by
    rw [uint32_pred_eq _ h1 h32]; exact hroom
  have hget : (b.points.set b.num_points p)[b.num_points]? = some p := by
    rw [List.getElem?_set, if_pos rfl, if_pos (by omega)]
  refine ⟨?_, ?_, ?_, ?_, ?_, ?_⟩
  · rw [line_to_true_eq b p hlt]
  · rw [line_to_true_eq b p hlt]
  · rw [line_to_true_eq b p hlt]
    exact hget
  · exact line_to_max_points b p
  · intro i hi
    exact line_to_getElem_lt b p i hi
  · rw [line_to_true_eq b p hlt]
    simp only
    rw [List.take_succ, hget]
    have ht : List.take b.num_points (b.points.set b.num_points p)
        = List.take b.num_points b.points := by
      apply List.ext_getElem?
      intro n
      simp only [List.getElem?_take, List.getElem?_set]
      split
      · rw [if_neg (by omega)]
      · rfl
    rw [ht]
    rfl

theorem line_to_with_room_appends_witness :
    (fpath_builder_line_to_point
      { max_points := 4, num_points := 1, points := [⟨16, 0⟩, ⟨0, 0⟩, ⟨0, 0⟩, ⟨0, 0⟩] }
      ⟨48, 16⟩).2.points.take 2 = [⟨16, 0⟩, ⟨48, 16⟩] :=
  (line_to_with_room_appends
    { max_points := 4, num_points := 1, points := [⟨16, 0⟩, ⟨0, 0⟩, ⟨0, 0⟩, ⟨0, 0⟩] }
    ⟨48, 16⟩ (by decide) (by decide) (by decide) (by decide)).2.2.2.2.2

theorem reachable_capacity_inv (atan2_lookup : Int → Int → Int) (N : Nat)
    (b : FPathBuilder) (hN1 : 1 ≤ N) (hN32 : N < 4294967296)
    (h : Reachable atan2_lookup N b) : CapacityInv N b := by
  induction h with
  | create b h =>
    simp only [fpath_builder_create, if_true, Option.some.injEq] at h
    subst h
    refine ⟨Nat.zero_le _, rfl, by simp, ?_⟩
    intro i _ hi
    simp only [List.getElem?_replicate, if_pos hi]
  | move_to b p _ ih =>
    unfold fpath_builder_move_to_point
    split
    · exact ih
    · exact line_to_keeps_invariant N hN1 hN32 b p ih
  | line_to b p _ ih => exact line_to_keeps_invariant N hN1 hN32 b p ih
  | curve_to b b1 fuel r p c1 c2 _ _ h ih =>
    exact curve_to_preserves atan2_lookup (CapacityInv N)
      (line_to_keeps_invariant N hN1 hN32) fuel b p c1 c2 r b1 ih h

/-- C5. Capacity invariant: every builder obtained from
`fpath_builder_create(N)`, `N ≥ 1`, by move_to, line_to and curve_to calls
(successful or not, curve_to on a non-empty builder) has
`num_points ≤ max_points - 1`, still has `max_points = N`, and every slot at
an index `≥ num_points` still holds the zero point written at creation. -/
theorem builder_capacity_invariant (atan2_lookup : Int → Int → Int) (N : Nat)
    (b : FPathBuilder) (hN1 : 1 ≤ N) (hN32 : N < 4294967296)
    (h : Reachable atan2_lookup N b) :
    b.num_points ≤ b.max_points - 1 ∧ b.max_points = N ∧ b.points.length = N ∧
    ∀ i, b.num_points ≤ i → i < N → b.points[i]? = some FPointZero := by
  obtain ⟨k1, k2, k3, k4⟩ := reachable_capacity_inv atan2_lookup N b hN1 hN32 h
  exact ⟨by rw [k2]; exact k1, k2, k3, k4⟩

theorem builder_capacity_invariant_witness :
    (2 : Nat) ≤ 4 - 1 ∧ (4 : Nat) = 4 ∧
    ([⟨16, 16⟩, ⟨32, 16⟩, ⟨0, 0⟩, ⟨0, 0⟩] : List FPoint).length = 4 ∧
    ∀ i, 2 ≤ i → i < 4 →
      ([⟨16, 16⟩, ⟨32, 16⟩, ⟨0, 0⟩, ⟨0, 0⟩] : List FPoint)[i]? = some FPointZero :=
  have h0 : Reachable (fun _ _ => 0) 4
      { max_points := 4, num_points := 0, points := List.replicate 4 FPointZero } :=
    Reachable.create _ rfl
  have e1 : (fpath_builder_move_to_point
      { max_points := 4, num_points := 0, points := List.replicate 4 FPointZero } ⟨16, 16⟩).2
      = { max_points := 4, num_points := 1,
          points := [⟨16, 16⟩, ⟨0, 0⟩, ⟨0, 0⟩, ⟨0, 0⟩] } := by decide
  have e2 : (fpath_builder_line_to_point
      { max_points := 4, num_points := 1,
        points := [⟨16, 16⟩, ⟨0, 0⟩, ⟨0, 0⟩, ⟨0, 0⟩] } ⟨32, 16⟩).2
      = { max_points := 4, num_points := 2,
          points := [⟨16, 16⟩, ⟨32, 16⟩, ⟨0, 0⟩, ⟨0, 0⟩] } := by decide
  builder_capacity_invariant (fun _ _ => 0) 4
    { max_points := 4, num_points := 2, points := [⟨16, 16⟩, ⟨32, 16⟩, ⟨0, 0⟩, ⟨0, 0⟩] }
    (by decide) (by decide)
    (e2 ▸ Reachable.line_to _ ⟨32, 16⟩ (e1 ▸ Reachable.move_to _ ⟨16, 16⟩ h0))

theorem line_to_many_flags (N : Nat) (hN1 : 1 ≤ N) (hN32 : N < 4294967296) :
    ∀ (ps : List FPoint) (b : FPathBuilder), b.max_points = N →
      (line_to_many b ps).1 =
        (List.range ps.length).map fun i => decide (b.num_points + i < N - 1) := by
  intro ps
  induction ps with
  | nil => intro b _; rfl
  | cons p ps ih =>
    intro b hb
    simp only [line_to_many, List.length_cons, List.range_succ_eq_map, List.map_cons,
      List.map_map]
    have hmax : (fpath_builder_line_to_point b p).2.max_points = N := by
      rw [line_to_max_points, hb]
    rw [ih _ hmax]
    by_cases hlt : b.num_points < uint32_pred b.max_points
    · rw [line_to_true_eq b p hlt]
      rw [hb, uint32_pred_eq N hN1 hN32] at hlt
      simp only [List.cons.injEq]
      refine ⟨by simp; omega, ?_⟩
      apply List.map_congr_left
      intro i _
      simp only [Function.comp, Nat.succ_eq_add_one]
      rw [decide_eq_decide]
      omega
    · have hf : (fpath_builder_line_to_point b p).1 = false := by
        cases h : (fpath_builder_line_to_point b p).1
        · rfl
        · exact absurd ((line_to_true_iff b p).1 h) hlt
      rw [line_to_false_unchanged b p hf, hf]
      rw [hb, uint32_pred_eq N hN1 hN32] at hlt
      simp only [List.cons.injEq]
      refine ⟨by simp; omega, ?_⟩
      apply List.map_congr_left
      intro i _
      simp only [Function.comp, Nat.succ_eq_add_one]
      rw [decide_eq_decide]
      omega

/-- C6, as the code has it. On the empty builder created with
`max_points = N`, `1 ≤ N`, the `i`-th of any run of consecutive
`fpath_builder_line_to_point` calls (counting from 0) returns true exactly
when `i < N - 1`: the first `N - 1` calls succeed, the `(N-1)`-th successful
append is the last one accepted, and every later call returns false. -/
theorem line_to_accepts_max_points_minus_one (N : Nat) (ps : List FPoint)
    (hN1 : 1 ≤ N) (hN32 : N < 4294967296) :
    (fpath_builder_create true N).map (fun b => (line_to_many b ps).1) =
      some ((List.range ps.length).map fun i => decide (i < N - 1)) := by
  simp only [fpath_builder_create, if_true, Option.map_some']
  rw [line_to_many_flags N hN1 hN32 ps _ rfl]
  simp

theorem line_to_accepts_max_points_minus_one_witness :
    (fpath_builder_create true 3).map
        (fun b => (line_to_many b [⟨16, 0⟩, ⟨32, 0⟩, ⟨48, 0⟩, ⟨64, 0⟩]).1) =
      some ((List.range 4).map fun i => decide (i < 3 - 1)) :=
  line_to_accepts_max_points_minus_one 3 [⟨16, 0⟩, ⟨32, 0⟩, ⟨48, 0⟩, ⟨64, 0⟩]
    (by decide) (by decide)

/-- C6 fails as stated: on the empty builder created with `max_points = 3`,
the third of three consecutive `fpath_builder_line_to_point` calls returns
false. -/
theorem line_to_third_of_three_fails :
    (fpath_builder_create true 3).map
        (fun b => (line_to_many b [⟨16, 0⟩, ⟨32, 0⟩, ⟨48, 0⟩]).1) =
      some [true, true, false] := by
  decide

/-- C7. If `fpath_builder_curve_to_point` returns true on a non-empty builder,
the points the builder held before the call are unchanged and are a prefix of
the stored sequence, `num_points` has grown, and the last stored point is
`to_point`. -/
theorem curve_to_success_ends_at_to_point (atan2_lookup : Int → Int → Int) (fuel : Nat)
    (b b1 : FPathBuilder) (to_point c1 c2 : FPoint)
    (hlen : b.points.length = b.max_points)
    (h1 : 1 ≤ b.max_points) (h32 : b.max_points < 4294967296)
    (_hne : b.num_points ≠ 0)
    (h : fpath_builder_curve_to_point atan2_lookup fuel b to_point c1 c2 = some (true, b1)) :
    (∀ i, i < b.num_points → b1.points[i]? = b.points[i]?) ∧
    b.points.take b.num_points <+: b1.points.take b1.num_points ∧
    b.num_points < b1.num_points ∧
    b1.points[b1.num_points - 1]? = some to_point := by
  have hext : Extends b b1 :=
    curve_to_preserves atan2_lookup (Extends b) (line_to_extends b h1 h32)
      fuel b to_point c1 c2 true b1 (extends_refl b) h
  refine ⟨hext.2.2.2.2, prefix_of_extends b b1 hext, ?_, ?_⟩
  · simp only [fpath_builder_curve_to_point, bezier_fixed] at h
    split at h
    · exact absurd h (by simp)
    · rename_i b2 hrec
      have hg := recursive_bezier_true_grows atan2_lookup _ _ _ _ _ _ _ _ _ _ _ hrec
      simp only [Option.some.injEq] at h
      have key := congrArg Prod.snd h
      simp only at key
      rw [← key]
      exact lt_of_lt_of_le hg (line_to_num_points_le b2 to_point)
    · simp at h
  · simp only [fpath_builder_curve_to_point, bezier_fixed] at h
    split at h
    · exact absurd h (by simp)
    · rename_i b2 hrec
      have hext2 : Extends b b2 :=
        recursive_bezier_preserves atan2_lookup (Extends b) (line_to_extends b h1 h32)
          _ _ _ _ _ _ _ _ _ _ _ _ (extends_refl b) hrec
      simp only [Option.some.injEq] at h
      have hfst := congrArg Prod.fst h
      simp only at hfst
      have hlt := (line_to_true_iff b2 to_point).1 hfst
      rw [line_to_true_eq b2 to_point hlt] at h
      simp only [Prod.mk.injEq, true_and] at h
      rw [← h]
      simp only [Nat.add_sub_cancel]
      rw [List.getElem?_set, if_pos rfl, if_pos]
      rw [hext2.1, uint32_pred_eq _ h1 h32] at hlt
      rw [hext2.2.1, hlen]
      omega
    · simp at h

theorem curve_to_success_ends_at_to_point_witness :
    ([⟨0, 0⟩, ⟨240, 0⟩, ⟨480, 0⟩, ⟨0, 0⟩] : List FPoint)[3 - 1]? = some ⟨480, 0⟩ :=
  (curve_to_success_ends_at_to_point (fun _ _ => 0) 1
    { max_points := 4, num_points := 1, points := [⟨0, 0⟩, ⟨0, 0⟩, ⟨0, 0⟩, ⟨0, 0⟩] }
    { max_points := 4, num_points := 3, points := [⟨0, 0⟩, ⟨240, 0⟩, ⟨480, 0⟩, ⟨0, 0⟩] }
    ⟨480, 0⟩ ⟨160, 0⟩ ⟨320, 0⟩ (by decide) (by decide) (by decide) (by decide)
    (by decide)).2.2.2

/-- The subdivision stops at once, whatever `atan2_lookup` is, when the three
chords give it the same arguments. -/
theorem bezier_flat_of_equal_chords (atan2_lookup : Int → Int → Int)
    (x1 y1 x2 y2 x3 y3 x4 y4 : Int)
    (h12 : chord_angle atan2_lookup (y2 - y1) (x2 - x1)
      = chord_angle atan2_lookup (y3 - y2) (x3 - x2))
    (h34 : chord_angle atan2_lookup (y4 - y3) (x4 - x3)
      = chord_angle atan2_lookup (y3 - y2) (x3 - x2)) :
    bezier_flat atan2_lookup x1 y1 x2 y2 x3 y3 x4 y4 = true := by
  simp only [bezier_flat, bezier_da1, bezier_da2, h12, h34, sub_self, Int.natAbs_zero,
    wrap_angle, TRIG_MAX_ANGLE, max_angle_tolerance]
  decide

theorem recursive_bezier_flat_step (atan2_lookup : Int → Int → Int) (fuel : Nat)
    (b : FPathBuilder) (p1 p2 p3 p4 : FPoint)
    (hflat : bezier_flat atan2_lookup p1.x p1.y p2.x p2.y p3.x p3.y p4.x p4.y = true) :
    recursive_bezier_fixed atan2_lookup (fuel + 1) b p1.x p1.y p2.x p2.y p3.x p3.y p4.x p4.y
      = some (fpath_builder_line_to_point b (bezier_midpoint p1 p2 p3 p4)) := by
  simp only [recursive_bezier_fixed, hflat, if_true, bezier_midpoint]

/-- C8, as the code has it. If `fpath_builder_curve_to_point` returns false on
a non-empty builder, the points the builder held before the call are
unchanged and are a prefix of the stored sequence and `max_points` is
unchanged; `num_points` has not shrunk, and the builder is left full
(`num_points = max_points - 1`): the vertices appended before the capacity ran
out stay in the builder. -/
theorem curve_to_failure_keeps_prior_points (atan2_lookup : Int → Int → Int) (fuel : Nat)
    (b b1 : FPathBuilder) (to_point c1 c2 : FPoint)
    (h1 : 1 ≤ b.max_points) (h32 : b.max_points < 4294967296)
    (_hne : b.num_points ≠ 0) (hcap : b.num_points ≤ b.max_points - 1)
    (h : fpath_builder_curve_to_point atan2_lookup fuel b to_point c1 c2 = some (false, b1)) :
    (∀ i, i < b.num_points → b1.points[i]? = b.points[i]?) ∧
    b.points.take b.num_points <+: b1.points.take b1.num_points ∧
    b1.max_points = b.max_points ∧
    b.num_points ≤ b1.num_points ∧
    b1.num_points = b1.max_points - 1 := by
  have hext : Extends b b1 :=
    curve_to_preserves atan2_lookup (Extends b) (line_to_extends b h1 h32)
      fuel b to_point c1 c2 false b1 (extends_refl b) h
  refine ⟨hext.2.2.2.2, prefix_of_extends b b1 hext, hext.1, hext.2.2.1, ?_⟩
  have hle : b1.num_points ≤ b1.max_points - 1 := by
    rw [hext.1]; exact hext.2.2.2.1 hcap
  have hge : uint32_pred b1.max_points ≤ b1.num_points := by
    simp only [fpath_builder_curve_to_point, bezier_fixed] at h
    split at h
    · exact absurd h (by simp)
    · rename_i b2 hrec
      simp only [Option.some.injEq] at h
      have hfst := congrArg Prod.fst h
      have key := congrArg Prod.snd h
      simp only at hfst key
      rw [← key, line_to_false_unchanged b2 to_point hfst]
      exact line_to_false_full b2 to_point hfst
    · rename_i b2 hrec
      simp only [Option.some.injEq, Prod.mk.injEq, true_and] at h
      rw [← h]
      exact recursive_bezier_false_full atan2_lookup _ _ _ _ _ _ _ _ _ _ _ hrec
  rw [uint32_pred_eq _ (by rw [hext.1]; exact h1) (by rw [hext.1]; exact h32)] at hge
  omega

theorem curve_to_failure_keeps_prior_points_witness :
    ([⟨0, 0⟩] : List FPoint) <+: ([⟨0, 0⟩, ⟨240, 0⟩, ⟨0, 0⟩] : List FPoint).take 2 ∧
    (2 : Nat) = 3 - 1 :=
  have h := curve_to_failure_keeps_prior_points (fun _ _ => 0) 1
    { max_points := 3, num_points := 1, points := [⟨0, 0⟩, ⟨0, 0⟩, ⟨0, 0⟩] }
    { max_points := 3, num_points := 2, points := [⟨0, 0⟩, ⟨240, 0⟩, ⟨0, 0⟩] }
    ⟨480, 0⟩ ⟨160, 0⟩ ⟨320, 0⟩ (by decide) (by decide) (by decide) (by decide) (by decide)
  ⟨h.2.1, h.2.2.2.2⟩

/-- C8 fails as stated: on the builder of capacity 3 holding the one point
(0,0), the curve to (480,0) with control points (160,0) and (320,0) returns
false, for every `atan2_lookup`, and leaves the midpoint (240,0) appended:
`num_points` is 2, not 1. -/
theorem curve_to_failure_is_not_atomic :
    (fun (atan2_lookup : Int → Int → Int) (fuel : Nat) =>
      fpath_builder_curve_to_point atan2_lookup (fuel + 1)
        { max_points := 3, num_points := 1, points := [⟨0, 0⟩, ⟨0, 0⟩, ⟨0, 0⟩] }
        ⟨480, 0⟩ ⟨160, 0⟩ ⟨320, 0⟩) =
    fun _ _ => some (false,
      { max_points := 3, num_points := 2, points := [⟨0, 0⟩, ⟨240, 0⟩, ⟨0, 0⟩] }) := by
  funext atan2_lookup fuel
  have hflat : bezier_flat atan2_lookup (0 : Int) 0 160 0 320 0 480 0 = true :=
    bezier_flat_of_equal_chords atan2_lookup 0 0 160 0 320 0 480 0 rfl rfl
  have hstep := recursive_bezier_flat_step atan2_lookup fuel
    { max_points := 3, num_points := 1, points := [⟨0, 0⟩, ⟨0, 0⟩, ⟨0, 0⟩] }
    ⟨0, 0⟩ ⟨160, 0⟩ ⟨320, 0⟩ ⟨480, 0⟩ hflat
  have hp1 : ([⟨0, 0⟩, ⟨0, 0⟩, ⟨0, 0⟩] : List FPoint).getD (uint32_pred 1) FPointZero
      = ⟨0, 0⟩ := by decide
  simp only [fpath_builder_curve_to_point, bezier_fixed, hp1]
  rw [hstep]
  decide

/-- C9, as the code has it. On a builder with two free slots whose last point
is `p1`, when the flatness test `da1 + da2 < max_angle_tolerance` passes for
the control polygon `p1 c1 c2 p4` (as it does when the three chords give
`atan2_lookup` the same arguments, for instance for p1=(0,0), c1=(160,0),
c2=(320,0), p4=(480,0)), `fpath_builder_curve_to_point` succeeds and appends
exactly two points: the midpoint `(x1234, y1234)` of the subdivision and then
the endpoint `p4`; `num_points` grows by 2. -/
theorem curve_to_flat_appends_midpoint_and_endpoint (atan2_lookup : Int → Int → Int)
    (fuel : Nat) (b : FPathBuilder) (p1 p4 c1 c2 : FPoint)
    (h1 : 1 ≤ b.max_points) (h32 : b.max_points < 4294967296)
    (hne : b.num_points ≠ 0)
    (hp1 : b.points[b.num_points - 1]? = some p1)
    (hroom : b.num_points + 2 ≤ b.max_points - 1)
    (hflat : bezier_flat atan2_lookup p1.x p1.y c1.x c1.y c2.x c2.y p4.x p4.y = true) :
    fpath_builder_curve_to_point atan2_lookup (fuel + 1) b p4 c1 c2 =
      some (true,
        { max_points := b.max_points, num_points := b.num_points + 2,
          points := (b.points.set b.num_points (bezier_midpoint p1 c1 c2 p4)).set
            (b.num_points + 1) p4 }) := by
  have hfrom : b.points.getD (uint32_pred b.num_points) FPointZero = p1 := by
    rw [uint32_pred_eq _ (by omega) (by omega), List.getD_eq_getElem?_getD, hp1]
    rfl
  simp only [fpath_builder_curve_to_point, bezier_fixed, hfrom]
  rw [recursive_bezier_flat_step atan2_lookup fuel b p1 c1 c2 p4 hflat]
  rw [line_to_true_eq b _ (by rw [uint32_pred_eq _ h1 h32]; omega)]
  simp only
  rw [line_to_true_eq _ _ (by rw [uint32_pred_eq _ h1 h32]; simp only; omega)]

theorem curve_to_flat_appends_midpoint_and_endpoint_witness :
    fpath_builder_curve_to_point (fun _ _ => 0) (0 + 1)
      { max_points := 8, num_points := 1, points := List.replicate 8 ⟨0, 0⟩ }
      ⟨480, 0⟩ ⟨160, 0⟩ ⟨320, 0⟩ =
    some (true,
      { max_points := 8, num_points := 1 + 2,
        points := ((List.replicate 8 (⟨0, 0⟩ : FPoint)).set 1
          (bezier_midpoint ⟨0, 0⟩ ⟨160, 0⟩ ⟨320, 0⟩ ⟨480, 0⟩)).set (1 + 1) ⟨480, 0⟩ }) :=
  curve_to_flat_appends_midpoint_and_endpoint (fun _ _ => 0) 0
    { max_points := 8, num_points := 1, points := List.replicate 8 ⟨0, 0⟩ }
    ⟨0, 0⟩ ⟨480, 0⟩ ⟨160, 0⟩ ⟨320, 0⟩ (by decide) (by decide) (by decide) (by decide)
    (by decide) (by decide)

/-- C9 fails as stated: on the builder of capacity 8 whose only point is
p1 = (0,0), the curve to p4 = (480,0) with control points (160,0) and (320,0)
on the segment succeeds, for every `atan2_lookup`, and leaves three points:
the midpoint (240,0) is stored before the endpoint, so `num_points` grows by 2. -/
theorem curve_on_segment_appends_two_points :
    (fun (atan2_lookup : Int → Int → Int) (fuel : Nat) =>
      fpath_builder_curve_to_point atan2_lookup (fuel + 1)
        { max_points := 8, num_points := 1, points := List.replicate 8 ⟨0, 0⟩ }
        ⟨480, 0⟩ ⟨160, 0⟩ ⟨320, 0⟩) =
    fun _ _ => some (true,
      { max_points := 8, num_points := 3,
        points := [⟨0, 0⟩, ⟨240, 0⟩, ⟨480, 0⟩, ⟨0, 0⟩, ⟨0, 0⟩, ⟨0, 0⟩, ⟨0, 0⟩, ⟨0, 0⟩] }) := by
  funext atan2_lookup fuel
  have hflat : bezier_flat atan2_lookup (0 : Int) 0 160 0 320 0 480 0 = true :=
    bezier_flat_of_equal_chords atan2_lookup 0 0 160 0 320 0 480 0 rfl rfl
  have hstep := recursive_bezier_flat_step atan2_lookup fuel
    { max_points := 8, num_points := 1, points := List.replicate 8 ⟨0, 0⟩ }
    ⟨0, 0⟩ ⟨160, 0⟩ ⟨320, 0⟩ ⟨480, 0⟩ hflat
  have hp1 : (List.replicate 8 (⟨0, 0⟩ : FPoint)).getD (uint32_pred 1) FPointZero
      = ⟨0, 0⟩ := by decide
  simp only [fpath_builder_curve_to_point, bezier_fixed, hp1]
  rw [hstep]
  decide

/-- C10, the code at the failing input. The builder of capacity 8 holding
(16,16), (32,16), (32,32), (16,16) is turned by `fpath_builder_create_path`
into a path of 4 points whose last point equals its first: the loop compares
`points[0]` with the zero slot `points[num_points]`, not with the last point. -/
theorem create_path_keeps_closing_duplicate :
    closed_square_builder.bind (fpath_builder_create_path true) =
      some { num_points := 4,
             points := [⟨16, 16⟩, ⟨32, 16⟩, ⟨32, 32⟩, ⟨16, 16⟩],
             rotation := 0, offset := FPointZero } := by
  decide

/-! ## Theorems: fixed-point arithmetic -/

theorem ceil_div_le_iff (n d m : Int) (hd : 0 < d) : ceil_div n d ≤ m ↔ n ≤ m * d := by
  unfold ceil_div
  constructor
  · intro h
    have h1 : -m ≤ (-n) / d := by omega
    have h2 := (Int.le_ediv_iff_mul_le hd).1 h1
    linarith
  · intro h
    have h2 : -m ≤ (-n) / d := (Int.le_ediv_iff_mul_le hd).2 (by linarith)
    omega

theorem lt_ceil_div_iff (n d m : Int) (hd : 0 < d) : m < ceil_div n d ↔ m * d < n := by
  have := ceil_div_le_iff n d m hd
  constructor
  · intro h
    by_contra hc
    exact absurd (this.2 (not_lt.1 hc)) (not_le.2 h)
  · intro h
    by_contra hc
    exact absurd (this.1 (not_lt.1 hc)) (not_le.2 h)

theorem ceil_div_eq_iff (n d m : Int) (hd : 0 < d) :
    ceil_div n d = m ↔ (m - 1) * d < n ∧ n ≤ m * d := by
  rw [← ceil_div_le_iff n d m hd, ← lt_ceil_div_iff n d (m - 1) hd]
  omega

theorem ceil_div_mono (a b d : Int) (hd : 0 < d) (h : a ≤ b) : ceil_div a d ≤ ceil_div b d := by
  rw [ceil_div_le_iff a d _ hd]
  have := (ceil_div_le_iff b d (ceil_div b d) hd).1 (le_refl _)
  linarith

theorem ceil_div_16 (v : Int) : ceil_div v 16 = (v + 15) / 16 := by
  unfold ceil_div
  omega

theorem tdiv_16 (a : Int) : Int.tdiv a 16 = if 0 ≤ a then a / 16 else -((-a) / 16) := by
  split
  · rw [Int.tdiv_eq_ediv] <;> omega
  · rw [← neg_neg a, Int.neg_tdiv, Int.tdiv_eq_ediv]
    · simp
    · omega
    · omega

theorem tmod_16_nonneg (a : Int) (h : 0 ≤ a) : Int.tmod a 16 = a % 16 :=
  Int.tmod_eq_emod h (by omega)

theorem fceil_eq (v : Int) : fceil v = ceil_div v 16 := by
  rw [ceil_div_16]
  simp only [fceil, FIXED_POINT_SCALE]
  split
  · rw [tdiv_16, if_pos (by omega)]
    omega
  · rename_i hneg
    have hm := tmod_16_nonneg (-(v - 1 + 16)) (by omega)
    rw [tdiv_16, if_pos (by omega)]
    simp only [hm]
    split <;> omega

theorem floorDivMod_eq (n d : Int) (hd : 0 < d) : floorDivMod n d = some (n / d, n % d) := by
  unfold floorDivMod
  rw [if_pos hd]
  split
  · rename_i hn
    rw [Int.tdiv_eq_ediv hn (le_of_lt hd), Int.tmod_eq_emod hn (le_of_lt hd)]
  · rename_i hn
    have hn' : 0 ≤ -n := by omega
    simp only [Int.tdiv_eq_ediv hn' (le_of_lt hd), Int.tmod_eq_emod hn' (le_of_lt hd)]
    have e1 := Int.ediv_add_emod (-n) d
    have e2 := Int.emod_nonneg (-n) (ne_of_gt hd)
    have e3 := Int.emod_lt_of_pos (-n) hd
    split
    · rename_i hm
      have : n / d = -(-n / d) - 1 ∧ n % d = d - -n % d := by
        rw [Int.ediv_emod_unique hd]
        refine ⟨by linear_combination -e1, by omega, by omega⟩
      rw [this.1, this.2]
    · rename_i hm
      have hm0 : -n % d = 0 := by simpa using hm
      have : n / d = -(-n / d) ∧ n % d = -n % d := by
        rw [Int.ediv_emod_unique hd]
        refine ⟨by linear_combination -e1 + 2 * hm0, by omega, by omega⟩
      rw [this.1, this.2]

/-! ## Theorems: the edge stepper -/

theorem edge_step_y (e : Edge) : (edge_step e).y = e.y + 1 := by
  simp only [edge_step]
  split <;> rfl

theorem edge_step_height (e : Edge) : (edge_step e).height = e.height - 1 := by
  simp only [edge_step]
  split <;> rfl

theorem edge_step_inv (top bottom : FPoint) (e : Edge) (h : EdgeInv top bottom e) :
    EdgeInv top bottom (edge_step e) := by
  obtain ⟨h1, h2, h3, h4, h5, h6, h7, h8⟩ := h
  simp only [edge_step]
  split
  · rename_i hge
    refine ⟨h1, h2, h3, h4, h5, ?_, ?_, ?_⟩
    · simp only; omega
    · simp only; omega
    · simp only
      linear_combination h8 + h5
  · rename_i hlt
    refine ⟨h1, h2, h3, h4, h5, ?_, ?_, ?_⟩
    · simp only; omega
    · simp only; omega
    · simp only
      linear_combination h8 + h5

theorem edge_inv_x (top bottom : FPoint) (e : Edge) (h : EdgeInv top bottom e) :
    e.x = crossing_column top bottom e.y := by
  obtain ⟨h1, h2, _, _, _, h6, h7, h8⟩ := h
  symm
  unfold crossing_column
  rw [ceil_div_eq_iff _ _ _ h1]
  rw [h2] at h7 h8
  constructor
  · nlinarith
  · nlinarith

/-- The outcome of `edge_init` on points ordered top to bottom: it returns,
`y` is the ceiling of `top.y`, the height is the non-negative difference of
the two ceilings, and for a non-zero height the DDA invariant holds. -/
theorem edge_init_spec (e0 : Edge) (top bottom : FPoint) (h : top.y ≤ bottom.y) :
    ∃ e, edge_init e0 top bottom = some e ∧ e.y = ceil_div top.y 16 ∧
      e.height = ceil_div bottom.y 16 - ceil_div top.y 16 ∧ 0 ≤ e.height ∧
      (e.height ≠ 0 → EdgeInv top bottom e) := by
  have hmono := ceil_div_mono top.y bottom.y 16 (by norm_num) h
  unfold edge_init
  simp only [fceil_eq]
  split
  · rename_i hh
    have hlt : top.y < bottom.y := by
      rcases lt_or_eq_of_le h with h' | h'
      · exact h'
      · rw [h'] at hh; simp at hh
    have hD : 0 < (bottom.y - top.y) * 16 := by omega
    rw [floorDivMod_eq _ _ hD, floorDivMod_eq _ _ hD]
    refine ⟨_, rfl, rfl, rfl, by simp only; omega, ?_⟩
    intro _
    have hne : (bottom.y - top.y) * 16 ≠ 0 := ne_of_gt hD
    refine ⟨by omega, by simp only; ring, Int.emod_nonneg _ hne, Int.emod_lt_of_pos _ hD, ?_,
      Int.emod_nonneg _ hne, Int.emod_lt_of_pos _ hD, ?_⟩
    · simp only
      have := Int.ediv_add_emod ((bottom.x - top.x) * 16) ((bottom.y - top.y) * 16)
      linear_combination this
    · simp only
      have := Int.ediv_add_emod ((bottom.x - top.x) * 16 * ceil_div top.y 16
        - (bottom.x - top.x) * top.y + (bottom.y - top.y) * top.x - 1
        + (bottom.y - top.y) * 16) ((bottom.y - top.y) * 16)
      linear_combination this
  · rename_i hh
    have h0 : ceil_div bottom.y 16 - ceil_div top.y 16 = 0 := by
      by_contra hc; exact hh hc
    refine ⟨_, rfl, rfl, rfl, by simp only; omega, ?_⟩
    intro hne
    exact absurd h0 hne

theorem edge_positions_eq (top bottom : FPoint) :
    ∀ (n : Nat) (e : Edge), EdgeInv top bottom e →
      edge_positions n e =
        (List.range n).map fun (k : Nat) =>
          (crossing_column top bottom (e.y + (k : Int)), e.y + (k : Int)) := by
  intro n
  induction n with
  | zero => intro e _; rfl
  | succ n ih =>
    intro e he
    rw [edge_positions, ih _ (edge_step_inv top bottom e he)]
    rw [List.range_succ_eq_map n, List.map_cons, List.map_map, edge_step_y]
    simp only [Nat.cast_zero, add_zero, ← edge_inv_x top bottom e he, List.cons.injEq,
      true_and]
    apply List.map_congr_left
    intro k _
    simp only [Function.comp, Nat.succ_eq_add_one, Nat.cast_add, Nat.cast_one]
    rw [show e.y + 1 + (k : Int) = e.y + (k + 1) by ring]

theorem plot_loop_bw_eq (stride : Int) :
    ∀ (n : Nat) (data : Int → Nat) (e : Edge),
      plot_loop_bw stride n data e =
        (edge_positions n e).foldl (fun d p => toggle_flag_bw stride d p.1 p.2) data := by
  intro n
  induction n with
  | zero => intro data e; rfl
  | succ n ih =>
    intro data e
    rw [plot_loop_bw, edge_positions, List.foldl_cons, ih]

/-! ## Theorems: flag bytes -/

theorem flag_bit_lt (x : Int) : flag_bit x < 8 := by
  unfold flag_bit
  have h1 : Int.tmod x 8 < 8 := Int.tmod_lt_of_pos x (by norm_num)
  omega

theorem testBit_toggle (stride : Int) (data : Int → Nat) (x y a : Int) (i : Nat) :
    (toggle_flag_bw stride data x y a).testBit i =
      ((data a).testBit i ^^ decide (a = flag_addr stride x y ∧ i = flag_bit x)) := by
  simp only [toggle_flag_bw, flag_addr, flag_bit, Function.update_apply]
  split
  · rename_i h
    subst h
    rw [Nat.testBit_xor, Nat.one_shiftLeft, Nat.testBit_two_pow]
    simp [eq_comm]
  · rename_i h
    simp [h]

theorem testBit_clear (stride : Int) (row col : Nat) (data : Int → Nat) (a : Int) (i : Nat) :
    (clear_flag_bw stride row data col a).testBit i =
      if a = flag_addr stride col row then
        ((data a).testBit i && decide (i < 8) && !decide (i = flag_bit col))
      else (data a).testBit i := by
  have hmul : stride * (row : Int) + Int.tdiv col 8 = flag_addr stride col row := by
    unfold flag_addr; ring
  simp only [clear_flag_bw, hmul, Function.update_apply]
  split
  · rename_i h
    subst h
    rw [Nat.testBit_and, Nat.testBit_xor, Nat.one_shiftLeft, Nat.testBit_two_pow,
      show (255 : Nat) = 2 ^ 8 - 1 by norm_num, Nat.testBit_two_pow_sub_one]
    unfold flag_bit
    by_cases h8 : i < 8 <;> by_cases hk : (Int.tmod (col : Int) 8).toNat = i
    · simp [h8, hk]
    · simp [h8, hk, Ne.symm hk]
    · have := flag_bit_lt col
      unfold flag_bit at this
      omega
    · simp [h8, hk]
  · rfl

theorem testBit_clear_mono (stride : Int) (row col : Nat) (data : Int → Nat) (a : Int)
    (i : Nat) (h : (clear_flag_bw stride row data col a).testBit i = true) :
    (data a).testBit i = true := by
  rw [testBit_clear] at h
  split at h
  · simp only [Bool.and_eq_true] at h
    exact h.1.1
  · exact h

theorem testBit_clear_self (stride : Int) (row col : Nat) (data : Int → Nat) :
    (clear_flag_bw stride row data col (flag_addr stride col row)).testBit (flag_bit col)
      = false := by
  rw [testBit_clear, if_pos rfl]
  simp

theorem foldl_clear_mono (stride : Int) (row : Nat) :
    ∀ (cols : List Nat) (data : Int → Nat) (a : Int) (i : Nat),
      ((cols.foldl (clear_flag_bw stride row) data) a).testBit i = true →
      (data a).testBit i = true := by
  intro cols
  induction cols with
  | nil => intro data a i h; exact h
  | cons c cs ih =>
    intro data a i h
    rw [List.foldl_cons] at h
    exact testBit_clear_mono stride row c data a i (ih _ a i h)

theorem foldl_clear_kill (stride : Int) (row : Nat) :
    ∀ (cols : List Nat) (data : Int → Nat) (c : Nat), c ∈ cols →
      ((cols.foldl (clear_flag_bw stride row) data) (flag_addr stride c row)).testBit
        (flag_bit c) = false := by
  intro cols
  induction cols with
  | nil => intro data c h; simp at h
  | cons c0 cs ih =>
    intro data c h
    rw [List.foldl_cons]
    rcases List.mem_cons.1 h with h1 | h1
    · subst h1
      by_contra hc
      have hc' := foldl_clear_mono stride row cs _ _ _ (by simpa using hc)
      rw [testBit_clear_self] at hc'
      exact absurd hc' (by simp)
    · exact ih _ c h1

theorem foldl_clear_row_mono (stride : Int) (colBegin colEnd : Nat) :
    ∀ (rows : List Nat) (data : Int → Nat) (a : Int) (i : Nat),
      ((rows.foldl (clear_row_bw stride colBegin colEnd) data) a).testBit i = true →
      (data a).testBit i = true := by
  intro rows
  induction rows with
  | nil => intro data a i h; exact h
  | cons r rs ih =>
    intro data a i h
    rw [List.foldl_cons] at h
    exact foldl_clear_mono stride r _ data a i (ih _ a i h)

theorem foldl_clear_row_kill (stride : Int) (colBegin colEnd : Nat) :
    ∀ (rows : List Nat) (data : Int → Nat) (r c : Nat), r ∈ rows →
      colBegin ≤ c → c ≤ colEnd →
      ((rows.foldl (clear_row_bw stride colBegin colEnd) data)
        (flag_addr stride c r)).testBit (flag_bit c) = false := by
  intro rows
  induction rows with
  | nil => intro data r c h; simp at h
  | cons r0 rs ih =>
    intro data r c h hc1 hc2
    rw [List.foldl_cons]
    rcases List.mem_cons.1 h with h1 | h1
    · subst h1
      by_contra hc
      have hc' := foldl_clear_row_mono stride colBegin colEnd rs _ _ _ (by simpa using hc)
      unfold clear_row_bw at hc'
      rw [foldl_clear_kill stride r _ data c
        (by rw [List.mem_range'_1]; omega)] at hc'
      exact absurd hc' (by simp)
    · exact ih _ r c h1 hc1 hc2

/-! ## Theorems: where the edges toggle -/

theorem crossing_column_bounds (top bottom : FPoint) (r lo hi : Int)
    (hr1 : ceil_div top.y 16 ≤ r) (hr2 : r < ceil_div bottom.y 16)
    (hlo1 : lo ≤ top.x) (hlo2 : lo ≤ bottom.x) (hhi1 : top.x ≤ hi) (hhi2 : bottom.x ≤ hi) :
    ceil_div lo 16 ≤ crossing_column top bottom r ∧
    crossing_column top bottom r ≤ ceil_div hi 16 := by
  have h1 : top.y ≤ r * 16 := (ceil_div_le_iff _ _ _ (by norm_num)).1 hr1
  have h2 : r * 16 < bottom.y := (lt_ceil_div_iff _ _ _ (by norm_num)).1 hr2
  have hdN : 0 < bottom.y - top.y := by omega
  have hD : 0 < 16 * (bottom.y - top.y) := by omega
  have ht0 : 0 ≤ 16 * r - top.y := by omega
  have ht1 : 0 ≤ bottom.y - 16 * r := by omega
  constructor
  · by_contra hc
    have hc' : crossing_column top bottom r ≤ ceil_div lo 16 - 1 := by omega
    unfold crossing_column at hc'
    rw [ceil_div_le_iff _ _ _ hD] at hc'
    have hlo : (ceil_div lo 16 - 1) * 16 < lo :=
      (lt_ceil_div_iff _ _ _ (by norm_num)).1 (by omega)
    have e1 : 0 ≤ (top.x - lo) * (bottom.y - 16 * r) := mul_nonneg (by omega) ht1
    have e2 : 0 ≤ (bottom.x - lo) * (16 * r - top.y) := mul_nonneg (by omega) ht0
    have e3 : 0 < (lo - (ceil_div lo 16 - 1) * 16) * (bottom.y - top.y) :=
      mul_pos (by omega) hdN
    nlinarith
  · unfold crossing_column
    rw [ceil_div_le_iff _ _ _ hD]
    have hhi : hi ≤ ceil_div hi 16 * 16 :=
      (ceil_div_le_iff _ _ _ (by norm_num)).1 (le_refl _)
    have e1 : 0 ≤ (hi - top.x) * (bottom.y - 16 * r) := mul_nonneg (by omega) ht1
    have e2 : 0 ≤ (hi - bottom.x) * (16 * r - top.y) := mul_nonneg (by omega) ht0
    have e3 : 0 ≤ (ceil_div hi 16 * 16 - hi) * (bottom.y - top.y) :=
      mul_nonneg (by omega) (le_of_lt hdN)
    nlinarith

theorem fixed_to_int_le_ceil (v : Int) : FIXED_TO_INT v ≤ ceil_div v 16 := by
  rw [ceil_div_16]
  simp only [FIXED_TO_INT, FIXED_POINT_SCALE]
  rw [tdiv_16]
  split <;> omega

theorem ceil_le_fixed_to_int_succ (v : Int) : ceil_div v 16 ≤ FIXED_TO_INT v + 1 := by
  rw [ceil_div_16]
  simp only [FIXED_TO_INT, FIXED_POINT_SCALE]
  rw [tdiv_16]
  split <;> omega

theorem fixed_to_int_mono (a b : Int) (h : a ≤ b) : FIXED_TO_INT a ≤ FIXED_TO_INT b := by
  simp only [FIXED_TO_INT, FIXED_POINT_SCALE]
  rw [tdiv_16, tdiv_16]
  split <;> split <;> omega

theorem plot_edge_init_eq (a b : FPoint) :
    plot_edge_init a b = edge_init Edge.uninit (edge_top a b) (edge_bottom a b) := by
  unfold plot_edge_init edge_top edge_bottom
  split <;> rfl

theorem edge_top_le_bottom (a b : FPoint) : (edge_top a b).y ≤ (edge_bottom a b).y := by
  unfold edge_top edge_bottom
  split <;> omega

/-- What `fpath_plot_edge_bw` toggles: `edge_init` returns, and the loop
visits, for each row `r` that the edge spans, the position
`(crossing_column r, r)`, rows in increasing order. -/
theorem plot_edge_positions (a b : FPoint) :
    ∃ e, plot_edge_init a b = some e ∧ 0 ≤ e.height ∧
      e.height = ceil_div (edge_bottom a b).y 16 - ceil_div (edge_top a b).y 16 ∧
      edge_positions e.height.toNat e =
        (List.range e.height.toNat).map fun (k : Nat) =>
          (crossing_column (edge_top a b) (edge_bottom a b)
              (ceil_div (edge_top a b).y 16 + (k : Int)),
            ceil_div (edge_top a b).y 16 + (k : Int)) := by
  obtain ⟨e, he, hy, hh, h0, hinv⟩ :=
    edge_init_spec Edge.uninit (edge_top a b) (edge_bottom a b) (edge_top_le_bottom a b)
  refine ⟨e, by rw [plot_edge_init_eq]; exact he, h0, hh, ?_⟩
  by_cases hz : e.height = 0
  · rw [hz]; rfl
  · rw [edge_positions_eq _ _ _ e (hinv hz), hy]

theorem plot_edge_positions_in_range (fctx : FContext) (a b : FPoint) (e : Edge)
    (ha : BoxContains fctx a) (hb : BoxContains fctx b)
    (he : plot_edge_init a b = some e) :
    ∀ p ∈ edge_positions e.height.toNat e, InScanRange fctx p := by
  obtain ⟨e', he', h0, hh, hpos⟩ := plot_edge_positions a b
  rw [he] at he'
  simp only [Option.some.injEq] at he'
  subst he'
  intro p hp
  rw [hpos, List.mem_map] at hp
  obtain ⟨k, hk, rfl⟩ := hp
  rw [List.mem_range] at hk
  have hk' : (k : Int) < e.height := by omega
  have htop : BoxContains fctx (edge_top a b) := by
    unfold edge_top; split <;> assumption
  have hbot : BoxContains fctx (edge_bottom a b) := by
    unfold edge_bottom; split <;> assumption
  obtain ⟨t1, t2, t3, t4⟩ := htop
  obtain ⟨b1, b2, b3, b4⟩ := hbot
  have hcb := crossing_column_bounds (edge_top a b) (edge_bottom a b)
    (ceil_div (edge_top a b).y 16 + (k : Int)) fctx.min.x fctx.max.x
    (by omega) (by omega) t1 b1 t2 b2
  have m1 := fixed_to_int_le_ceil fctx.min.x
  have m2 := ceil_le_fixed_to_int_succ fctx.max.x
  have m3 := fixed_to_int_le_ceil fctx.min.y
  have m4 := ceil_le_fixed_to_int_succ fctx.max.y
  have m5 := ceil_div_mono _ _ 16 (by norm_num) t3
  have m6 := ceil_div_mono _ _ 16 (by norm_num) b4
  refine ⟨?_, ?_, ?_, ?_⟩ <;> simp only <;> omega

/-! ## Theorems: the flag buffer while drawing -/

theorem foldl_toggle_support (stride : Int) :
    ∀ (ps : List (Int × Int)) (data : Int → Nat) (a : Int) (i : Nat),
      ((ps.foldl (fun d p => toggle_flag_bw stride d p.1 p.2) data) a).testBit i = true →
      (data a).testBit i = true ∨
        ∃ p ∈ ps, a = flag_addr stride p.1 p.2 ∧ i = flag_bit p.1 := by
  intro ps
  induction ps with
  | nil => intro data a i h; exact Or.inl h
  | cons q qs ih =>
    intro data a i h
    rw [List.foldl_cons] at h
    rcases ih _ a i h with h1 | ⟨p, hp, hpa⟩
    · rw [testBit_toggle] at h1
      by_cases hq : a = flag_addr stride q.1 q.2 ∧ i = flag_bit q.1
      · exact Or.inr ⟨q, List.mem_cons_self _ _, hq⟩
      · left
        simpa [hq] using h1
    · exact Or.inr ⟨p, List.mem_cons_of_mem _ hp, hpa⟩

theorem same_surface_refl (c : FContext) : SameSurface c c := ⟨rfl, rfl, rfl, rfl⟩

theorem same_surface_trans {c c1 c2 : FContext} (h1 : SameSurface c c1)
    (h2 : SameSurface c1 c2) : SameSurface c c2 :=
  ⟨h2.1.trans h1.1, h2.2.1.trans h1.2.1, h2.2.2.1.trans h1.2.2.1, h2.2.2.2.trans h1.2.2.2⟩

theorem in_scan_range_mono (c c1 : FContext) (p : Int × Int) (hle : BoxLe c c1)
    (h : InScanRange c p) : InScanRange c1 p := by
  obtain ⟨l1, l2, l3, l4⟩ := hle
  obtain ⟨h1, h2, h3, h4⟩ := h
  have m1 := fixed_to_int_mono _ _ l1
  have m2 := fixed_to_int_mono _ _ l2
  have m3 := fixed_to_int_mono _ _ l3
  have m4 := fixed_to_int_mono _ _ l4
  refine ⟨?_, ?_, ?_, ?_⟩ <;> omega

/-- One `fpath_plot_edge_bw` between two points of the bounding box: it
returns, changes only the flag bytes, and every bit it sets is in the scan
range. -/
theorem plot_edge_bw_keeps (inbuf : Int → Prop) (fctx : FContext) (a b : FPoint)
    (ha : BoxContains fctx a) (hb : BoxContains fctx b) (hJ : FlagsInRange inbuf fctx) :
    ∃ fctx1, fpath_plot_edge_bw fctx a b = some fctx1 ∧ SameSurface fctx fctx1 ∧
      fctx1.min = fctx.min ∧ fctx1.max = fctx.max ∧ FlagsInRange inbuf fctx1 := by
  obtain ⟨e, he, _, _, _⟩ := plot_edge_positions a b
  have hrange := plot_edge_positions_in_range fctx a b e ha hb he
  unfold fpath_plot_edge_bw
  rw [he]
  refine ⟨_, rfl, ⟨rfl, rfl, rfl, rfl⟩, rfl, rfl, ?_⟩
  intro a' i hin hbit
  simp only [plot_loop_bw_eq] at hbit
  rcases foldl_toggle_support _ _ _ _ _ hbit with h1 | ⟨p, hp, hpa⟩
  · obtain ⟨p, hp1, hp2⟩ := hJ a' i hin h1
    exact ⟨p, hp1, hp2⟩
  · exact ⟨p, hrange p hp, hpa⟩

theorem plot_edges_bw_keeps (inbuf : Int → Prop) (n : Nat) (points : List FPoint) :
    ∀ (ks : List Nat) (fctx : FContext), (∀ k ∈ ks, k < n) →
      (∀ k, k < n → BoxContains fctx (points.getD k FPointZero)) →
      FlagsInRange inbuf fctx →
      ∃ fctx1, plot_edges_bw n points ks fctx = some fctx1 ∧ SameSurface fctx fctx1 ∧
        fctx1.min = fctx.min ∧ fctx1.max = fctx.max ∧ FlagsInRange inbuf fctx1 := by
  intro ks
  induction ks with
  | nil => intro fctx _ _ hJ; exact ⟨fctx, rfl, same_surface_refl _, rfl, rfl, hJ⟩
  | cons k ks ih =>
    intro fctx hks hbox hJ
    have hk : k < n := hks k (List.mem_cons_self _ _)
    obtain ⟨c1, hc1, hs1, hmin1, hmax1, hJ1⟩ :=
      plot_edge_bw_keeps inbuf fctx _ _ (hbox k hk)
        (hbox ((k + 1) % n) (Nat.mod_lt _ (by omega))) hJ
    have hbox1 : ∀ k, k < n → BoxContains c1 (points.getD k FPointZero) := by
      intro k hk
      have := hbox k hk
      unfold BoxContains at this ⊢
      rw [hmin1, hmax1]
      exact this
    obtain ⟨c2, hc2, hs2, hmin2, hmax2, hJ2⟩ :=
      ih c1 (fun k hk => hks k (List.mem_cons_of_mem _ hk)) hbox1 hJ1
    refine ⟨c2, ?_, same_surface_trans hs1 hs2, hmin2.trans hmin1, hmax2.trans hmax1, hJ2⟩
    simp only [plot_edges_bw, hc1, hc2]

theorem box_le_refl (c : FContext) : BoxLe c c :=
  ⟨le_refl _, le_refl _, le_refl _, le_refl _⟩

theorem box_le_trans {c c1 c2 : FContext} (h1 : BoxLe c c1) (h2 : BoxLe c1 c2) : BoxLe c c2 :=
  ⟨le_trans h2.1 h1.1, le_trans h2.2.1 h1.2.1, le_trans h1.2.2.1 h2.2.2.1,
    le_trans h1.2.2.2 h2.2.2.2⟩

theorem box_contains_mono (c c1 : FContext) (q : FPoint) (hle : BoxLe c c1)
    (h : BoxContains c q) : BoxContains c1 q := by
  obtain ⟨l1, l2, l3, l4⟩ := hle
  obtain ⟨h1, h2, h3, h4⟩ := h
  exact ⟨le_trans l1 h1, le_trans h2 l3, le_trans l2 h3, le_trans h4 l4⟩

theorem grow_bounds_spec (w h : Int) (c : FContext) (q : FPoint) :
    BoxLe c (grow_bounds c q) ∧ BoxContains (grow_bounds c q) q ∧
    SameSurface c (grow_bounds c q) ∧ (grow_bounds c q).flagBuffer = c.flagBuffer ∧
    (BoxSane w h c → PointInSurface w h q → BoxSane w h (grow_bounds c q)) := by
  refine ⟨?_, ?_, ⟨rfl, rfl, rfl, rfl⟩, rfl, ?_⟩
  · refine ⟨?_, ?_, ?_, ?_⟩ <;> simp only [grow_bounds] <;> split <;> omega
  · refine ⟨?_, ?_, ?_, ?_⟩ <;> simp only [grow_bounds] <;> split <;> omega
  · intro hs hq
    obtain ⟨s1, s2, s3, s4, s5, s6, s7, s8⟩ := hs
    obtain ⟨q1, q2, q3, q4⟩ := hq
    refine ⟨?_, ?_, ?_, ?_, ?_, ?_, ?_, ?_⟩ <;> simp only [grow_bounds] <;> split <;> omega

theorem foldl_grow_bounds_spec (w h : Int) :
    ∀ (qs : List FPoint) (c : FContext),
      BoxLe c (qs.foldl grow_bounds c) ∧
      (∀ q ∈ qs, BoxContains (qs.foldl grow_bounds c) q) ∧
      SameSurface c (qs.foldl grow_bounds c) ∧
      (qs.foldl grow_bounds c).flagBuffer = c.flagBuffer ∧
      (BoxSane w h c → (∀ q ∈ qs, PointInSurface w h q) →
        BoxSane w h (qs.foldl grow_bounds c)) := by
  intro qs
  induction qs with
  | nil =>
    intro c
    exact ⟨box_le_refl c, by simp, same_surface_refl c, rfl, fun hs _ => hs⟩
  | cons q qs ih =>
    intro c
    obtain ⟨g1, g2, g3, g4, g5⟩ := grow_bounds_spec w h c q
    obtain ⟨i1, i2, i3, i4, i5⟩ := ih (grow_bounds c q)
    rw [List.foldl_cons]
    refine ⟨box_le_trans g1 i1, ?_, same_surface_trans g3 i3, i4.trans g4, ?_⟩
    · intro q' hq'
      rcases List.mem_cons.1 hq' with h1 | h1
      · rw [h1]
        exact box_contains_mono _ _ q i1 g2
      · exact i2 q' h1
    · intro hs hq
      exact i5 (g5 hs (hq q (List.mem_cons_self _ _)))
        (fun q' hq' => hq q' (List.mem_cons_of_mem _ hq'))

theorem getD_mem_of_lt (l : List FPoint) (k : Nat) (hk : k < l.length) :
    l.getD k FPointZero ∈ l := by
  rw [List.getD_eq_getElem _ _ hk]
  exact List.getElem_mem _

theorem transformed_points_bw_length (cos_lookup sin_lookup : Int → Int) (fpath : FPath) :
    (transformed_points_bw cos_lookup sin_lookup fpath).length = fpath.num_points := by
  simp [transformed_points_bw]

theorem flags_in_range_mono (inbuf : Int → Prop) (c c1 : FContext) (hle : BoxLe c c1)
    (hf : c1.flagBuffer = c.flagBuffer) (h : FlagsInRange inbuf c) :
    FlagsInRange inbuf c1 := by
  intro a i hin hbit
  rw [hf] at hbit ⊢
  obtain ⟨p, hp1, hp2⟩ := h a i hin hbit
  exact ⟨p, in_scan_range_mono c c1 p hle hp1, hp2⟩

/-- One `fpath_draw_filled_bw` of a path whose transformed points are within
the bounds: it returns, the bounding box grows to contain the points and
stays sane, and every set flag bit stays in the scan range. -/
theorem draw_filled_bw_keeps (cos_lookup sin_lookup : Int → Int) (inbuf : Int → Prop)
    (w h : Int) (malloc_ok : Bool) (fctx : FContext) (fpath : FPath)
    (hpts : ∀ q ∈ transformed_points_bw cos_lookup sin_lookup fpath, PointInSurface w h q)
    (hs : BoxSane w h fctx) (hJ : FlagsInRange inbuf fctx) :
    ∃ fctx1, fpath_draw_filled_bw cos_lookup sin_lookup malloc_ok fctx fpath = some fctx1 ∧
      SameSurface fctx fctx1 ∧ BoxLe fctx fctx1 ∧ BoxSane w h fctx1 ∧
      FlagsInRange inbuf fctx1 ∧
      (malloc_ok = true →
        ∀ q ∈ transformed_points_bw cos_lookup sin_lookup fpath, BoxContains fctx1 q) := by
  unfold fpath_draw_filled_bw
  cases malloc_ok with
  | false =>
    exact ⟨fctx, rfl, same_surface_refl _, box_le_refl _, hs, hJ, fun h => absurd h (by simp)⟩
  | true =>
    simp only [if_true]
    obtain ⟨g1, g2, g3, g4, g5⟩ := foldl_grow_bounds_spec w h
      (transformed_points_bw cos_lookup sin_lookup fpath) fctx
    have hlen := transformed_points_bw_length cos_lookup sin_lookup fpath
    obtain ⟨c1, hc1, hs1, hmin1, hmax1, hJ1⟩ := plot_edges_bw_keeps inbuf fpath.num_points
      (transformed_points_bw cos_lookup sin_lookup fpath) (List.range fpath.num_points)
      _ (fun k hk => List.mem_range.1 hk)
      (fun k hk => g2 _ (getD_mem_of_lt _ k (by rw [hlen]; exact hk)))
      (flags_in_range_mono inbuf _ _ g1 g4 hJ)
    have hle1 : BoxLe fctx c1 := by
      unfold BoxLe at g1 ⊢
      rw [hmin1, hmax1]
      exact g1
    refine ⟨c1, hc1, same_surface_trans g3 hs1, hle1, ?_, hJ1, ?_⟩
    · have := g5 hs hpts
      unfold BoxSane at this ⊢
      rw [hmin1, hmax1]
      exact this
    · intro _ q hq
      have := g2 q hq
      unfold BoxContains at this ⊢
      rw [hmin1, hmax1]
      exact this

theorem draw_all_bw_keeps (cos_lookup sin_lookup : Int → Int) (inbuf : Int → Prop)
    (w h : Int) :
    ∀ (paths : List (Bool × FPath)) (fctx : FContext),
      (∀ mp ∈ paths, ∀ q ∈ transformed_points_bw cos_lookup sin_lookup mp.2,
        PointInSurface w h q) →
      BoxSane w h fctx → FlagsInRange inbuf fctx →
      ∃ fctx1, draw_all_bw cos_lookup sin_lookup fctx paths = some fctx1 ∧
        SameSurface fctx fctx1 ∧ BoxLe fctx fctx1 ∧ BoxSane w h fctx1 ∧
        FlagsInRange inbuf fctx1 ∧
        ∀ mp ∈ paths, mp.1 = true →
          ∀ q ∈ transformed_points_bw cos_lookup sin_lookup mp.2, BoxContains fctx1 q := by
  intro paths
  induction paths with
  | nil =>
    intro fctx _ hs hJ
    exact ⟨fctx, rfl, same_surface_refl _, box_le_refl _, hs, hJ, by simp⟩
  | cons mp rest ih =>
    intro fctx hpts hs hJ
    obtain ⟨c1, hc1, hs1, hle1, hsane1, hJ1, hbox1⟩ :=
      draw_filled_bw_keeps cos_lookup sin_lookup inbuf w h mp.1 fctx mp.2
        (hpts mp (List.mem_cons_self _ _)) hs hJ
    obtain ⟨c2, hc2, hs2, hle2, hsane2, hJ2, hbox2⟩ :=
      ih c1 (fun mp' h' => hpts mp' (List.mem_cons_of_mem _ h')) hsane1 hJ1
    refine ⟨c2, ?_, same_surface_trans hs1 hs2, box_le_trans hle1 hle2, hsane2, hJ2, ?_⟩
    · obtain ⟨m, fp⟩ := mp
      simp only [draw_all_bw]
      simp only at hc1
      rw [hc1]
      exact hc2
    · intro mp' hmem hm q hq
      rcases List.mem_cons.1 hmem with h1 | h1
      · subst h1
        exact box_contains_mono _ _ q hle2 (hbox1 hm q hq)
      · exact hbox2 mp' h1 hm q hq

/-! ## Theorems: the scan of `fpath_end_fill_bw` and the flag buffer -/

theorem end_fill_cols_data (pbl_color : Bool) (color : Nat) (stride fbStride : Int)
    (row : Nat) :
    ∀ (cols : List Nat) (st : ScanState),
      (cols.foldl (end_fill_step_bw pbl_color color stride fbStride row) st).data =
        cols.foldl (clear_flag_bw stride row) st.data := by
  intro cols
  induction cols with
  | nil => intro st; rfl
  | cons c cs ih =>
    intro st
    rw [List.foldl_cons, List.foldl_cons, ih]
    rfl

theorem end_fill_row_data (pbl_color : Bool) (color : Nat) (stride fbStride : Int)
    (colBegin colEnd : Nat) (st : ScanState) (row : Nat) :
    (end_fill_row_bw pbl_color color stride fbStride colBegin colEnd st row).data =
      clear_row_bw stride colBegin colEnd st.data row := by
  unfold end_fill_row_bw clear_row_bw
  rw [end_fill_cols_data]

theorem end_fill_rows_data (pbl_color : Bool) (color : Nat) (stride fbStride : Int)
    (colBegin colEnd : Nat) :
    ∀ (rows : List Nat) (st : ScanState),
      (rows.foldl (end_fill_row_bw pbl_color color stride fbStride colBegin colEnd) st).data =
        rows.foldl (clear_row_bw stride colBegin colEnd) st.data := by
  intro rows
  induction rows with
  | nil => intro st; rfl
  | cons r rs ih =>
    intro st
    rw [List.foldl_cons, List.foldl_cons, ih, end_fill_row_data]

theorem toUInt16_eq (v : Int) (h0 : 0 ≤ v) (h1 : v < 65536) : (toUInt16 v : Int) = v := by
  unfold toUInt16
  omega

/-- Under a sane bounding box the `uint16_t` loop bounds of
`fpath_end_fill_bw` are the values of the `int32_t` expressions, and a
position of the scan range is one the loops visit. -/
theorem scan_range_visited (w h : Int) (fctx : FContext) (p : Int × Int)
    (hw : 0 ≤ w) (hw16 : w < 32767) (hh : 0 ≤ h) (hh16 : h < 32767)
    (hs : BoxSane w h fctx) (hp : InScanRange fctx p) :
    ∃ c r : Nat, p = ((c : Int), (r : Int)) ∧
      r ∈ List.range' (toUInt16 (FIXED_TO_INT fctx.min.y))
        (toUInt16 (FIXED_TO_INT fctx.max.y + 1) - toUInt16 (FIXED_TO_INT fctx.min.y)) ∧
      toUInt16 (FIXED_TO_INT fctx.min.x) ≤ c ∧
      c ≤ toUInt16 (FIXED_TO_INT fctx.max.x + 1) := by
  obtain ⟨s1, s2, s3, s4, s5, s6, s7, s8⟩ := hs
  obtain ⟨p1, p2, p3, p4⟩ := hp
  have f1 : FIXED_TO_INT fctx.min.x = if 0 ≤ fctx.min.x then fctx.min.x / 16
      else -((-fctx.min.x) / 16) := tdiv_16 _
  have f2 : FIXED_TO_INT fctx.min.y = if 0 ≤ fctx.min.y then fctx.min.y / 16
      else -((-fctx.min.y) / 16) := tdiv_16 _
  have f3 : FIXED_TO_INT fctx.max.x = if 0 ≤ fctx.max.x then fctx.max.x / 16
      else -((-fctx.max.x) / 16) := tdiv_16 _
  have f4 : FIXED_TO_INT fctx.max.y = if 0 ≤ fctx.max.y then fctx.max.y / 16
      else -((-fctx.max.y) / 16) := tdiv_16 _
  rw [if_pos s5] at f3
  rw [if_pos s7] at f4
  have g1 : 0 ≤ FIXED_TO_INT fctx.min.x ∧ FIXED_TO_INT fctx.min.x ≤ w + 1 := by
    rw [f1]; split <;> omega
  have g2 : 0 ≤ FIXED_TO_INT fctx.min.y ∧ FIXED_TO_INT fctx.min.y ≤ h + 1 := by
    rw [f2]; split <;> omega
  have g3 : 0 ≤ FIXED_TO_INT fctx.max.x ∧ FIXED_TO_INT fctx.max.x ≤ w := by
    rw [f3]; omega
  have g4 : 0 ≤ FIXED_TO_INT fctx.max.y ∧ FIXED_TO_INT fctx.max.y ≤ h := by
    rw [f4]; omega
  have u1 := toUInt16_eq (FIXED_TO_INT fctx.min.x) (by omega) (by omega)
  have u2 := toUInt16_eq (FIXED_TO_INT fctx.min.y) (by omega) (by omega)
  have u3 := toUInt16_eq (FIXED_TO_INT fctx.max.x + 1) (by omega) (by omega)
  have u4 := toUInt16_eq (FIXED_TO_INT fctx.max.y + 1) (by omega) (by omega)
  refine ⟨p.1.toNat, p.2.toNat, ?_, ?_, ?_, ?_⟩
  · rw [Int.toNat_of_nonneg (by omega), Int.toNat_of_nonneg (by omega)]
  · rw [List.mem_range'_1]
    omega
  · omega
  · omega

theorem end_fill_bw_flag_data (pbl_color : Bool) (fctx : FContext) :
    (fpath_end_fill_bw pbl_color fctx).flagBuffer.data =
      (List.range' (toUInt16 (FIXED_TO_INT fctx.min.y))
        (toUInt16 (FIXED_TO_INT fctx.max.y + 1) - toUInt16 (FIXED_TO_INT fctx.min.y))).foldl
        (clear_row_bw fctx.flagBuffer.row_size_bytes (toUInt16 (FIXED_TO_INT fctx.min.x))
          (toUInt16 (FIXED_TO_INT fctx.max.x + 1))) fctx.flagBuffer.data := by
  simp only [fpath_end_fill_bw, end_fill_rows_data]

/-- After `fpath_end_fill_bw` every byte singled out by `inbuf` is zero, when
the set bits of those bytes were all in the scan range. -/
theorem end_fill_bw_drains (pbl_color : Bool) (inbuf : Int → Prop) (w h : Int)
    (fctx : FContext) (hw : 0 ≤ w) (hw16 : w < 32767) (hh : 0 ≤ h) (hh16 : h < 32767)
    (hs : BoxSane w h fctx) (hJ : FlagsInRange inbuf fctx) :
    ∀ a, inbuf a → (fpath_end_fill_bw pbl_color fctx).flagBuffer.data a = 0 := by
  intro a ha
  apply Nat.zero_of_testBit_eq_false
  intro i
  by_contra hc
  have hc1 : ((fpath_end_fill_bw pbl_color fctx).flagBuffer.data a).testBit i = true := by
    simpa using hc
  rw [end_fill_bw_flag_data] at hc1
  have hc2 := foldl_clear_row_mono _ _ _ _ _ _ _ hc1
  obtain ⟨p, hp, hpa, hpi⟩ := hJ a i ha hc2
  obtain ⟨c, r, hpe, hr, hc3, hc4⟩ := scan_range_visited w h fctx p hw hw16 hh hh16 hs hp
  rw [hpe] at hpa hpi
  simp only at hpa hpi
  have hk := foldl_clear_row_kill fctx.flagBuffer.row_size_bytes
    (toUInt16 (FIXED_TO_INT fctx.min.x)) (toUInt16 (FIXED_TO_INT fctx.max.x + 1))
    _ fctx.flagBuffer.data r c hr hc3 hc4
  rw [← hpa, ← hpi, hc1] at hk
  exact absurd hk (by simp)

theorem begin_fill_bw_sane (w h : Int) (fctx : FContext) (hw : 0 ≤ w) (hh : 0 ≤ h)
    (hb : fctx.flagBuffer.bounds = ⟨0, 0, w + 1, h + 1⟩) :
    BoxSane w h (fpath_begin_fill_bw fctx) := by
  simp only [BoxSane, fpath_begin_fill_bw, hb, INT_TO_FIXED, FIXED_POINT_SCALE]
  omega

/-- C2. Full drain invariant, black-and-white strategy. On a `w` by `h`
surface whose flag bytes (the `row_size_bytes * (h + 1)` bytes of the flag
bitmap) are all zero, `fpath_begin_fill_bw`, any number of
`fpath_draw_filled_bw` calls on paths whose transformed points satisfy
`-16 < x ≤ 16 w` and `-16 < y ≤ 16 h`, and `fpath_end_fill_bw` all return
and leave every flag byte zero again; and every position that
`fpath_plot_edge_bw` visits for an edge of a drawn path lies in the rows
`[FIXED_TO_INT(min.y), FIXED_TO_INT(max.y) + 1)` and the columns
`[FIXED_TO_INT(min.x), FIXED_TO_INT(max.x) + 1]` that `fpath_end_fill_bw`
scans. -/
theorem bw_fill_drains_flag_buffer (cos_lookup sin_lookup : Int → Int) (pbl_color : Bool)
    (w h : Int) (fctx : FContext) (paths : List (Bool × FPath))
    (hw : 0 ≤ w) (hw16 : w < 32767) (hh : 0 ≤ h) (hh16 : h < 32767)
    (hbounds : fctx.flagBuffer.bounds = ⟨0, 0, w + 1, h + 1⟩)
    (hzero : ∀ a, 0 ≤ a → a < fctx.flagBuffer.row_size_bytes * (h + 1) →
      fctx.flagBuffer.data a = 0)
    (hpts : ∀ mp ∈ paths, ∀ q ∈ transformed_points_bw cos_lookup sin_lookup mp.2,
      -16 < q.x ∧ q.x ≤ 16 * w ∧ -16 < q.y ∧ q.y ≤ 16 * h) :
    ∃ fctx1, draw_all_bw cos_lookup sin_lookup (fpath_begin_fill_bw fctx) paths = some fctx1 ∧
      (∀ a, 0 ≤ a → a < fctx.flagBuffer.row_size_bytes * (h + 1) →
        (fpath_end_fill_bw pbl_color fctx1).flagBuffer.data a = 0) ∧
      (∀ mp ∈ paths, mp.1 = true → ∀ k, k < mp.2.num_points → ∀ e,
        plot_edge_init
          ((transformed_points_bw cos_lookup sin_lookup mp.2).getD k FPointZero)
          ((transformed_points_bw cos_lookup sin_lookup mp.2).getD
            ((k + 1) % mp.2.num_points) FPointZero) = some e →
        ∀ p ∈ edge_positions e.height.toNat e, InScanRange fctx1 p) := by
  have hJ0 : FlagsInRange
      (fun a => 0 ≤ a ∧ a < fctx.flagBuffer.row_size_bytes * (h + 1))
      (fpath_begin_fill_bw fctx) := by
    intro a i ha hbit
    have hz : (fpath_begin_fill_bw fctx).flagBuffer.data a = 0 := hzero a ha.1 ha.2
    rw [hz] at hbit
    simp at hbit
  obtain ⟨c1, hc1, hs1, hle1, hsane1, hJ1, hbox1⟩ :=
    draw_all_bw_keeps cos_lookup sin_lookup _ w h paths (fpath_begin_fill_bw fctx) hpts
      (begin_fill_bw_sane w h fctx hw hh hbounds) hJ0
  refine ⟨c1, hc1, ?_, ?_⟩
  · intro a ha0 ha1
    exact end_fill_bw_drains pbl_color _ w h c1 hw hw16 hh hh16 hsane1 hJ1 a ⟨ha0, ha1⟩
  · intro mp hmp hm k hk e he p hp
    have hlen := transformed_points_bw_length cos_lookup sin_lookup mp.2
    exact plot_edge_positions_in_range c1 _ _ e
      (hbox1 mp hmp hm _ (getD_mem_of_lt _ k (by rw [hlen]; exact hk)))
      (hbox1 mp hmp hm _ (getD_mem_of_lt _ _ (by rw [hlen]; exact Nat.mod_lt _ (by omega))))
      he p hp

theorem square_path_points :
    transformed_points_bw cos_zero sin_zero square_path =
      [⟨16, 16⟩, ⟨48, 16⟩, ⟨48, 48⟩, ⟨16, 48⟩] := by
  decide

theorem bw_fill_drains_flag_buffer_witness :
    ∃ fctx1, draw_all_bw cos_zero sin_zero (fpath_begin_fill_bw (blank_context 4 4 4 1 1))
        [(true, square_path)] = some fctx1 ∧
      ∀ a, 0 ≤ a → a < (blank_context 4 4 4 1 1).flagBuffer.row_size_bytes * (4 + 1) →
        (fpath_end_fill_bw true fctx1).flagBuffer.data a = 0 :=
  have h := bw_fill_drains_flag_buffer cos_zero sin_zero true 4 4 (blank_context 4 4 4 1 1)
    [(true, square_path)] (by decide) (by decide) (by decide) (by decide) rfl
    (fun _ _ _ => rfl)
    (by
      intro mp hmp q hq
      simp only [List.mem_singleton] at hmp
      subst hmp
      rw [square_path_points] at hq
      simp only [List.mem_cons, List.mem_singleton, List.not_mem_nil, or_false] at hq
      rcases hq with h | h | h | h <;> subst h <;> decide)
  h.imp fun _ hc => ⟨hc.1, hc.2.1⟩

/-! ## Theorems: the flag buffer as a grid of bits -/

theorem flag_pos_inj (stride x y x0 y0 : Int) (hx : 0 ≤ x) (hxs : x < 8 * stride)
    (hx0 : 0 ≤ x0) (hx0s : x0 < 8 * stride) :
    (flag_addr stride x y = flag_addr stride x0 y0 ∧ flag_bit x = flag_bit x0) ↔
      (x = x0 ∧ y = y0) := by
  unfold flag_addr flag_bit
  rw [Int.tdiv_eq_ediv hx (by norm_num), Int.tdiv_eq_ediv hx0 (by norm_num),
    Int.tmod_eq_emod hx (by norm_num), Int.tmod_eq_emod hx0 (by norm_num)]
  constructor
  · rintro ⟨h1, h2⟩
    have d1 : 0 ≤ x / 8 := by omega
    have d2 : x / 8 < stride := by omega
    have d3 : 0 ≤ x0 / 8 := by omega
    have d4 : x0 / 8 < stride := by omega
    have hy : y = y0 := by
      rcases lt_trichotomy y y0 with hlt | heq | hgt
      · have h3 : 0 ≤ (y0 - y - 1) * stride := mul_nonneg (by omega) (by omega)
        nlinarith
      · exact heq
      · have h3 : 0 ≤ (y - y0 - 1) * stride := mul_nonneg (by omega) (by omega)
        nlinarith
    subst hy
    have h4 : x / 8 = x0 / 8 := by linarith
    refine ⟨?_, rfl⟩
    omega
  · rintro ⟨h1, h2⟩
    subst h1 h2
    exact ⟨rfl, rfl⟩

theorem flag_at_toggle (stride : Int) (data : Int → Nat) (x y x0 y0 : Int)
    (hx : 0 ≤ x) (hxs : x < 8 * stride) (hx0 : 0 ≤ x0) (hx0s : x0 < 8 * stride) :
    flag_at stride (toggle_flag_bw stride data x0 y0) x y =
      (flag_at stride data x y ^^ decide (x = x0 ∧ y = y0)) := by
  unfold flag_at
  rw [testBit_toggle]
  congr 1
  rw [decide_eq_decide]
  exact flag_pos_inj stride x y x0 y0 hx hxs hx0 hx0s

theorem flag_at_clear (stride : Int) (data : Int → Nat) (row col : Nat) (x y : Int)
    (hx : 0 ≤ x) (hxs : x < 8 * stride) (hcs : (col : Int) < 8 * stride) :
    flag_at stride (clear_flag_bw stride row data col) x y =
      (flag_at stride data x y && !decide (x = (col : Int) ∧ y = (row : Int))) := by
  unfold flag_at
  rw [testBit_clear]
  have hinj := flag_pos_inj stride x y col row hx hxs (by omega) hcs
  have hb := flag_bit_lt x
  by_cases ha : flag_addr stride x y = flag_addr stride col row
  · rw [if_pos ha]
    by_cases hbit : flag_bit x = flag_bit col
    · have := hinj.1 ⟨ha, hbit⟩
      simp [hbit, this]
    · have hne : ¬(x = (col : Int) ∧ y = (row : Int)) := fun h => hbit (hinj.2 h).2
      simp [hbit, hne, hb]
  · rw [if_neg ha]
    have hne : ¬(x = (col : Int) ∧ y = (row : Int)) := fun h => ha (hinj.2 h).1
    simp [hne]

theorem foldl_toggle_edge_rows (stride : Int) (f : Int → Int) (y0 : Int) :
    ∀ (m : Nat) (data : Int → Nat),
      (∀ k : Nat, k < m → 0 ≤ f (y0 + k) ∧ f (y0 + k) < 8 * stride) →
      ∀ x y : Int, 0 ≤ x → x < 8 * stride →
        flag_at stride
          (((List.range m).map fun (k : Nat) => (f (y0 + (k : Int)), y0 + (k : Int))).foldl
            (fun d p => toggle_flag_bw stride d p.1 p.2) data) x y =
          (flag_at stride data x y ^^ decide (y0 ≤ y ∧ y < y0 + m ∧ f y = x)) := by
  intro m
  induction m with
  | zero =>
    intro data _ x y _ _
    have : ¬(y0 ≤ y ∧ y < y0 + ((0 : Nat) : Int) ∧ f y = x) := by
      rintro ⟨h1, h2, _⟩
      simp at h2
      omega
    rw [decide_eq_false this]
    simp
  | succ m ih =>
    intro data hf x y hx hxs
    rw [List.range_succ, List.map_append, List.foldl_append]
    simp only [List.map_cons, List.map_nil, List.foldl_cons, List.foldl_nil]
    have hm := hf m (Nat.lt_succ_self m)
    rw [flag_at_toggle stride _ x y _ _ hx hxs hm.1 hm.2,
      ih data (fun k hk => hf k (Nat.lt_succ_of_lt hk)) x y hx hxs, Bool.xor_assoc]
    congr 1
    by_cases h1 : y0 ≤ y ∧ y < y0 + (m : Int) ∧ f y = x
    · have h2 : ¬(x = f (y0 + (m : Int)) ∧ y = y0 + (m : Int)) := by
        rintro ⟨_, h⟩; omega
      have h3 : y0 ≤ y ∧ y < y0 + ((m + 1 : Nat) : Int) ∧ f y = x :=
        ⟨h1.1, by push_cast; omega, h1.2.2⟩
      rw [decide_eq_true h1, decide_eq_false h2, decide_eq_true h3]
      rfl
    · by_cases h2 : x = f (y0 + (m : Int)) ∧ y = y0 + (m : Int)
      · have h3 : y0 ≤ y ∧ y < y0 + ((m + 1 : Nat) : Int) ∧ f y = x := by
          obtain ⟨hx', hy'⟩ := h2
          refine ⟨by omega, by push_cast; omega, ?_⟩
          rw [hy', hx']
        rw [decide_eq_false h1, decide_eq_true h2, decide_eq_true h3]
        rfl
      · have h3 : ¬(y0 ≤ y ∧ y < y0 + ((m + 1 : Nat) : Int) ∧ f y = x) := by
          rintro ⟨a1, a2, a3⟩
          push_cast at a2
          by_cases hy : y = y0 + (m : Int)
          · exact h2 ⟨by rw [← hy]; exact a3.symm, hy⟩
          · exact h1 ⟨a1, by omega, a3⟩
        rw [decide_eq_false h1, decide_eq_false h2, decide_eq_false h3]
        rfl

theorem ceil_div_neg15 : ceil_div (-15) 16 = 0 := by decide

theorem ceil_div_16_mul (w : Int) : ceil_div (16 * w) 16 = w := by
  rw [ceil_div_16]; omega

theorem spans_row_iff (a b : FPoint) (r : Int) :
    spans_row a b r = true ↔
      ceil_div (edge_top a b).y 16 ≤ r ∧ r < ceil_div (edge_bottom a b).y 16 := by
  simp [spans_row]

/-- One `fpath_plot_edge_bw` seen on the grid: the flag of `(x, y)` flips
exactly when the edge spans row `y` and crosses it in column `x`. -/
theorem plot_edge_bw_flag_at (fctx : FContext) (a b : FPoint) (w : Int)
    (hws : w < 8 * fctx.flagBuffer.row_size_bytes)
    (ha : -16 < a.x ∧ a.x ≤ 16 * w) (hb : -16 < b.x ∧ b.x ≤ 16 * w) :
    ∃ fctx1, fpath_plot_edge_bw fctx a b = some fctx1 ∧ SameSurface fctx fctx1 ∧
      fctx1.min = fctx.min ∧ fctx1.max = fctx.max ∧
      ∀ x y : Int, 0 ≤ x → x < 8 * fctx.flagBuffer.row_size_bytes →
        flag_at fctx.flagBuffer.row_size_bytes fctx1.flagBuffer.data x y =
          (flag_at fctx.flagBuffer.row_size_bytes fctx.flagBuffer.data x y ^^
            (spans_row a b y &&
              decide (crossing_column (edge_top a b) (edge_bottom a b) y = x))) := by
  obtain ⟨e, he, h0, hh, hpos⟩ := plot_edge_positions a b
  unfold fpath_plot_edge_bw
  rw [he]
  refine ⟨_, rfl, ⟨rfl, rfl, rfl, rfl⟩, rfl, rfl, ?_⟩
  intro x y hx hxs
  simp only [plot_loop_bw_eq, hpos]
  have htx : -16 < (edge_top a b).x ∧ (edge_top a b).x ≤ 16 * w := by
    unfold edge_top; split <;> assumption
  have hbx : -16 < (edge_bottom a b).x ∧ (edge_bottom a b).x ≤ 16 * w := by
    unfold edge_bottom; split <;> assumption
  rw [foldl_toggle_edge_rows _ (crossing_column (edge_top a b) (edge_bottom a b)) _ _ _ ?_
    x y hx hxs]
  · congr 1
    by_cases hs : spans_row a b y = true
    · have hs' := (spans_row_iff a b y).1 hs
      rw [hs, Bool.true_and, decide_eq_decide]
      constructor
      · exact fun h => h.2.2
      · intro h
        refine ⟨hs'.1, ?_, h⟩
        rw [Int.toNat_of_nonneg h0]
        omega
    · have hs0 : spans_row a b y = false := by simpa using hs
      rw [hs0, Bool.false_and]
      apply decide_eq_false
      rintro ⟨h1, h2, _⟩
      rw [Int.toNat_of_nonneg h0] at h2
      exact hs ((spans_row_iff a b y).2 ⟨h1, by omega⟩)
  · intro k hk
    have hk' : (k : Int) < e.height := by omega
    have hcb := crossing_column_bounds (edge_top a b) (edge_bottom a b)
      (ceil_div (edge_top a b).y 16 + (k : Int)) (-15) (16 * w)
      (by omega) (by omega) (by omega) (by omega) htx.2 hbx.2
    rw [ceil_div_neg15, ceil_div_16_mul] at hcb
    omega

theorem plot_edges_bw_flag_at (n : Nat) (Q : List FPoint) (w : Int) :
    ∀ (ks : List Nat) (fctx : FContext), (∀ k ∈ ks, k < n) →
      w < 8 * fctx.flagBuffer.row_size_bytes →
      (∀ k, k < n → -16 < (Q.getD k FPointZero).x ∧ (Q.getD k FPointZero).x ≤ 16 * w) →
      ∃ fctx1, plot_edges_bw n Q ks fctx = some fctx1 ∧ SameSurface fctx fctx1 ∧
        fctx1.min = fctx.min ∧ fctx1.max = fctx.max ∧
        ∀ x y : Int, 0 ≤ x → x < 8 * fctx.flagBuffer.row_size_bytes →
          flag_at fctx.flagBuffer.row_size_bytes fctx1.flagBuffer.data x y =
            (flag_at fctx.flagBuffer.row_size_bytes fctx.flagBuffer.data x y ^^
              Nat.bodd (ks.countP (edge_hits n Q y x))) := by
  intro ks
  induction ks with
  | nil =>
    intro fctx _ _ _
    exact ⟨fctx, rfl, same_surface_refl _, rfl, rfl, by simp⟩
  | cons k ks ih =>
    intro fctx hks hws hQ
    have hk : k < n := hks k (List.mem_cons_self _ _)
    obtain ⟨c1, hc1, hs1, hmin1, hmax1, hf1⟩ :=
      plot_edge_bw_flag_at fctx (Q.getD k FPointZero) (Q.getD ((k + 1) % n) FPointZero) w hws
        (hQ k hk) (hQ _ (Nat.mod_lt _ (by omega)))
    have hstride : c1.flagBuffer.row_size_bytes = fctx.flagBuffer.row_size_bytes := hs1.2.1
    obtain ⟨c2, hc2, hs2, hmin2, hmax2, hf2⟩ :=
      ih c1 (fun k hk => hks k (List.mem_cons_of_mem _ hk)) (by rw [hstride]; exact hws) hQ
    refine ⟨c2, ?_, same_surface_trans hs1 hs2, hmin2.trans hmin1, hmax2.trans hmax1, ?_⟩
    · simp only [plot_edges_bw, hc1, hc2]
    · intro x y hx hxs
      rw [hstride] at hf2
      rw [hf2 x y hx hxs, hf1 x y hx hxs, List.countP_cons, Nat.bodd_add, Bool.xor_assoc]
      congr 1
      rw [Bool.xor_comm]
      congr 1
      unfold edge_hits
      split <;> simp_all

/-! ## Theorems: the scan of `fpath_end_fill_bw` and the frame buffer -/

theorem and_shift_ne_zero_iff (v k : Nat) : (v &&& (1 <<< k) ≠ 0) ↔ v.testBit k = true := by
  rw [Nat.one_shiftLeft]
  constructor
  · intro h
    by_contra hc
    apply h
    apply Nat.zero_of_testBit_eq_false
    intro i
    rw [Nat.testBit_and, Nat.testBit_two_pow]
    by_cases hki : k = i
    · subst hki; simp [hc]
    · simp [hki]
  · intro h h0
    have := congrArg (fun n => n.testBit k) h0
    simp only [Nat.testBit_and, Nat.testBit_two_pow, h, Nat.zero_testBit] at this
    simp at this

theorem surface_pixel_write (pbl_color : Bool) (fillColor : Nat) (fbData : Int → Nat)
    (fbStride w : Int) (row col c0 r0 : Nat)
    (hfb : if pbl_color = true then w ≤ fbStride else w ≤ 8 * fbStride)
    (hcol : (col : Int) < w) (hc0 : (c0 : Int) < w) :
    surface_pixel pbl_color
      (Function.update fbData
        (if pbl_color = true then fbStride * row + col else fbStride * row + Int.tdiv col 8)
        (if pbl_color = true then fill_byte_bw pbl_color fillColor
         else (fill_byte_bw pbl_color fillColor &&& (1 <<< (Int.tmod col 8).toNat)) |||
           (fbData (if pbl_color = true then fbStride * row + col
              else fbStride * row + Int.tdiv col 8)
            &&& (255 ^^^ (1 <<< (Int.tmod col 8).toNat))))) fbStride c0 r0 =
      if c0 = col ∧ r0 = row then fill_pixel pbl_color fillColor
      else surface_pixel pbl_color fbData fbStride c0 r0 := by
  cases pbl_color with
  | true =>
    simp only [if_true] at hfb
    simp only [surface_pixel, if_true, fill_pixel, fill_byte_bw, Function.update_apply]
    by_cases h : c0 = col ∧ r0 = row
    · obtain ⟨h1, h2⟩ := h
      subst h1 h2
      simp
    · rw [if_neg h, if_neg]
      intro heq
      apply h
      have hr : (r0 : Int) = row := by
        rcases lt_trichotomy (r0 : Int) row with hlt | he | hgt
        · have h3 : 0 ≤ ((row : Int) - r0 - 1) * fbStride := mul_nonneg (by omega) (by omega)
          nlinarith
        · exact he
        · have h3 : 0 ≤ ((r0 : Int) - row - 1) * fbStride := mul_nonneg (by omega) (by omega)
          nlinarith
      have hc : (c0 : Int) = col := by rw [hr] at heq; linarith
      exact ⟨by exact_mod_cast hc, by exact_mod_cast hr⟩
  | false =>
    simp only [Bool.false_eq_true, if_false] at hfb
    have hinj := flag_pos_inj fbStride c0 r0 col row (by omega) (by omega) (by omega) (by omega)
    have e1 : fbStride * (r0 : Int) + Int.tdiv c0 8 = flag_addr fbStride c0 r0 := by
      unfold flag_addr; ring
    have e2 : fbStride * (row : Int) + Int.tdiv col 8 = flag_addr fbStride col row := by
      unfold flag_addr; ring
    have hb := flag_bit_lt c0
    have h255 : ∀ j, j < 8 → (255 : Nat).testBit j = true := by
      intro j hj
      interval_cases j <;> rfl
    simp only [surface_pixel, Bool.false_eq_true, if_false, fill_pixel, fill_byte_bw, e1, e2,
      Function.update_apply]
    unfold flag_bit at hb hinj
    generalize ((c0 : Int).tmod 8).toNat = kc at *
    generalize ((col : Int).tmod 8).toNat = kk at *
    by_cases ha : flag_addr fbStride c0 r0 = flag_addr fbStride col row
    · rw [if_pos ha]
      rw [Nat.testBit_or, Nat.testBit_and, Nat.testBit_and, Nat.testBit_xor, Nat.one_shiftLeft,
        Nat.testBit_two_pow]
      by_cases hbit : kc = kk
      · have hpos := hinj.1 ⟨ha, hbit⟩
        have hpos' : c0 = col ∧ r0 = row :=
          ⟨by exact_mod_cast hpos.1, by exact_mod_cast hpos.2⟩
        rw [if_pos hpos']
        subst hbit
        by_cases hwhite : fillColor = GColorWhite
        · simp [hwhite, h255 kc hb]
        · simp [hwhite, h255 kc hb]
      · have hne : ¬(c0 = col ∧ r0 = row) := by
          rintro ⟨h1, h2⟩
          subst h1 h2
          exact hbit ((hinj.2 ⟨rfl, rfl⟩).2)
        rw [if_neg hne, ha]
        simp [h255 kc hb, Ne.symm hbit]
    · rw [if_neg ha]
      have hne : ¬(c0 = col ∧ r0 = row) := by
        rintro ⟨h1, h2⟩
        subst h1 h2
        exact ha rfl
      rw [if_neg hne]

theorem end_fill_step_inside (pbl_color : Bool) (color : Nat) (stride fbStride : Int)
    (row : Nat) (st : ScanState) (col : Nat) :
    (end_fill_step_bw pbl_color color stride fbStride row st col).inside =
      (st.inside ^^ flag_at stride st.data col row) := by
  have hsrc : stride * (row : Int) + Int.tdiv col 8 = flag_addr stride col row := by
    unfold flag_addr; ring
  simp only [end_fill_step_bw, hsrc]
  unfold flag_at flag_bit
  by_cases h : (st.data (flag_addr stride col row)).testBit (Int.tmod (col : Int) 8).toNat = true
  · rw [if_pos ((and_shift_ne_zero_iff _ _).2 h), h]
    simp
  · rw [if_neg (fun hc => h ((and_shift_ne_zero_iff _ _).1 hc))]
    have h' : (st.data (flag_addr stride col row)).testBit (Int.tmod (col : Int) 8).toNat
        = false := by simpa using h
    rw [h']
    simp

theorem end_fill_step_data (pbl_color : Bool) (color : Nat) (stride fbStride : Int)
    (row : Nat) (st : ScanState) (col : Nat) :
    (end_fill_step_bw pbl_color color stride fbStride row st col).data =
      clear_flag_bw stride row st.data col := rfl

theorem end_fill_step_pixel (pbl_color : Bool) (fillColor : Nat) (stride fbStride w : Int)
    (row : Nat) (st : ScanState) (col c0 r0 : Nat)
    (hfb : if pbl_color = true then w ≤ fbStride else w ≤ 8 * fbStride)
    (hsafe : (end_fill_step_bw pbl_color (fill_byte_bw pbl_color fillColor) stride fbStride
      row st col).inside = true → (col : Int) < w)
    (hc0 : (c0 : Int) < w) :
    surface_pixel pbl_color
      (end_fill_step_bw pbl_color (fill_byte_bw pbl_color fillColor) stride fbStride
        row st col).fbData fbStride c0 r0 =
      if c0 = col ∧ r0 = row ∧
          (end_fill_step_bw pbl_color (fill_byte_bw pbl_color fillColor) stride fbStride
            row st col).inside = true
      then fill_pixel pbl_color fillColor
      else surface_pixel pbl_color st.fbData fbStride c0 r0 := by
  by_cases hin : (end_fill_step_bw pbl_color (fill_byte_bw pbl_color fillColor) stride fbStride
      row st col).inside = true
  · have hw := surface_pixel_write pbl_color fillColor st.fbData fbStride w row col c0 r0 hfb
      (hsafe hin) hc0
    have hfbd : (end_fill_step_bw pbl_color (fill_byte_bw pbl_color fillColor) stride fbStride
        row st col).fbData =
        Function.update st.fbData
          (if pbl_color = true then fbStride * row + col else fbStride * row + Int.tdiv col 8)
          (if pbl_color = true then fill_byte_bw pbl_color fillColor
           else (fill_byte_bw pbl_color fillColor &&& (1 <<< (Int.tmod col 8).toNat)) |||
             (st.fbData (if pbl_color = true then fbStride * row + col
                else fbStride * row + Int.tdiv col 8)
              &&& (255 ^^^ (1 <<< (Int.tmod col 8).toNat)))) := by
      have hin' := hin
      simp only [end_fill_step_bw] at hin' ⊢
      rw [if_pos hin']
    rw [hfbd, hw]
    by_cases hpos : c0 = col ∧ r0 = row
    · rw [if_pos hpos, if_pos ⟨hpos.1, hpos.2, hin⟩]
    · rw [if_neg hpos, if_neg (fun h => hpos ⟨h.1, h.2.1⟩)]
  · have hfbd : (end_fill_step_bw pbl_color (fill_byte_bw pbl_color fillColor) stride fbStride
        row st col).fbData = st.fbData := by
      have hin' := hin
      simp only [end_fill_step_bw] at hin' ⊢
      rw [if_neg hin']
    rw [hfbd, if_neg (fun h => hin h.2.2)]

/-- The scan of the columns `cb .. cb + m - 1` of one row, from a state with
`inside = false` whose flags in that row are `g`: `inside` ends as the
exclusive or of the flags, the flags scanned are cleared, and pixel `(c, row)`
is written exactly when the exclusive or up to and with column `c` is true. -/
theorem end_fill_cols_spec (pbl_color : Bool) (fillColor : Nat) (stride fbStride w : Int)
    (hfb : if pbl_color = true then w ≤ fbStride else w ≤ 8 * fbStride)
    (row cb : Nat) (g : Nat → Bool) (st : ScanState) (hst : st.inside = false) :
    ∀ m : Nat,
      (∀ j, j < m → ((cb + j : Nat) : Int) < 8 * stride) →
      (∀ j, j < m → flag_at stride st.data ((cb + j : Nat) : Int) row = g (cb + j)) →
      (∀ j, j < m → prefix_xor g cb (j + 1) = true → ((cb + j : Nat) : Int) < w) →
      ((List.range' cb m).foldl
        (end_fill_step_bw pbl_color (fill_byte_bw pbl_color fillColor) stride fbStride row)
        st).inside = prefix_xor g cb m ∧
      (∀ x y : Int, 0 ≤ x → x < 8 * stride →
        flag_at stride ((List.range' cb m).foldl
          (end_fill_step_bw pbl_color (fill_byte_bw pbl_color fillColor) stride fbStride row)
          st).data x y =
          (flag_at stride st.data x y &&
            !decide (y = (row : Int) ∧ (cb : Int) ≤ x ∧ x < (cb : Int) + m))) ∧
      (∀ c0 r0 : Nat, (c0 : Int) < w →
        surface_pixel pbl_color ((List.range' cb m).foldl
          (end_fill_step_bw pbl_color (fill_byte_bw pbl_color fillColor) stride fbStride row)
          st).fbData fbStride c0 r0 =
          if r0 = row ∧ cb ≤ c0 ∧ c0 < cb + m ∧ prefix_xor g cb (c0 - cb + 1) = true
          then fill_pixel pbl_color fillColor
          else surface_pixel pbl_color st.fbData fbStride c0 r0) := by
  intro m
  induction m with
  | zero =>
    intro _ _ _
    refine ⟨by simpa [prefix_xor] using hst, ?_, ?_⟩
    · intro x y _ _
      have : ¬(y = (row : Int) ∧ (cb : Int) ≤ x ∧ x < (cb : Int) + ((0 : Nat) : Int)) := by
        rintro ⟨_, h1, h2⟩
        simp at h2
        omega
      rw [decide_eq_false this]
      simp
    · intro c0 r0 _
      rw [if_neg (by omega)]
      rfl
  | succ m ih =>
    intro hin hg hsafe
    obtain ⟨i1, i2, i3⟩ := ih (fun j hj => hin j (Nat.lt_succ_of_lt hj))
      (fun j hj => hg j (Nat.lt_succ_of_lt hj)) (fun j hj => hsafe j (Nat.lt_succ_of_lt hj))
    rw [List.range'_concat, List.foldl_append]
    simp only [one_mul, List.foldl_cons, List.foldl_nil]
    generalize hprev : (List.range' cb m).foldl
      (end_fill_step_bw pbl_color (fill_byte_bw pbl_color fillColor) stride fbStride row)
      st = prev at i1 i2 i3
    have hcol := hin m (Nat.lt_succ_self m)
    have hbit : flag_at stride prev.data ((cb + m : Nat) : Int) row = g (cb + m) := by
      rw [i2 _ _ (by omega) hcol, hg m (Nat.lt_succ_self m)]
      have : ¬((row : Int) = (row : Int) ∧ (cb : Int) ≤ ((cb + m : Nat) : Int) ∧
          ((cb + m : Nat) : Int) < (cb : Int) + m) := by
        rintro ⟨_, _, h⟩
        push_cast at h
        omega
      rw [decide_eq_false this]
      simp
    have hinside : (end_fill_step_bw pbl_color (fill_byte_bw pbl_color fillColor) stride
        fbStride row prev (cb + m)).inside = prefix_xor g cb (m + 1) := by
      rw [end_fill_step_inside, i1, hbit]
      rfl
    refine ⟨hinside, ?_, ?_⟩
    · intro x y hx hxs
      rw [end_fill_step_data, flag_at_clear stride _ _ _ x y hx hxs hcol, i2 x y hx hxs,
        Bool.and_assoc]
      congr 1
      by_cases h1 : y = (row : Int) ∧ (cb : Int) ≤ x ∧ x < (cb : Int) + m
      · have h2 : ¬(x = ((cb + m : Nat) : Int) ∧ y = (row : Int)) := by
          rintro ⟨h, _⟩; push_cast at h; omega
        have h3 : y = (row : Int) ∧ (cb : Int) ≤ x ∧ x < (cb : Int) + ((m + 1 : Nat) : Int) :=
          ⟨h1.1, h1.2.1, by push_cast; omega⟩
        rw [decide_eq_true h1, decide_eq_false h2, decide_eq_true h3]
        rfl
      · by_cases h2 : x = ((cb + m : Nat) : Int) ∧ y = (row : Int)
        · have h3 : y = (row : Int) ∧ (cb : Int) ≤ x ∧
              x < (cb : Int) + ((m + 1 : Nat) : Int) := by
            obtain ⟨hx', hy'⟩ := h2
            push_cast at hx' ⊢
            exact ⟨hy', by omega, by omega⟩
          rw [decide_eq_false h1, decide_eq_true h2, decide_eq_true h3]
          rfl
        · have h3 : ¬(y = (row : Int) ∧ (cb : Int) ≤ x ∧
              x < (cb : Int) + ((m + 1 : Nat) : Int)) := by
            rintro ⟨a1, a2, a3⟩
            push_cast at a3
            by_cases hxm : x = ((cb + m : Nat) : Int)
            · exact h2 ⟨hxm, a1⟩
            · push_cast at hxm
              exact h1 ⟨a1, a2, by omega⟩
          rw [decide_eq_false h1, decide_eq_false h2, decide_eq_false h3]
          rfl
    · intro c0 r0 hc0
      have hsafe' : (end_fill_step_bw pbl_color (fill_byte_bw pbl_color fillColor) stride
          fbStride row prev (cb + m)).inside = true → ((cb + m : Nat) : Int) < w := by
        rw [hinside]
        exact hsafe m (Nat.lt_succ_self m)
      rw [end_fill_step_pixel pbl_color fillColor stride fbStride w row prev (cb + m) c0 r0
        hfb hsafe' hc0, hinside, i3 c0 r0 hc0]
      by_cases hpos : c0 = cb + m ∧ r0 = row ∧ prefix_xor g cb (m + 1) = true
      · rw [if_pos hpos, if_pos]
        obtain ⟨h1, h2, h3⟩ := hpos
        refine ⟨h2, by omega, by omega, ?_⟩
        rw [h1, Nat.add_sub_cancel_left]
        exact h3
      · rw [if_neg hpos]
        by_cases hold : r0 = row ∧ cb ≤ c0 ∧ c0 < cb + m ∧ prefix_xor g cb (c0 - cb + 1) = true
        · rw [if_pos hold, if_pos ⟨hold.1, hold.2.1, by omega, hold.2.2.2⟩]
        · rw [if_neg hold, if_neg]
          rintro ⟨a1, a2, a3, a4⟩
          by_cases hc : c0 = cb + m
          · apply hpos
            refine ⟨hc, a1, ?_⟩
            rw [hc, Nat.add_sub_cancel_left] at a4
            exact a4
          · exact hold ⟨a1, a2, by omega, a4⟩

/-- The scan of the rows `rb .. rb + m - 1`, columns `cb .. ce`, from flags
`G`: the flags scanned are cleared, and pixel `(c, r)` of the scan is written
exactly when the exclusive or of the flags `G r cb .. G r c` is true. -/
theorem end_fill_rows_spec (pbl_color : Bool) (fillColor : Nat) (stride fbStride w : Int)
    (hfb : if pbl_color = true then w ≤ fbStride else w ≤ 8 * fbStride)
    (rb cb ce : Nat) (G : Nat → Nat → Bool) (st : ScanState)
    (hce : (ce : Int) < 8 * stride) :
    ∀ m : Nat,
      (∀ i, i < m → ∀ c, cb ≤ c → c ≤ ce →
        flag_at stride st.data (c : Int) ((rb + i : Nat) : Int) = G (rb + i) c) →
      (∀ i, i < m → ∀ c, cb ≤ c → c ≤ ce →
        prefix_xor (G (rb + i)) cb (c - cb + 1) = true → (c : Int) < w) →
      (∀ x y : Int, 0 ≤ x → x < 8 * stride →
        flag_at stride ((List.range' rb m).foldl
          (end_fill_row_bw pbl_color (fill_byte_bw pbl_color fillColor) stride fbStride cb ce)
          st).data x y =
          (flag_at stride st.data x y &&
            !decide ((rb : Int) ≤ y ∧ y < (rb : Int) + m ∧ (cb : Int) ≤ x ∧ x ≤ (ce : Int)))) ∧
      (∀ c0 r0 : Nat, (c0 : Int) < w →
        surface_pixel pbl_color ((List.range' rb m).foldl
          (end_fill_row_bw pbl_color (fill_byte_bw pbl_color fillColor) stride fbStride cb ce)
          st).fbData fbStride c0 r0 =
          if rb ≤ r0 ∧ r0 < rb + m ∧ cb ≤ c0 ∧ c0 ≤ ce ∧
              prefix_xor (G r0) cb (c0 - cb + 1) = true
          then fill_pixel pbl_color fillColor
          else surface_pixel pbl_color st.fbData fbStride c0 r0) := by
  intro m
  induction m with
  | zero =>
    intro _ _
    refine ⟨?_, ?_⟩
    · intro x y _ _
      have : ¬((rb : Int) ≤ y ∧ y < (rb : Int) + ((0 : Nat) : Int) ∧ (cb : Int) ≤ x ∧
          x ≤ (ce : Int)) := by
        rintro ⟨h1, h2, _⟩
        simp at h2
        omega
      rw [decide_eq_false this]
      simp
    · intro c0 r0 _
      rw [if_neg (by omega)]
      rfl
  | succ m ih =>
    intro hG hsafe
    obtain ⟨i2, i3⟩ := ih (fun i hi => hG i (Nat.lt_succ_of_lt hi))
      (fun i hi => hsafe i (Nat.lt_succ_of_lt hi))
    rw [List.range'_concat, List.foldl_append]
    simp only [one_mul, List.foldl_cons, List.foldl_nil]
    generalize hprev : (List.range' rb m).foldl
      (end_fill_row_bw pbl_color (fill_byte_bw pbl_color fillColor) stride fbStride cb ce)
      st = prev at i2 i3
    obtain ⟨_, c2, c3⟩ := end_fill_cols_spec pbl_color fillColor stride fbStride w hfb
      (rb + m) cb (G (rb + m)) { prev with inside := false } rfl (ce + 1 - cb)
      (fun j hj => by
        have : cb + j ≤ ce := by omega
        have : ((cb + j : Nat) : Int) ≤ (ce : Int) := by exact_mod_cast this
        omega)
      (fun j hj => by
        have hle : cb + j ≤ ce := by omega
        have hle' : ((cb + j : Nat) : Int) ≤ (ce : Int) := by exact_mod_cast hle
        show flag_at stride prev.data _ _ = _
        rw [i2 _ _ (by omega) (by omega), hG m (Nat.lt_succ_self m) (cb + j) (by omega) hle]
        have : ¬((rb : Int) ≤ ((rb + m : Nat) : Int) ∧ ((rb + m : Nat) : Int) < (rb : Int) + m ∧
            (cb : Int) ≤ ((cb + j : Nat) : Int) ∧ ((cb + j : Nat) : Int) ≤ (ce : Int)) := by
          rintro ⟨_, h, _⟩
          push_cast at h
          omega
        rw [decide_eq_false this]
        simp)
      (fun j hj hp => by
        have hle : cb + j ≤ ce := by omega
        have := hsafe m (Nat.lt_succ_self m) (cb + j) (by omega) hle
        rw [Nat.add_sub_cancel_left] at this
        exact this hp)
    unfold end_fill_row_bw
    refine ⟨?_, ?_⟩
    · intro x y hx hxs
      rw [c2 x y hx hxs]
      show (flag_at stride prev.data x y && _) = _
      rw [i2 x y hx hxs, Bool.and_assoc]
      congr 1
      by_cases h1 : (rb : Int) ≤ y ∧ y < (rb : Int) + m ∧ (cb : Int) ≤ x ∧ x ≤ (ce : Int)
      · have h2 : ¬(y = ((rb + m : Nat) : Int) ∧ (cb : Int) ≤ x ∧
            x < (cb : Int) + ((ce + 1 - cb : Nat) : Int)) := by
          rintro ⟨h, _⟩; push_cast at h; omega
        have h3 : (rb : Int) ≤ y ∧ y < (rb : Int) + ((m + 1 : Nat) : Int) ∧ (cb : Int) ≤ x ∧
            x ≤ (ce : Int) := ⟨h1.1, by push_cast; omega, h1.2.2⟩
        rw [decide_eq_true h1, decide_eq_false h2, decide_eq_true h3]
        rfl
      · by_cases h2 : y = ((rb + m : Nat) : Int) ∧ (cb : Int) ≤ x ∧
            x < (cb : Int) + ((ce + 1 - cb : Nat) : Int)
        · have h3 : (rb : Int) ≤ y ∧ y < (rb : Int) + ((m + 1 : Nat) : Int) ∧ (cb : Int) ≤ x ∧
              x ≤ (ce : Int) := by
            obtain ⟨hy', hx1, hx2⟩ := h2
            push_cast at hy' ⊢
            refine ⟨by omega, by omega, hx1, ?_⟩
            omega
          rw [decide_eq_false h1, decide_eq_true h2, decide_eq_true h3]
          rfl
        · have h3 : ¬((rb : Int) ≤ y ∧ y < (rb : Int) + ((m + 1 : Nat) : Int) ∧
              (cb : Int) ≤ x ∧ x ≤ (ce : Int)) := by
            rintro ⟨a1, a2, a3, a4⟩
            push_cast at a2
            by_cases hy : y = ((rb + m : Nat) : Int)
            · apply h2
              refine ⟨hy, a3, ?_⟩
              omega
            · push_cast at hy
              exact h1 ⟨a1, by omega, a3, a4⟩
          rw [decide_eq_false h1, decide_eq_false h2, decide_eq_false h3]
          rfl
    · intro c0 r0 hc0
      rw [c3 c0 r0 hc0]
      show (if _ then _ else surface_pixel pbl_color prev.fbData fbStride c0 r0) = _
      rw [i3 c0 r0 hc0]
      by_cases hnew : r0 = rb + m ∧ cb ≤ c0 ∧ c0 < cb + (ce + 1 - cb) ∧
          prefix_xor (G (rb + m)) cb (c0 - cb + 1) = true
      · rw [if_pos hnew, if_pos]
        obtain ⟨h1, h2, h3, h4⟩ := hnew
        refine ⟨by omega, by omega, h2, by omega, ?_⟩
        rw [h1]
        exact h4
      · rw [if_neg hnew]
        by_cases hold : rb ≤ r0 ∧ r0 < rb + m ∧ cb ≤ c0 ∧ c0 ≤ ce ∧
            prefix_xor (G r0) cb (c0 - cb + 1) = true
        · rw [if_pos hold, if_pos ⟨hold.1, by omega, hold.2.2⟩]
        · rw [if_neg hold, if_neg]
          rintro ⟨a1, a2, a3, a4, a5⟩
          by_cases hr : r0 = rb + m
          · apply hnew
            refine ⟨hr, a3, by omega, ?_⟩
            rw [← hr]
            exact a5
          · exact hold ⟨a1, by omega, a3, a4, a5⟩

/-! ## Theorems: counting edge crossings -/

theorem countP_split (p q r : Nat → Bool) :
    ∀ l : List Nat, (∀ k ∈ l, p k = (q k || r k)) → (∀ k ∈ l, ¬(q k = true ∧ r k = true)) →
      l.countP p = l.countP q + l.countP r := by
  intro l
  induction l with
  | nil => intro _ _; rfl
  | cons a l ih =>
    intro h1 h2
    rw [List.countP_cons, List.countP_cons, List.countP_cons,
      ih (fun k hk => h1 k (List.mem_cons_of_mem _ hk))
        (fun k hk => h2 k (List.mem_cons_of_mem _ hk))]
    have e1 := h1 a (List.mem_cons_self _ _)
    have e2 := h2 a (List.mem_cons_self _ _)
    cases hq : q a <;> cases hr : r a <;> simp_all <;> omega

/-- The exclusive or, over the columns `cb .. cb + m - 1`, of the parities of
the edges that hit each column is the parity of the edges that hit the range. -/
theorem prefix_xor_count (P : Nat → Bool) (f : Nat → Int) (ks : List Nat) (cb : Nat) :
    ∀ m : Nat,
      prefix_xor (fun x => Nat.bodd (ks.countP fun k => P k && decide (f k = (x : Int)))) cb m =
        Nat.bodd (ks.countP fun k =>
          P k && decide ((cb : Int) ≤ f k ∧ f k < (cb : Int) + (m : Int))) := by
  intro m
  induction m with
  | zero =>
    simp only [prefix_xor]
    have : (ks.countP fun k =>
        P k && decide ((cb : Int) ≤ f k ∧ f k < (cb : Int) + ((0 : Nat) : Int))) = 0 := by
      rw [List.countP_eq_zero]
      intro k _
      simp only [Bool.and_eq_true, decide_eq_true_eq, not_and]
      intro _ h1
      simp
      omega
    rw [this]
    rfl
  | succ m ih =>
    simp only [prefix_xor]
    rw [ih, ← Nat.bodd_add]
    congr 1
    symm
    apply countP_split
    · intro k _
      by_cases hp : P k = true
      · simp only [hp, Bool.true_and]
        by_cases h1 : (cb : Int) ≤ f k ∧ f k < (cb : Int) + (m : Int)
        · have h3 : (cb : Int) ≤ f k ∧ f k < (cb : Int) + ((m + 1 : Nat) : Int) :=
            ⟨h1.1, by push_cast; omega⟩
          rw [decide_eq_true h1, decide_eq_true h3]
          rfl
        · by_cases h2 : f k = ((cb + m : Nat) : Int)
          · have h3 : (cb : Int) ≤ f k ∧ f k < (cb : Int) + ((m + 1 : Nat) : Int) := by
              push_cast at h2 ⊢
              omega
            rw [decide_eq_false h1, decide_eq_true h2, decide_eq_true h3]
            rfl
          · have h3 : ¬((cb : Int) ≤ f k ∧ f k < (cb : Int) + ((m + 1 : Nat) : Int)) := by
              rintro ⟨a1, a2⟩
              push_cast at a2 h2
              exact h1 ⟨a1, by omega⟩
            rw [decide_eq_false h1, decide_eq_false h2, decide_eq_false h3]
            rfl
      · have hp' : P k = false := by simpa using hp
        simp [hp']
    · intro k _
      simp only [Bool.and_eq_true, decide_eq_true_eq]
      rintro ⟨⟨_, _, h1⟩, ⟨_, h2⟩⟩
      push_cast at h2
      omega

theorem spans_row_eq_xor (a b : FPoint) (r : Int) :
    spans_row a b r = (decide (ceil_div a.y 16 ≤ r) ^^ decide (ceil_div b.y 16 ≤ r)) := by
  unfold spans_row edge_top edge_bottom
  by_cases h : a.y > b.y
  · simp only [if_pos h]
    have hm := ceil_div_mono b.y a.y 16 (by norm_num) (le_of_lt h)
    by_cases h1 : ceil_div a.y 16 ≤ r <;> by_cases h2 : ceil_div b.y 16 ≤ r
    · rw [decide_eq_true h1, decide_eq_true h2, decide_eq_false (by omega)]; rfl
    · omega
    · rw [decide_eq_false h1, decide_eq_true h2, decide_eq_true (by omega)]; rfl
    · rw [decide_eq_false h1, decide_eq_false h2, decide_eq_false (by omega)]; rfl
  · simp only [if_neg h]
    have hm := ceil_div_mono a.y b.y 16 (by norm_num) (by omega)
    by_cases h1 : ceil_div a.y 16 ≤ r <;> by_cases h2 : ceil_div b.y 16 ≤ r
    · rw [decide_eq_true h1, decide_eq_true h2, decide_eq_false (by omega)]; rfl
    · rw [decide_eq_true h1, decide_eq_false h2, decide_eq_true (by omega)]; rfl
    · omega
    · rw [decide_eq_false h1, decide_eq_false h2, decide_eq_false (by omega)]; rfl

theorem bodd_count_changes (g : Nat → Bool) :
    ∀ n : Nat, Nat.bodd ((List.range n).countP fun k => (g k ^^ g (k + 1))) = (g 0 ^^ g n) := by
  intro n
  induction n with
  | zero => simp
  | succ n ih =>
    rw [List.range_succ, List.countP_append, Nat.bodd_add, ih]
    simp only [List.countP_cons, List.countP_nil, zero_add]
    cases g 0 <;> cases g n <;> cases g (n + 1) <;> rfl

/-- Closed-polygon parity: the number of edges of the closed polygon
`Q_0 .. Q_(n-1)` that span a given row is even. -/
theorem bodd_spanning_edges (n : Nat) (Q : List FPoint) (r : Int) :
    Nat.bodd ((List.range n).countP fun k =>
      spans_row (Q.getD k FPointZero) (Q.getD ((k + 1) % n) FPointZero) r) = false := by
  have hcongr : ((List.range n).countP fun k =>
      spans_row (Q.getD k FPointZero) (Q.getD ((k + 1) % n) FPointZero) r) =
      (List.range n).countP fun k =>
        ((fun j => decide (ceil_div (Q.getD (j % n) FPointZero).y 16 ≤ r)) k ^^
          (fun j => decide (ceil_div (Q.getD (j % n) FPointZero).y 16 ≤ r)) (k + 1)) := by
    apply List.countP_congr
    intro k hk
    rw [List.mem_range] at hk
    rw [spans_row_eq_xor]
    simp only [Nat.mod_eq_of_lt hk]
  rw [hcongr, bodd_count_changes]
  simp

/-! ## Theorems: the even-odd fill -/

theorem scan_bounds (w h : Int) (fctx : FContext)
    (hw : 0 ≤ w) (hw16 : w < 32767) (hh : 0 ≤ h) (hh16 : h < 32767)
    (hs : BoxSane w h fctx) :
    (toUInt16 (FIXED_TO_INT fctx.min.x) : Int) = FIXED_TO_INT fctx.min.x ∧
    (toUInt16 (FIXED_TO_INT fctx.min.y) : Int) = FIXED_TO_INT fctx.min.y ∧
    (toUInt16 (FIXED_TO_INT fctx.max.x + 1) : Int) = FIXED_TO_INT fctx.max.x + 1 ∧
    (toUInt16 (FIXED_TO_INT fctx.max.y + 1) : Int) = FIXED_TO_INT fctx.max.y + 1 ∧
    FIXED_TO_INT fctx.max.x ≤ w ∧ FIXED_TO_INT fctx.max.y ≤ h ∧
    0 ≤ FIXED_TO_INT fctx.min.x ∧ 0 ≤ FIXED_TO_INT fctx.min.y := by
  obtain ⟨s1, s2, s3, s4, s5, s6, s7, s8⟩ := hs
  have f1 : FIXED_TO_INT fctx.min.x = if 0 ≤ fctx.min.x then fctx.min.x / 16
      else -((-fctx.min.x) / 16) := tdiv_16 _
  have f2 : FIXED_TO_INT fctx.min.y = if 0 ≤ fctx.min.y then fctx.min.y / 16
      else -((-fctx.min.y) / 16) := tdiv_16 _
  have f3 : FIXED_TO_INT fctx.max.x = if 0 ≤ fctx.max.x then fctx.max.x / 16
      else -((-fctx.max.x) / 16) := tdiv_16 _
  have f4 : FIXED_TO_INT fctx.max.y = if 0 ≤ fctx.max.y then fctx.max.y / 16
      else -((-fctx.max.y) / 16) := tdiv_16 _
  rw [if_pos s5] at f3
  rw [if_pos s7] at f4
  have g1 : 0 ≤ FIXED_TO_INT fctx.min.x ∧ FIXED_TO_INT fctx.min.x ≤ w + 1 := by
    rw [f1]; split <;> omega
  have g2 : 0 ≤ FIXED_TO_INT fctx.min.y ∧ FIXED_TO_INT fctx.min.y ≤ h + 1 := by
    rw [f2]; split <;> omega
  have g3 : 0 ≤ FIXED_TO_INT fctx.max.x ∧ FIXED_TO_INT fctx.max.x ≤ w := by
    rw [f3]; omega
  have g4 : 0 ≤ FIXED_TO_INT fctx.max.y ∧ FIXED_TO_INT fctx.max.y ≤ h := by
    rw [f4]; omega
  exact ⟨toUInt16_eq _ (by omega) (by omega), toUInt16_eq _ (by omega) (by omega),
    toUInt16_eq _ (by omega) (by omega), toUInt16_eq _ (by omega) (by omega),
    g3.2, g4.2, g1.1, g2.1⟩

theorem flag_at_zero (stride h : Int) (data : Int → Nat) (x y : Int)
    (hzero : ∀ a, 0 ≤ a → a < stride * (h + 1) → data a = 0)
    (hx : 0 ≤ x) (hxs : x < 8 * stride) (hy : 0 ≤ y) (hyh : y ≤ h) :
    flag_at stride data x y = false := by
  unfold flag_at flag_addr
  rw [Int.tdiv_eq_ediv hx (by norm_num)]
  have d1 : 0 ≤ x / 8 := by omega
  have d2 : x / 8 < stride := by omega
  have e1 : 0 ≤ y * stride := mul_nonneg hy (by omega)
  have e2 : 0 ≤ (h - y) * stride := mul_nonneg (by omega) (by omega)
  rw [hzero _ (by omega) (by nlinarith)]
  simp

theorem spanned_in_scan_range (fctx : FContext) (a b : FPoint) (r : Int)
    (ha : BoxContains fctx a) (hb : BoxContains fctx b) (hs : spans_row a b r = true) :
    InScanRange fctx (crossing_column (edge_top a b) (edge_bottom a b) r, r) := by
  have hs' := (spans_row_iff a b r).1 hs
  have htop : BoxContains fctx (edge_top a b) := by
    unfold edge_top; split <;> assumption
  have hbot : BoxContains fctx (edge_bottom a b) := by
    unfold edge_bottom; split <;> assumption
  obtain ⟨t1, t2, t3, t4⟩ := htop
  obtain ⟨b1, b2, b3, b4⟩ := hbot
  have hcb := crossing_column_bounds (edge_top a b) (edge_bottom a b) r fctx.min.x fctx.max.x
    hs'.1 hs'.2 t1 b1 t2 b2
  have m1 := fixed_to_int_le_ceil fctx.min.x
  have m2 := ceil_le_fixed_to_int_succ fctx.max.x
  have m3 := fixed_to_int_le_ceil fctx.min.y
  have m4 := ceil_le_fixed_to_int_succ fctx.max.y
  have m5 := ceil_div_mono _ _ 16 (by norm_num) t3
  have m6 := ceil_div_mono _ _ 16 (by norm_num) b4
  refine ⟨?_, ?_, ?_, ?_⟩ <;> simp only <;> omega

theorem spanned_crossing_le (a b : FPoint) (r w : Int)
    (ha : -16 < a.x ∧ a.x ≤ 16 * w) (hb : -16 < b.x ∧ b.x ≤ 16 * w)
    (hs : spans_row a b r = true) :
    0 ≤ crossing_column (edge_top a b) (edge_bottom a b) r ∧
    crossing_column (edge_top a b) (edge_bottom a b) r ≤ w := by
  have hs' := (spans_row_iff a b r).1 hs
  have htx : -16 < (edge_top a b).x ∧ (edge_top a b).x ≤ 16 * w := by
    unfold edge_top; split <;> assumption
  have hbx : -16 < (edge_bottom a b).x ∧ (edge_bottom a b).x ≤ 16 * w := by
    unfold edge_bottom; split <;> assumption
  have hcb := crossing_column_bounds (edge_top a b) (edge_bottom a b) r (-15) (16 * w)
    hs'.1 hs'.2 (by omega) (by omega) htx.2 hbx.2
  rw [ceil_div_neg15, ceil_div_16_mul] at hcb
  exact hcb

theorem bodd_iff_mod_two (n : Nat) : Nat.bodd n = true ↔ n % 2 = 1 := by
  rw [Nat.mod_two_of_bodd]
  cases Nat.bodd n <;> simp

/-- One successful `fpath_draw_filled_bw` seen on the grid: the flag of
`(x, y)` is flipped once for every edge of the transformed polygon that spans
row `y` and crosses it in column `x`. -/
theorem draw_filled_bw_grid (cos_lookup sin_lookup : Int → Int) (w h : Int)
    (fctx : FContext) (fpath : FPath)
    (hws : w < 8 * fctx.flagBuffer.row_size_bytes)
    (hs : BoxSane w h fctx)
    (hpts : ∀ q ∈ transformed_points_bw cos_lookup sin_lookup fpath, PointInSurface w h q) :
    ∃ fctx1, fpath_draw_filled_bw cos_lookup sin_lookup true fctx fpath = some fctx1 ∧
      SameSurface fctx fctx1 ∧ BoxSane w h fctx1 ∧
      (∀ q ∈ transformed_points_bw cos_lookup sin_lookup fpath, BoxContains fctx1 q) ∧
      ∀ x y : Int, 0 ≤ x → x < 8 * fctx.flagBuffer.row_size_bytes →
        flag_at fctx.flagBuffer.row_size_bytes fctx1.flagBuffer.data x y =
          (flag_at fctx.flagBuffer.row_size_bytes fctx.flagBuffer.data x y ^^
            Nat.bodd ((List.range fpath.num_points).countP
              (edge_hits fpath.num_points
                (transformed_points_bw cos_lookup sin_lookup fpath) y x))) := by
  unfold fpath_draw_filled_bw
  simp only [if_true]
  obtain ⟨g1, g2, g3, g4, g5⟩ := foldl_grow_bounds_spec w h
    (transformed_points_bw cos_lookup sin_lookup fpath) fctx
  have hlen := transformed_points_bw_length cos_lookup sin_lookup fpath
  have hstr : ((transformed_points_bw cos_lookup sin_lookup fpath).foldl grow_bounds
      fctx).flagBuffer.row_size_bytes = fctx.flagBuffer.row_size_bytes := by rw [g4]
  obtain ⟨c1, hc1, hs1, hmin1, hmax1, hf1⟩ := plot_edges_bw_flag_at fpath.num_points
    (transformed_points_bw cos_lookup sin_lookup fpath) w (List.range fpath.num_points)
    ((transformed_points_bw cos_lookup sin_lookup fpath).foldl grow_bounds fctx)
    (fun k hk => List.mem_range.1 hk) (by rw [hstr]; exact hws)
    (fun k hk => by
      have := hpts _ (getD_mem_of_lt _ k (by rw [hlen]; exact hk))
      exact ⟨this.1, this.2.1⟩)
  refine ⟨c1, hc1, same_surface_trans g3 hs1, ?_, ?_, ?_⟩
  · have := g5 hs hpts
    unfold BoxSane at this ⊢
    rw [hmin1, hmax1]
    exact this
  · intro q hq
    have := g2 q hq
    unfold BoxContains at this ⊢
    rw [hmin1, hmax1]
    exact this
  · intro x y hx hxs
    rw [hstr, g4] at hf1
    exact hf1 x y hx hxs

/-- The pixels that `fpath_end_fill_bw` writes, for flags that are the
parities of the edge hits of a closed polygon within the bounds. -/
theorem end_fill_bw_pixels (pbl_color : Bool) (w h : Int) (n : Nat) (Q : List FPoint)
    (fctx1 : FContext) (hw : 0 ≤ w) (hw16 : w < 32767) (hh : 0 ≤ h) (hh16 : h < 32767)
    (hstride : FIXED_TO_INT fctx1.max.x + 1 < 8 * fctx1.flagBuffer.row_size_bytes)
    (hfb : if pbl_color = true then w ≤ fctx1.frameBuffer.row_size_bytes
      else w ≤ 8 * fctx1.frameBuffer.row_size_bytes)
    (hsane : BoxSane w h fctx1)
    (hQ : ∀ k, k < n → PointInSurface w h (Q.getD k FPointZero) ∧
      BoxContains fctx1 (Q.getD k FPointZero))
    (hflags : ∀ x y : Int, 0 ≤ x → x < 8 * fctx1.flagBuffer.row_size_bytes → 0 ≤ y → y ≤ h →
      flag_at fctx1.flagBuffer.row_size_bytes fctx1.flagBuffer.data x y =
        Nat.bodd ((List.range n).countP (edge_hits n Q y x)))
    (c r : Nat) (hc : (c : Int) < w) :
    surface_pixel pbl_color (fpath_end_fill_bw pbl_color fctx1).frameBuffer.data
        fctx1.frameBuffer.row_size_bytes c r =
      if edge_crossings n Q r c % 2 = 1 then fill_pixel pbl_color fctx1.fillColor
      else surface_pixel pbl_color fctx1.frameBuffer.data
        fctx1.frameBuffer.row_size_bytes c r := by
  obtain ⟨u1, u2, u3, u4, b1, b2, b3, b4⟩ := scan_bounds w h fctx1 hw hw16 hh hh16 hsane
  -- every spanning edge crosses inside the scan range and inside the surface
  have hspan : ∀ k, k < n → ∀ y : Int,
      spans_row (Q.getD k FPointZero) (Q.getD ((k + 1) % n) FPointZero) y = true →
      InScanRange fctx1 (crossing_column
        (edge_top (Q.getD k FPointZero) (Q.getD ((k + 1) % n) FPointZero))
        (edge_bottom (Q.getD k FPointZero) (Q.getD ((k + 1) % n) FPointZero)) y, y) ∧
      crossing_column
        (edge_top (Q.getD k FPointZero) (Q.getD ((k + 1) % n) FPointZero))
        (edge_bottom (Q.getD k FPointZero) (Q.getD ((k + 1) % n) FPointZero)) y ≤ w := by
    intro k hk y hsp
    have hk1 : (k + 1) % n < n := Nat.mod_lt _ (by omega)
    have ha := hQ k hk
    have hb := hQ _ hk1
    exact ⟨spanned_in_scan_range fctx1 _ _ y ha.2 hb.2 hsp,
      (spanned_crossing_le _ _ y w ⟨ha.1.1, ha.1.2.1⟩ ⟨hb.1.1, hb.1.2.1⟩ hsp).2⟩
  -- the exclusive or of the flags of a row up to column `c0` counts the crossings `≤ c0`
  have hpre : ∀ (y c0 : Nat), toUInt16 (FIXED_TO_INT fctx1.min.x) ≤ c0 →
      prefix_xor (fun x => Nat.bodd ((List.range n).countP (edge_hits n Q (y : Int) (x : Int))))
        (toUInt16 (FIXED_TO_INT fctx1.min.x))
        (c0 - toUInt16 (FIXED_TO_INT fctx1.min.x) + 1) =
      Nat.bodd (edge_crossings n Q y c0) := by
    intro y c0 hc0
    have := prefix_xor_count
      (fun k => spans_row (Q.getD k FPointZero) (Q.getD ((k + 1) % n) FPointZero) y)
      (fun k => crossing_column
        (edge_top (Q.getD k FPointZero) (Q.getD ((k + 1) % n) FPointZero))
        (edge_bottom (Q.getD k FPointZero) (Q.getD ((k + 1) % n) FPointZero)) y)
      (List.range n) (toUInt16 (FIXED_TO_INT fctx1.min.x))
      (c0 - toUInt16 (FIXED_TO_INT fctx1.min.x) + 1)
    unfold edge_hits
    rw [this]
    congr 1
    unfold edge_crossings
    apply List.countP_congr
    intro k hk
    rw [List.mem_range] at hk
    simp only [Bool.and_eq_true, decide_eq_true_eq]
    constructor
    · rintro ⟨hsp, _, h2⟩
      refine ⟨hsp, ?_⟩
      push_cast at h2
      omega
    · rintro ⟨hsp, h2⟩
      refine ⟨hsp, ?_, ?_⟩
      · have := (hspan k hk y hsp).1.1
        simp only at this
        omega
      · push_cast
        omega
  have hrows := end_fill_rows_spec pbl_color fctx1.fillColor fctx1.flagBuffer.row_size_bytes
    fctx1.frameBuffer.row_size_bytes w hfb
    (toUInt16 (FIXED_TO_INT fctx1.min.y)) (toUInt16 (FIXED_TO_INT fctx1.min.x))
    (toUInt16 (FIXED_TO_INT fctx1.max.x + 1))
    (fun y x => Nat.bodd ((List.range n).countP (edge_hits n Q (y : Int) (x : Int))))
    { data := fctx1.flagBuffer.data, fbData := fctx1.frameBuffer.data, inside := false }
    (by omega)
    (toUInt16 (FIXED_TO_INT fctx1.max.y + 1) - toUInt16 (FIXED_TO_INT fctx1.min.y))
    (fun i hi c0 hc1 hc2 => by
      apply hflags
      · omega
      · omega
      · omega
      · have : ((toUInt16 (FIXED_TO_INT fctx1.min.y) + i : Nat) : Int) <
            (toUInt16 (FIXED_TO_INT fctx1.max.y + 1) : Int) := by
          exact_mod_cast (by omega : toUInt16 (FIXED_TO_INT fctx1.min.y) + i <
            toUInt16 (FIXED_TO_INT fctx1.max.y + 1))
        omega)
    (fun i hi c0 hc1 hc2 hp => by
      rw [hpre _ c0 hc1] at hp
      by_contra hcw
      have hcw' : w ≤ (c0 : Int) := by omega
      have hall : edge_crossings n Q
          ((toUInt16 (FIXED_TO_INT fctx1.min.y) + i : Nat) : Int) (c0 : Int) =
          (List.range n).countP fun k =>
            spans_row (Q.getD k FPointZero) (Q.getD ((k + 1) % n) FPointZero)
              ((toUInt16 (FIXED_TO_INT fctx1.min.y) + i : Nat) : Int) := by
        unfold edge_crossings
        apply List.countP_congr
        intro k hk
        rw [List.mem_range] at hk
        simp only [Bool.and_eq_true, decide_eq_true_eq]
        constructor
        · exact fun h => h.1
        · intro hsp
          exact ⟨hsp, le_trans (hspan k hk _ hsp).2 hcw'⟩
      rw [hall, bodd_spanning_edges] at hp
      exact absurd hp (by simp))
  have hpix := hrows.2 c r hc
  have hfbd : (fpath_end_fill_bw pbl_color fctx1).frameBuffer.data =
      ((List.range' (toUInt16 (FIXED_TO_INT fctx1.min.y))
        (toUInt16 (FIXED_TO_INT fctx1.max.y + 1) - toUInt16 (FIXED_TO_INT fctx1.min.y))).foldl
        (end_fill_row_bw pbl_color (fill_byte_bw pbl_color fctx1.fillColor)
          fctx1.flagBuffer.row_size_bytes fctx1.frameBuffer.row_size_bytes
          (toUInt16 (FIXED_TO_INT fctx1.min.x)) (toUInt16 (FIXED_TO_INT fctx1.max.x + 1)))
        { data := fctx1.flagBuffer.data, fbData := fctx1.frameBuffer.data,
          inside := false }).fbData := rfl
  rw [hfbd, hpix]
  by_cases hodd : edge_crossings n Q r c % 2 = 1
  · rw [if_pos hodd, if_pos]
    have hb := (bodd_iff_mod_two _).2 hodd
    -- an edge that crosses at or before `c`, and one that crosses after `c`
    have hpos : 0 < edge_crossings n Q r c := by omega
    unfold edge_crossings at hpos
    rw [List.countP_pos_iff] at hpos
    obtain ⟨k, hk, hkp⟩ := hpos
    rw [List.mem_range] at hk
    simp only [Bool.and_eq_true, decide_eq_true_eq] at hkp
    have hr1 := (hspan k hk r hkp.1).1
    obtain ⟨r1, r2, r3, r4⟩ := hr1
    simp only at r1 r2 r3 r4
    have hex : ∃ k', k' < n ∧
        spans_row (Q.getD k' FPointZero) (Q.getD ((k' + 1) % n) FPointZero) r = true ∧
        (c : Int) < crossing_column
          (edge_top (Q.getD k' FPointZero) (Q.getD ((k' + 1) % n) FPointZero))
          (edge_bottom (Q.getD k' FPointZero) (Q.getD ((k' + 1) % n) FPointZero)) r := by
      by_contra hno
      have hall : edge_crossings n Q (r : Int) (c : Int) =
          (List.range n).countP fun k =>
            spans_row (Q.getD k FPointZero) (Q.getD ((k + 1) % n) FPointZero) (r : Int) := by
        unfold edge_crossings
        apply List.countP_congr
        intro k' hk'
        rw [List.mem_range] at hk'
        simp only [Bool.and_eq_true, decide_eq_true_eq]
        constructor
        · exact fun h => h.1
        · intro hsp
          refine ⟨hsp, ?_⟩
          by_contra hgt
          exact hno ⟨k', hk', hsp, by omega⟩
      rw [hall, bodd_spanning_edges] at hb
      exact absurd hb (by simp)
    obtain ⟨k', hk', hsp', hgt'⟩ := hex
    obtain ⟨q1, q2, q3, q4⟩ := (hspan k' hk' r hsp').1
    simp only at q1 q2 q3 q4
    have hcb : toUInt16 (FIXED_TO_INT fctx1.min.x) ≤ c := by omega
    refine ⟨by omega, by omega, hcb, by omega, ?_⟩
    rw [hpre r c hcb]
    exact hb
  · rw [if_neg hodd, if_neg]
    rintro ⟨_, _, hcb, _, hp⟩
    rw [hpre r c hcb] at hp
    exact hodd ((bodd_iff_mod_two _).1 hp)

/-- Even-odd fill rule of the black-and-white strategy where every flag row
has a spare bit: on a `w` by `h` surface with all-zero flag
bytes, whose flag rows hold at least `w + 2` bits and whose frame-buffer rows
hold the `w` pixels, `fpath_begin_fill_bw`, one `fpath_draw_filled_bw` of a
path whose transformed points `Q_0 .. Q_(n-1)` satisfy `-16 < x ≤ 16 w` and
`-16 < y ≤ 16 h`, and `fpath_end_fill_bw` return, and every surface pixel
`(c, r)` holds the fill colour if the number of edges `(Q_k, Q_((k+1) mod n))`
that span row `r` and cross it, rounded up, in a column `≤ c` is odd, and
its value from before the fill otherwise. -/
theorem bw_fill_even_odd (cos_lookup sin_lookup : Int → Int) (pbl_color : Bool)
    (w h : Int) (fctx : FContext) (fpath : FPath)
    (hw : 0 ≤ w) (hw16 : w < 32767) (hh : 0 ≤ h) (hh16 : h < 32767)
    (hbounds : fctx.flagBuffer.bounds = ⟨0, 0, w + 1, h + 1⟩)
    (hstride : w + 2 ≤ 8 * fctx.flagBuffer.row_size_bytes)
    (hfb : if pbl_color = true then w ≤ fctx.frameBuffer.row_size_bytes
      else w ≤ 8 * fctx.frameBuffer.row_size_bytes)
    (hzero : ∀ a, 0 ≤ a → a < fctx.flagBuffer.row_size_bytes * (h + 1) →
      fctx.flagBuffer.data a = 0)
    (hpts : ∀ q ∈ transformed_points_bw cos_lookup sin_lookup fpath,
      -16 < q.x ∧ q.x ≤ 16 * w ∧ -16 < q.y ∧ q.y ≤ 16 * h) :
    ∃ fctx1, fpath_draw_filled_bw cos_lookup sin_lookup true (fpath_begin_fill_bw fctx) fpath
        = some fctx1 ∧
      ∀ c r : Nat, (c : Int) < w → (r : Int) < h →
        surface_pixel pbl_color (fpath_end_fill_bw pbl_color fctx1).frameBuffer.data
            fctx.frameBuffer.row_size_bytes c r =
          if edge_crossings fpath.num_points
              (transformed_points_bw cos_lookup sin_lookup fpath) r c % 2 = 1
          then fill_pixel pbl_color fctx.fillColor
          else surface_pixel pbl_color fctx.frameBuffer.data
            fctx.frameBuffer.row_size_bytes c r := by
  have hsane0 := begin_fill_bw_sane w h fctx hw hh hbounds
  obtain ⟨c1, hc1, hs1, hsane1, hbox1, hfl1⟩ :=
    draw_filled_bw_grid cos_lookup sin_lookup w h (fpath_begin_fill_bw fctx) fpath
      (by show w < 8 * fctx.flagBuffer.row_size_bytes; omega) hsane0 hpts
  refine ⟨c1, hc1, ?_⟩
  intro c r hc _
  have hfbeq : c1.frameBuffer = fctx.frameBuffer := hs1.1
  have hstr : c1.flagBuffer.row_size_bytes = fctx.flagBuffer.row_size_bytes := hs1.2.1
  have hfill : c1.fillColor = fctx.fillColor := hs1.2.2.2
  have hlen := transformed_points_bw_length cos_lookup sin_lookup fpath
  have key := end_fill_bw_pixels pbl_color w h fpath.num_points
    (transformed_points_bw cos_lookup sin_lookup fpath) c1 hw hw16 hh hh16
    (by
      have := (scan_bounds w h c1 hw hw16 hh hh16 hsane1).2.2.2.2.1
      rw [hstr]
      omega)
    (by rw [hfbeq]; exact hfb) hsane1
    (fun k hk => by
      have hmem := getD_mem_of_lt (transformed_points_bw cos_lookup sin_lookup fpath) k
        (by rw [hlen]; exact hk)
      exact ⟨hpts _ hmem, hbox1 _ hmem⟩)
    (fun x y hx hxs hy hyh => by
      rw [hstr] at hxs ⊢
      have hf := hfl1 x y hx hxs
      have hz : flag_at (fpath_begin_fill_bw fctx).flagBuffer.row_size_bytes
          (fpath_begin_fill_bw fctx).flagBuffer.data x y = false :=
        flag_at_zero _ h _ x y hzero hx hxs hy hyh
      change flag_at fctx.flagBuffer.row_size_bytes c1.flagBuffer.data x y = _ at hf
      rw [hf, hz, Bool.false_xor])
    c r hc
  rw [hfbeq, hfill] at key
  exact key

theorem bw_fill_even_odd_witness :
    ∃ fctx1, fpath_draw_filled_bw cos_zero sin_zero true
        (fpath_begin_fill_bw (blank_context 4 4 4 1 1)) square_path = some fctx1 ∧
      ∀ c r : Nat, (c : Int) < 4 → (r : Int) < 4 →
        surface_pixel true (fpath_end_fill_bw true fctx1).frameBuffer.data
            (blank_context 4 4 4 1 1).frameBuffer.row_size_bytes c r =
          if edge_crossings square_path.num_points
              (transformed_points_bw cos_zero sin_zero square_path) r c % 2 = 1
          then fill_pixel true (blank_context 4 4 4 1 1).fillColor
          else surface_pixel true (blank_context 4 4 4 1 1).frameBuffer.data
            (blank_context 4 4 4 1 1).frameBuffer.row_size_bytes c r :=
  bw_fill_even_odd cos_zero sin_zero true 4 4 (blank_context 4 4 4 1 1) square_path
    (by decide) (by decide) (by decide) (by decide) rfl (by decide) (by decide)
    (fun _ _ _ => rfl)
    (by
      intro q hq
      rw [square_path_points] at hq
      simp only [List.mem_cons, List.mem_singleton, List.not_mem_nil, or_false] at hq
      rcases hq with h | h | h | h <;> subst h <;> decide)

/-- C11, the code at the failing input. The builder of capacity 8 holding
(0,0), (16,0) is turned by `fpath_builder_create_path` into a path of one
point, not into `NULL` nor into a path of two points: the loop compares
`points[0]` with the zero slot `points[num_points]`, which equals the first
point (0,0), and the count is not checked again after the loop. -/
theorem create_path_returns_single_point :
    (builder_of_points 8 [⟨0, 0⟩, ⟨16, 0⟩]).bind (fpath_builder_create_path true) =
      some { num_points := 1, points := [⟨0, 0⟩], rotation := 0, offset := FPointZero } := by
  decide

/-- C12, the code at the failing input. The builder of capacity 8 holding
(0,0), (16,0), (16,16), whose last point differs from its first, is turned by
`fpath_builder_create_path` into a path of two points: the vertex (16,16) is
dropped, because the loop compares `points[0]` with the zero slot
`points[num_points]`, which equals the first point (0,0). -/
theorem create_path_drops_last_vertex :
    (builder_of_points 8 [⟨0, 0⟩, ⟨16, 0⟩, ⟨16, 16⟩]).bind (fpath_builder_create_path true) =
      some { num_points := 2, points := [⟨0, 0⟩, ⟨16, 0⟩], rotation := 0,
             offset := FPointZero } := by
  decide

/-- C13. For every numerator above `-2^31` and every denominator `> 0`,
`floorDivMod` returns a pair `(floor, mod)` with
`floor * denominator + mod = numerator` and `0 ≤ mod < denominator`; `floor`
is the floor of `numerator / denominator`, for negative numerators too. -/
theorem floorDivMod_is_floor_and_mod (numerator denominator : Int)
    (_hn : -2147483648 < numerator) (hd : 0 < denominator) :
    ∃ floor mod : Int, floorDivMod numerator denominator = some (floor, mod) ∧
      floor * denominator + mod = numerator ∧ 0 ≤ mod ∧ mod < denominator ∧
      floor * denominator ≤ numerator ∧ numerator < (floor + 1) * denominator := by
  have e1 := Int.ediv_add_emod numerator denominator
  have e2 := Int.emod_nonneg numerator (ne_of_gt hd)
  have e3 := Int.emod_lt_of_pos numerator hd
  refine ⟨numerator / denominator, numerator % denominator,
    floorDivMod_eq numerator denominator hd, by linear_combination e1, e2, e3, ?_, ?_⟩
  · nlinarith
  · nlinarith

theorem floorDivMod_is_floor_and_mod_witness :
    ∃ floor mod : Int, floorDivMod (-7) 2 = some (floor, mod) ∧
      floor * 2 + mod = -7 ∧ 0 ≤ mod ∧ mod < 2 ∧ floor * 2 ≤ -7 ∧ -7 < (floor + 1) * 2 :=
  floorDivMod_is_floor_and_mod (-7) 2 (by decide) (by decide)

theorem fceil_aa_eq (v : Int) : fceil_aa v = ceil_div v 2 := by
  have hc : ceil_div v 2 = (v + 1) / 2 := by unfold ceil_div; omega
  rw [hc]
  simp only [fceil_aa, FIXED_POINT_SCALE_AA]
  split
  · rw [Int.tdiv_eq_ediv (by omega) (by norm_num)]
    omega
  · rename_i hneg
    have hm := Int.tmod_eq_emod (a := -(v - 1 + 2)) (b := 2) (by omega) (by norm_num)
    rw [Int.tdiv_eq_ediv (by omega) (by norm_num)]
    simp only [hm]
    split <;> omega

/-- C14. `fceil v` is the smallest integer `n` with `16 n ≥ v` and
`fceil_aa v` the smallest integer `n` with `2 n ≥ v`, for negative `v` as
well; both functions are monotone non-decreasing. -/
theorem fceil_is_least_upper (v : Int) :
    (v ≤ 16 * fceil v ∧ ∀ n : Int, v ≤ 16 * n → fceil v ≤ n) ∧
    (v ≤ 2 * fceil_aa v ∧ ∀ n : Int, v ≤ 2 * n → fceil_aa v ≤ n) ∧
    (∀ u : Int, v ≤ u → fceil v ≤ fceil u ∧ fceil_aa v ≤ fceil_aa u) := by
  refine ⟨⟨?_, ?_⟩, ⟨?_, ?_⟩, ?_⟩
  · have := (ceil_div_le_iff v 16 (fceil v) (by norm_num)).1 (by rw [fceil_eq])
    omega
  · intro n hn
    rw [fceil_eq]
    exact (ceil_div_le_iff v 16 n (by norm_num)).2 (by omega)
  · have := (ceil_div_le_iff v 2 (fceil_aa v) (by norm_num)).1 (by rw [fceil_aa_eq])
    omega
  · intro n hn
    rw [fceil_aa_eq]
    exact (ceil_div_le_iff v 2 n (by norm_num)).2 (by omega)
  · intro u hu
    rw [fceil_eq, fceil_eq, fceil_aa_eq, fceil_aa_eq]
    exact ⟨ceil_div_mono v u 16 (by norm_num) hu, ceil_div_mono v u 2 (by norm_num) hu⟩

/-- C15. `fpath_builder_move_to_point` on a builder with `num_points ≠ 0`
returns false and leaves the builder unchanged; on a builder with
`num_points = 0` its flag and resulting builder are those of
`fpath_builder_line_to_point` with the same point. -/
theorem move_to_only_on_empty_builder (b : FPathBuilder) (p : FPoint) :
    (b.num_points ≠ 0 → fpath_builder_move_to_point b p = (false, b)) ∧
    (b.num_points = 0 →
      fpath_builder_move_to_point b p = fpath_builder_line_to_point b p) := by
  constructor
  · intro h
    unfold fpath_builder_move_to_point
    rw [if_pos h]
  · intro h
    unfold fpath_builder_move_to_point
    rw [if_neg (by simpa using h)]

/-! ## Theorems: rotation by 0 and the rectangle fill -/

theorem transform_point_zero (adjust : Int) (offset src : FPoint) :
    transform_point TRIG_MAX_RATIO 0 adjust offset src =
      ⟨src.x + offset.x + adjust, src.y + offset.y + adjust⟩ := by
  unfold transform_point TRIG_MAX_RATIO
  rw [Int.mul_tdiv_cancel _ (by norm_num), Int.mul_tdiv_cancel _ (by norm_num)]
  simp only [mul_zero, Int.zero_tdiv, sub_zero, zero_add]
  congr 1 <;> ring

theorem create_path_rotation (malloc_ok : Bool) (builder : FPathBuilder) (path : FPath)
    (h : fpath_builder_create_path malloc_ok builder = some path) :
    path.rotation = 0 ∧ path.offset = FPointZero := by
  unfold fpath_builder_create_path at h
  split at h
  · exact absurd h (by simp)
  · split at h
    · simp only [Option.some.injEq] at h
      subst h
      exact ⟨rfl, rfl⟩
    · exact absurd h (by simp)

/-- C20. Rotation by 0 is the identity: with `cos_lookup 0 = TRIG_MAX_RATIO`
and `sin_lookup 0 = 0`, for a path with rotation 0 `fpath_draw_filled_bw`
transforms every stored point `(x, y)` to `(x + offset.x - 8, y + offset.y - 8)`
and `fpath_draw_filled_aa` to `(x + offset.x - 1, y + offset.y - 1)`;
`fpath_rotate_to` with angle 0 leaves such a path as it is, so drawing a path
fresh from `fpath_builder_create_path` after `fpath_rotate_to(path, 0)` has
the outcome (flag buffer, bounding box) of drawing it unrotated. -/
theorem rotation_zero_is_identity (cos_lookup sin_lookup : Int → Int)
    (hcos : cos_lookup 0 = TRIG_MAX_RATIO) (hsin : sin_lookup 0 = 0)
    (fpath : FPath) (hrot : fpath.rotation = 0) :
    transformed_points_bw cos_lookup sin_lookup fpath =
      (List.range fpath.num_points).map (fun k =>
        ⟨(fpath.points.getD k FPointZero).x + fpath.offset.x - 8,
         (fpath.points.getD k FPointZero).y + fpath.offset.y - 8⟩) ∧
    transformed_points_aa cos_lookup sin_lookup fpath =
      (List.range fpath.num_points).map (fun k =>
        ⟨(fpath.points.getD k FPointZero).x + fpath.offset.x - 1,
         (fpath.points.getD k FPointZero).y + fpath.offset.y - 1⟩) ∧
    fpath_rotate_to fpath 0 = fpath ∧
    ∀ (malloc_ok : Bool) (builder : FPathBuilder) (path : FPath),
      fpath_builder_create_path malloc_ok builder = some path →
      ∀ (m : Bool) (fctx : FContext),
        fpath_draw_filled_bw cos_lookup sin_lookup m fctx (fpath_rotate_to path 0) =
          fpath_draw_filled_bw cos_lookup sin_lookup m fctx path ∧
        fpath_draw_filled_aa cos_lookup sin_lookup m fctx (fpath_rotate_to path 0) =
          fpath_draw_filled_aa cos_lookup sin_lookup m fctx path := by
  refine ⟨?_, ?_, ?_, ?_⟩
  · unfold transformed_points_bw
    rw [hrot, hcos, hsin]
    apply List.map_congr_left
    intro k _
    rw [transform_point_zero]
    have : Int.tdiv (-FIXED_POINT_SCALE) 2 = -8 := by decide
    rw [this]
    rfl
  · unfold transformed_points_aa
    rw [hrot, hcos, hsin]
    apply List.map_congr_left
    intro k _
    rw [transform_point_zero]
    rfl
  · unfold fpath_rotate_to
    rw [← hrot]
  · intro malloc_ok builder path hpath m fctx
    have h0 := (create_path_rotation malloc_ok builder path hpath).1
    have : fpath_rotate_to path 0 = path := by
      unfold fpath_rotate_to
      rw [← h0]
    rw [this]
    exact ⟨rfl, rfl⟩

theorem rotation_zero_is_identity_witness :
    cos_zero 0 = TRIG_MAX_RATIO ∧ sin_zero 0 = 0 ∧
    (rectangle_path 0 0 32 32 16 16).rotation = 0 ∧
    transformed_points_bw cos_zero sin_zero (rectangle_path 0 0 32 32 16 16) =
      (List.range (rectangle_path 0 0 32 32 16 16).num_points).map (fun k =>
        ⟨((rectangle_path 0 0 32 32 16 16).points.getD k FPointZero).x +
            (rectangle_path 0 0 32 32 16 16).offset.x - 8,
         ((rectangle_path 0 0 32 32 16 16).points.getD k FPointZero).y +
            (rectangle_path 0 0 32 32 16 16).offset.y - 8⟩) ∧
    fpath_rotate_to (rectangle_path 0 0 32 32 16 16) 0 = rectangle_path 0 0 32 32 16 16 :=
  ⟨rfl, rfl, rfl,
    (rotation_zero_is_identity cos_zero sin_zero rfl rfl (rectangle_path 0 0 32 32 16 16) rfl).1,
    (rotation_zero_is_identity cos_zero sin_zero rfl rfl
      (rectangle_path 0 0 32 32 16 16) rfl).2.2.1⟩

theorem rectangle_points (cos_lookup sin_lookup : Int → Int)
    (hcos : cos_lookup 0 = TRIG_MAX_RATIO) (hsin : sin_lookup 0 = 0)
    (x0 y0 x1 y1 ox oy : Int) :
    transformed_points_bw cos_lookup sin_lookup (rectangle_path x0 y0 x1 y1 ox oy) =
      [⟨x0 + ox - 8, y0 + oy - 8⟩, ⟨x1 + ox - 8, y0 + oy - 8⟩,
       ⟨x1 + ox - 8, y1 + oy - 8⟩, ⟨x0 + ox - 8, y1 + oy - 8⟩] := by
  unfold transformed_points_bw rectangle_path
  simp only [hcos, hsin, transform_point_zero]
  rfl

theorem plot_edge_bw_box (fctx fctx1 : FContext) (a b : FPoint)
    (h : fpath_plot_edge_bw fctx a b = some fctx1) :
    fctx1.min = fctx.min ∧ fctx1.max = fctx.max := by
  unfold fpath_plot_edge_bw at h
  split at h
  · exact absurd h (by simp)
  · simp only [Option.some.injEq] at h
    subst h
    exact ⟨rfl, rfl⟩

theorem plot_edges_bw_box (n : Nat) (points : List FPoint) :
    ∀ (ks : List Nat) (fctx fctx1 : FContext), plot_edges_bw n points ks fctx = some fctx1 →
      fctx1.min = fctx.min ∧ fctx1.max = fctx.max := by
  intro ks
  induction ks with
  | nil =>
    intro fctx fctx1 h
    simp only [plot_edges_bw, Option.some.injEq] at h
    subst h
    exact ⟨rfl, rfl⟩
  | cons k ks ih =>
    intro fctx fctx1 h
    simp only [plot_edges_bw] at h
    split at h
    · exact absurd h (by simp)
    · rename_i c1 hc1
      have h1 := plot_edge_bw_box _ _ _ _ hc1
      have h2 := ih c1 fctx1 h
      exact ⟨h2.1.trans h1.1, h2.2.trans h1.2⟩

theorem foldl_grow_bounds_max_x (M : Int) :
    ∀ (qs : List FPoint) (c : FContext), c.max.x ≤ M → (∀ q ∈ qs, q.x ≤ M) →
      (qs.foldl grow_bounds c).max.x ≤ M := by
  intro qs
  induction qs with
  | nil => intro c hc _; exact hc
  | cons q qs ih =>
    intro c hc hq
    rw [List.foldl_cons]
    apply ih
    · have := hq q (List.mem_cons_self _ _)
      simp only [grow_bounds]
      split <;> omega
    · exact fun q1 h1 => hq q1 (List.mem_cons_of_mem _ h1)

theorem draw_filled_bw_max_x (cos_lookup sin_lookup : Int → Int) (fctx fctx1 : FContext)
    (fpath : FPath) (M : Int)
    (h : fpath_draw_filled_bw cos_lookup sin_lookup true fctx fpath = some fctx1)
    (hc : fctx.max.x ≤ M)
    (hq : ∀ q ∈ transformed_points_bw cos_lookup sin_lookup fpath, q.x ≤ M) :
    fctx1.max.x ≤ M := by
  unfold fpath_draw_filled_bw at h
  simp only [if_true] at h
  rw [(plot_edges_bw_box _ _ _ _ _ h).2]
  exact foldl_grow_bounds_max_x M _ _ hc hq

theorem ceil_div_mul_right (x d : Int) (hd : 0 < d) : ceil_div (x * d) (16 * d) = ceil_div x 16 := by
  rw [ceil_div_eq_iff _ _ _ (by omega)]
  have h1 := (ceil_div_eq_iff x 16 (ceil_div x 16) (by norm_num)).1 rfl
  constructor
  · nlinarith [h1.1]
  · nlinarith [h1.2]

/-- The edges of a transformed rectangle that span row `r` and cross it in a
column `≤ c` are odd in number exactly when `16 c` and `16 r` lie in the
half-open rectangle. -/
theorem rectangle_crossings (X0 Y0 X1 Y1 : Int) (hx : X0 < X1) (hy : Y0 < Y1) (r c : Int) :
    edge_crossings 4 [⟨X0, Y0⟩, ⟨X1, Y0⟩, ⟨X1, Y1⟩, ⟨X0, Y1⟩] r c % 2 = 1 ↔
      (X0 ≤ 16 * c ∧ 16 * c < X1 ∧ Y0 ≤ 16 * r ∧ 16 * r < Y1) := by
  have c1 : crossing_column ⟨X1, Y0⟩ ⟨X1, Y1⟩ r = ceil_div X1 16 := by
    unfold crossing_column
    simp only [sub_self, mul_zero, add_zero]
    exact ceil_div_mul_right X1 (Y1 - Y0) (by omega)
  have c0 : crossing_column ⟨X0, Y0⟩ ⟨X0, Y1⟩ r = ceil_div X0 16 := by
    unfold crossing_column
    simp only [sub_self, mul_zero, add_zero]
    exact ceil_div_mul_right X0 (Y1 - Y0) (by omega)
  have i0 := ceil_div_le_iff X0 16 c (by norm_num)
  have i1 := ceil_div_le_iff X1 16 c (by norm_num)
  have j0 := ceil_div_le_iff Y0 16 r (by norm_num)
  have j1 := lt_ceil_div_iff Y1 16 r (by norm_num)
  have hm := ceil_div_mono X0 X1 16 (by norm_num) (by omega)
  have e1 : spans_row ⟨X0, Y0⟩ ⟨X1, Y0⟩ r = false := by
    simp [spans_row, edge_top, edge_bottom]
  have e3 : spans_row ⟨X1, Y1⟩ ⟨X0, Y1⟩ r = false := by
    simp [spans_row, edge_top, edge_bottom]
  have t2 : edge_top ⟨X1, Y0⟩ ⟨X1, Y1⟩ = ⟨X1, Y0⟩ := by
    unfold edge_top; rw [if_neg (by simp only; omega)]
  have b2 : edge_bottom ⟨X1, Y0⟩ ⟨X1, Y1⟩ = ⟨X1, Y1⟩ := by
    unfold edge_bottom; rw [if_neg (by simp only; omega)]
  have t4 : edge_top ⟨X0, Y1⟩ ⟨X0, Y0⟩ = ⟨X0, Y0⟩ := by
    unfold edge_top; rw [if_pos (by simp only; omega)]
  have b4 : edge_bottom ⟨X0, Y1⟩ ⟨X0, Y0⟩ = ⟨X0, Y1⟩ := by
    unfold edge_bottom; rw [if_pos (by simp only; omega)]
  have e2 : spans_row ⟨X1, Y0⟩ ⟨X1, Y1⟩ r = decide (ceil_div Y0 16 ≤ r ∧ r < ceil_div Y1 16) := by
    unfold spans_row; rw [t2, b2]
  have e4 : spans_row ⟨X0, Y1⟩ ⟨X0, Y0⟩ r = decide (ceil_div Y0 16 ≤ r ∧ r < ceil_div Y1 16) := by
    unfold spans_row; rw [t4, b4]
  have hcount : edge_crossings 4 [⟨X0, Y0⟩, ⟨X1, Y0⟩, ⟨X1, Y1⟩, ⟨X0, Y1⟩] r c =
      (if (ceil_div Y0 16 ≤ r ∧ r < ceil_div Y1 16) ∧ ceil_div X0 16 ≤ c then 1 else 0) +
      (if (ceil_div Y0 16 ≤ r ∧ r < ceil_div Y1 16) ∧ ceil_div X1 16 ≤ c then 1 else 0) := by
    unfold edge_crossings
    have hr : List.range 4 = [0, 1, 2, 3] := rfl
    rw [hr]
    simp only [List.countP_cons, List.countP_nil, List.getD_cons_zero, List.getD_cons_succ,
      Nat.reduceAdd, Nat.reduceMod, e1, e2, e3, e4, t2, b2, t4, b4, c0, c1, Bool.false_and,
      Bool.and_eq_true, decide_eq_true_eq, zero_add]
    simp
  rw [hcount]
  constructor
  · intro h
    split at h <;> split at h <;> omega
  · intro h
    rw [if_pos (by omega), if_neg (by omega)]

/-- C16. Axis-aligned rectangle, end to end: for the 4-point path
`(x0,y0), (x1,y0), (x1,y1), (x0,y1)` with `x0 < x1`, `y0 < y1`, rotation 0
(`cos_lookup 0 = TRIG_MAX_RATIO`, `sin_lookup 0 = 0`) and an offset
`(ox, oy)` that keeps the translated rectangle inside the `w` by `h` surface,
`fpath_begin_fill_bw`, `fpath_draw_filled_bw` and `fpath_end_fill_bw` on
all-zero flag bytes (flag rows of at least `w + 1` bits, frame-buffer rows of
the `w` pixels) return, and pixel `(c, r)` holds the fill colour if its
centre is in the half-open rectangle, `x0 + ox ≤ 16 c + 8 < x1 + ox` and
`y0 + oy ≤ 16 r + 8 < y1 + oy`, and its value from before the fill if not. -/
theorem bw_fill_rectangle (cos_lookup sin_lookup : Int → Int) (pbl_color : Bool)
    (w h : Int) (fctx : FContext) (x0 y0 x1 y1 ox oy : Int)
    (hcos : cos_lookup 0 = TRIG_MAX_RATIO) (hsin : sin_lookup 0 = 0)
    (hw16 : w < 32767) (hh16 : h < 32767)
    (hbounds : fctx.flagBuffer.bounds = ⟨0, 0, w + 1, h + 1⟩)
    (hstride : w + 1 ≤ 8 * fctx.flagBuffer.row_size_bytes)
    (hfb : if pbl_color = true then w ≤ fctx.frameBuffer.row_size_bytes
      else w ≤ 8 * fctx.frameBuffer.row_size_bytes)
    (hzero : ∀ a, 0 ≤ a → a < fctx.flagBuffer.row_size_bytes * (h + 1) →
      fctx.flagBuffer.data a = 0)
    (hx : x0 < x1) (hy : y0 < y1)
    (hin : 0 ≤ x0 + ox ∧ x1 + ox ≤ 16 * w ∧ 0 ≤ y0 + oy ∧ y1 + oy ≤ 16 * h) :
    ∃ fctx1, fpath_draw_filled_bw cos_lookup sin_lookup true (fpath_begin_fill_bw fctx)
        (rectangle_path x0 y0 x1 y1 ox oy) = some fctx1 ∧
      ∀ c r : Nat, (c : Int) < w → (r : Int) < h →
        surface_pixel pbl_color (fpath_end_fill_bw pbl_color fctx1).frameBuffer.data
            fctx.frameBuffer.row_size_bytes c r =
          if x0 + ox ≤ 16 * (c : Int) + 8 ∧ 16 * (c : Int) + 8 < x1 + ox ∧
              y0 + oy ≤ 16 * (r : Int) + 8 ∧ 16 * (r : Int) + 8 < y1 + oy
          then fill_pixel pbl_color fctx.fillColor
          else surface_pixel pbl_color fctx.frameBuffer.data
            fctx.frameBuffer.row_size_bytes c r := by
  obtain ⟨i1, i2, i3, i4⟩ := hin
  have hw : 0 ≤ w := by omega
  have hh : 0 ≤ h := by omega
  have hQ := rectangle_points cos_lookup sin_lookup hcos hsin x0 y0 x1 y1 ox oy
  have hpts : ∀ q ∈ transformed_points_bw cos_lookup sin_lookup
      (rectangle_path x0 y0 x1 y1 ox oy), PointInSurface w h q ∧ q.x ≤ 16 * w - 8 := by
    intro q hq
    rw [hQ] at hq
    simp only [List.mem_cons, List.mem_singleton, List.not_mem_nil, or_false] at hq
    unfold PointInSurface
    rcases hq with h1 | h1 | h1 | h1 <;> subst h1 <;> simp only <;> omega
  have hsane0 := begin_fill_bw_sane w h fctx hw hh hbounds
  obtain ⟨c1, hc1, hs1, hsane1, hbox1, hfl1⟩ :=
    draw_filled_bw_grid cos_lookup sin_lookup w h (fpath_begin_fill_bw fctx)
      (rectangle_path x0 y0 x1 y1 ox oy)
      (by show w < 8 * fctx.flagBuffer.row_size_bytes; omega) hsane0
      (fun q hq => (hpts q hq).1)
  refine ⟨c1, hc1, ?_⟩
  intro c r hc _
  have hfbeq : c1.frameBuffer = fctx.frameBuffer := hs1.1
  have hstr : c1.flagBuffer.row_size_bytes = fctx.flagBuffer.row_size_bytes := hs1.2.1
  have hfill : c1.fillColor = fctx.fillColor := hs1.2.2.2
  have hlen := transformed_points_bw_length cos_lookup sin_lookup
    (rectangle_path x0 y0 x1 y1 ox oy)
  have hmax : c1.max.x ≤ 16 * w - 8 :=
    draw_filled_bw_max_x cos_lookup sin_lookup _ c1 _ (16 * w - 8) hc1
      (by
        have := hsane0.2.2.2.2.2.1
        have h0 : (fpath_begin_fill_bw fctx).max.x = 0 := by
          simp [fpath_begin_fill_bw, hbounds, INT_TO_FIXED]
        omega)
      (fun q hq => (hpts q hq).2)
  have hce : FIXED_TO_INT c1.max.x + 1 < 8 * c1.flagBuffer.row_size_bytes := by
    have h0 : 0 ≤ c1.max.x := hsane1.2.2.2.2.1
    have := tdiv_16 c1.max.x
    rw [if_pos h0] at this
    unfold FIXED_TO_INT FIXED_POINT_SCALE
    rw [hstr, this]
    omega
  have key := end_fill_bw_pixels pbl_color w h
    (rectangle_path x0 y0 x1 y1 ox oy).num_points
    (transformed_points_bw cos_lookup sin_lookup (rectangle_path x0 y0 x1 y1 ox oy)) c1
    hw hw16 hh hh16 hce (by rw [hfbeq]; exact hfb) hsane1
    (fun k hk => by
      have hmem := getD_mem_of_lt (transformed_points_bw cos_lookup sin_lookup
        (rectangle_path x0 y0 x1 y1 ox oy)) k (by rw [hlen]; exact hk)
      exact ⟨(hpts _ hmem).1, hbox1 _ hmem⟩)
    (fun x y hx hxs hy hyh => by
      rw [hstr] at hxs ⊢
      have hf := hfl1 x y hx hxs
      have hz : flag_at (fpath_begin_fill_bw fctx).flagBuffer.row_size_bytes
          (fpath_begin_fill_bw fctx).flagBuffer.data x y = false :=
        flag_at_zero _ h _ x y hzero hx hxs hy hyh
      change flag_at fctx.flagBuffer.row_size_bytes c1.flagBuffer.data x y = _ at hf
      rw [hf, hz, Bool.false_xor])
    c r hc
  rw [hfbeq, hfill, hQ] at key
  rw [key]
  have hiff := rectangle_crossings (x0 + ox - 8) (y0 + oy - 8) (x1 + ox - 8) (y1 + oy - 8)
    (by omega) (by omega) (r : Int) (c : Int)
  have hn : (rectangle_path x0 y0 x1 y1 ox oy).num_points = 4 := rfl
  rw [hn]
  by_cases hodd : edge_crossings 4
      [⟨x0 + ox - 8, y0 + oy - 8⟩, ⟨x1 + ox - 8, y0 + oy - 8⟩,
       ⟨x1 + ox - 8, y1 + oy - 8⟩, ⟨x0 + ox - 8, y1 + oy - 8⟩] r c % 2 = 1
  · have := hiff.1 hodd
    rw [if_pos hodd, if_pos (by omega)]
  · have : ¬ (x0 + ox - 8 ≤ 16 * (c : Int) ∧ 16 * (c : Int) < x1 + ox - 8 ∧
        y0 + oy - 8 ≤ 16 * (r : Int) ∧ 16 * (r : Int) < y1 + oy - 8) := fun h => hodd (hiff.2 h)
    rw [if_neg hodd, if_neg (by omega)]

theorem bw_fill_rectangle_witness :
    ∃ fctx1, fpath_draw_filled_bw cos_zero sin_zero true
        (fpath_begin_fill_bw (blank_context 4 4 4 1 1)) (rectangle_path 0 0 32 32 16 16)
        = some fctx1 ∧
      ∀ c r : Nat, (c : Int) < 4 → (r : Int) < 4 →
        surface_pixel true (fpath_end_fill_bw true fctx1).frameBuffer.data
            (blank_context 4 4 4 1 1).frameBuffer.row_size_bytes c r =
          if (0 : Int) + 16 ≤ 16 * (c : Int) + 8 ∧ 16 * (c : Int) + 8 < 32 + 16 ∧
              (0 : Int) + 16 ≤ 16 * (r : Int) + 8 ∧ 16 * (r : Int) + 8 < 32 + 16
          then fill_pixel true (blank_context 4 4 4 1 1).fillColor
          else surface_pixel true (blank_context 4 4 4 1 1).frameBuffer.data
            (blank_context 4 4 4 1 1).frameBuffer.row_size_bytes c r :=
  bw_fill_rectangle cos_zero sin_zero true 4 4 (blank_context 4 4 4 1 1) 0 0 32 32 16 16
    rfl rfl (by decide) (by decide) rfl (by decide) (by decide) (fun _ _ _ => rfl)
    (by decide) (by decide) (by decide)

/-! ## Theorems: the colour ramp -/

theorem ramp_channel_spec : ∀ a, a < 4 → ∀ b, b < 4 → ∀ k, k < 9 →
    ramp_channel a b k = (a * (8 - k) + b * k + 4) / 8 ∧
    ramp_channel a b k < 4 ∧
    min a b ≤ ramp_channel a b k ∧ ramp_channel a b k ≤ max a b ∧
    (k < 8 → a ≤ b → ramp_channel a b k ≤ ramp_channel a b (k + 1)) ∧
    (k < 8 → b ≤ a → ramp_channel a b (k + 1) ≤ ramp_channel a b k) ∧
    ramp_channel a b 0 = a ∧ ramp_channel a b 8 = b := by
  intro a ha b hb k hk
  interval_cases a <;> interval_cases b <;> interval_cases k <;> decide

theorem GColor_argb_fields (a r g b : Nat) (ha : a < 4) (hr : r < 4) (hg : g < 4) (hb : b < 4) :
    GColor.a (GColor.argb a r g b) = a ∧ GColor.r (GColor.argb a r g b) = r ∧
    GColor.g (GColor.argb a r g b) = g ∧ GColor.b (GColor.argb a r g b) = b := by
  unfold GColor.a GColor.r GColor.g GColor.b GColor.argb
  omega

theorem GColor_field_lt (c : Nat) : GColor.r c < 4 ∧ GColor.g c < 4 ∧ GColor.b c < 4 := by
  unfold GColor.r GColor.g GColor.b
  omega

theorem calc_ramp_getD (fctx : FContext) (k : Nat) (h1 : 1 ≤ k) (h7 : k ≤ 7) :
    (fpath_calc_ramp_aa fctx).aaramp.getD k 0 = ramp_color fctx.strokeColor fctx.fillColor k := by
  unfold fpath_calc_ramp_aa
  simp only
  interval_cases k <;> rfl

theorem ramp_channel_spec_of (ch : Nat → Nat) (c0 c1 : Nat) (ramp : List Nat)
    (h0 : ch c0 < 4) (h1 : ch c1 < 4)
    (hk : ∀ k, k ≤ 8 → ch (ramp.getD k 0) = ramp_channel (ch c0) (ch c1) k) :
    RampChannelSpec ch c0 c1 ramp := by
  constructor
  · intro k _ k7
    rw [hk k (by omega)]
    have := ramp_channel_spec _ h0 _ h1 k (by omega)
    exact ⟨this.1, this.2.2.1, this.2.2.2.1⟩
  · intro j k hjk
    induction k, hjk using Nat.le_induction with
    | base => intro _; exact ⟨fun _ => le_refl _, fun _ => le_refl _⟩
    | succ k hjk ih =>
      intro hk8
      have ih1 := ih (by omega)
      have := ramp_channel_spec _ h0 _ h1 k (by omega)
      rw [hk (k + 1) hk8]
      rw [hk k (by omega)] at ih1
      constructor
      · intro hle
        exact le_trans (ih1.1 hle) (this.2.2.2.2.1 (by omega) hle)
      · intro hle
        exact le_trans (this.2.2.2.2.2.1 (by omega) hle) (ih1.2 hle)

theorem calc_ramp_channel (fctx : FContext) (k : Nat) (hk : k ≤ 8) :
    GColor.r ((fpath_calc_ramp_aa fctx).aaramp.getD k 0) =
      ramp_channel (GColor.r fctx.strokeColor) (GColor.r fctx.fillColor) k ∧
    GColor.g ((fpath_calc_ramp_aa fctx).aaramp.getD k 0) =
      ramp_channel (GColor.g fctx.strokeColor) (GColor.g fctx.fillColor) k ∧
    GColor.b ((fpath_calc_ramp_aa fctx).aaramp.getD k 0) =
      ramp_channel (GColor.b fctx.strokeColor) (GColor.b fctx.fillColor) k ∧
    (1 ≤ k → k ≤ 7 → GColor.a ((fpath_calc_ramp_aa fctx).aaramp.getD k 0) = 3) := by
  have l0 := GColor_field_lt fctx.strokeColor
  have l1 := GColor_field_lt fctx.fillColor
  have sr := ramp_channel_spec _ l0.1 _ l1.1
  have sg := ramp_channel_spec _ l0.2.1 _ l1.2.1
  have sb := ramp_channel_spec _ l0.2.2 _ l1.2.2
  rcases Nat.eq_zero_or_pos k with h | h
  · subst h
    refine ⟨?_, ?_, ?_, fun h => absurd h (by omega)⟩
    · rw [(sr 0 (by omega)).2.2.2.2.2.2.1]; rfl
    · rw [(sg 0 (by omega)).2.2.2.2.2.2.1]; rfl
    · rw [(sb 0 (by omega)).2.2.2.2.2.2.1]; rfl
  rcases Nat.lt_or_ge k 8 with h8 | h8
  · rw [calc_ramp_getD fctx k h (by omega)]
    unfold ramp_color
    have f := GColor_argb_fields 3
      (ramp_channel (GColor.r fctx.strokeColor) (GColor.r fctx.fillColor) k)
      (ramp_channel (GColor.g fctx.strokeColor) (GColor.g fctx.fillColor) k)
      (ramp_channel (GColor.b fctx.strokeColor) (GColor.b fctx.fillColor) k)
      (by omega) (sr k (by omega)).2.1 (sg k (by omega)).2.1 (sb k (by omega)).2.1
    exact ⟨f.2.1, f.2.2.1, f.2.2.2, fun _ _ => f.1⟩
  · have : k = 8 := by omega
    subst this
    refine ⟨?_, ?_, ?_, fun _ h => absurd h (by omega)⟩
    · rw [(sr 0 (by omega)).2.2.2.2.2.2.2]; rfl
    · rw [(sg 0 (by omega)).2.2.2.2.2.2.2]; rfl
    · rw [(sb 0 (by omega)).2.2.2.2.2.2.2]; rfl

/-- C19. Colour ramp: after `fpath_calc_ramp_aa` the ramp has nine entries,
`aaramp[0]` is the stroke colour `c0`, `aaramp[8]` the fill colour `c1`, and
`aarampDirty` is false; for `k` in 1..7 the alpha of `aaramp[k]` is 3 and each
of its channels `r`, `g`, `b` is `floor((c0.ch * (8 - k) + c1.ch * k + 4) / 8)`,
lies between `min(c0.ch, c1.ch)` and `max(c0.ch, c1.ch)`, and is monotone in
`k` over the whole ramp. -/
theorem calc_ramp_interpolates (fctx : FContext) :
    (fpath_calc_ramp_aa fctx).aaramp.length = 9 ∧
    (fpath_calc_ramp_aa fctx).aaramp.getD 0 0 = fctx.strokeColor ∧
    (fpath_calc_ramp_aa fctx).aaramp.getD 8 0 = fctx.fillColor ∧
    (fpath_calc_ramp_aa fctx).aarampDirty = false ∧
    (∀ k, 1 ≤ k → k ≤ 7 → GColor.a ((fpath_calc_ramp_aa fctx).aaramp.getD k 0) = 3) ∧
    RampChannelSpec GColor.r fctx.strokeColor fctx.fillColor (fpath_calc_ramp_aa fctx).aaramp ∧
    RampChannelSpec GColor.g fctx.strokeColor fctx.fillColor (fpath_calc_ramp_aa fctx).aaramp ∧
    RampChannelSpec GColor.b fctx.strokeColor fctx.fillColor
      (fpath_calc_ramp_aa fctx).aaramp := by
  have l0 := GColor_field_lt fctx.strokeColor
  have l1 := GColor_field_lt fctx.fillColor
  refine ⟨rfl, rfl, rfl, rfl, fun k h1 h7 => (calc_ramp_channel fctx k (by omega)).2.2.2 h1 h7,
    ?_, ?_, ?_⟩
  · exact ramp_channel_spec_of _ _ _ _ l0.1 l1.1 fun k hk => (calc_ramp_channel fctx k hk).1
  · exact ramp_channel_spec_of _ _ _ _ l0.2.1 l1.2.1 fun k hk => (calc_ramp_channel fctx k hk).2.1
  · exact ramp_channel_spec_of _ _ _ _ l0.2.2 l1.2.2
      fun k hk => (calc_ramp_channel fctx k hk).2.2.1

/-! ## Theorems: the scan of `fpath_end_fill_aa` -/

theorem countBits_loop_fuel : ∀ (fuel1 fuel2 v c : Nat), v ≤ fuel1 → v ≤ fuel2 →
    countBits_loop fuel1 v c = countBits_loop fuel2 v c := by
  intro fuel1
  induction fuel1 with
  | zero =>
    intro fuel2 v c h1 _
    have hv : v = 0 := by omega
    subst hv
    cases fuel2 <;> simp [countBits_loop]
  | succ f ih =>
    intro fuel2 v c h1 h2
    cases fuel2 with
    | zero =>
      have hv : v = 0 := by omega
      subst hv
      simp [countBits_loop]
    | succ g =>
      simp only [countBits_loop]
      split
      · rfl
      · have hle : v &&& (v - 1) ≤ v - 1 := Nat.and_le_right
        exact ih g _ _ (by omega) (by omega)

theorem countBits_byte (v : Nat) (hv : v < 256) :
    countBits v = bit_count v ∧ countBits v ≤ 8 := by
  interval_cases v <;> decide

theorem flag_bytes_xor_lt (data : Int → Nat) (s : Int) (m : Nat) :
    flag_bytes_xor data s m < 256 := by
  cases m with
  | zero => simp [flag_bytes_xor]
  | succ m => exact Nat.mod_lt _ (by norm_num)

theorem flag_bytes_xor_congr (data data1 : Int → Nat) (s : Int) (m : Nat)
    (h : ∀ j : Nat, j < m → data1 (s + (j : Int)) = data (s + (j : Int))) :
    flag_bytes_xor data1 s m = flag_bytes_xor data s m := by
  induction m with
  | zero => rfl
  | succ m ih =>
    simp only [flag_bytes_xor]
    rw [ih (fun j hj => h j (by omega)), h m (by omega)]

/-- The inner loop of `fpath_end_fill_aa` over `n` columns from a state with
`mask = 0`: the pointers advance by `n`, the `n` flag bytes read are zeroed,
and the `k`-th destination byte is written exactly when the count of the XOR
of the first `k + 1` flag bytes is positive. -/
theorem end_fill_cols_aa (aaramp : List Nat) (cb : Nat) (st : ScanStateAA) (hm : st.mask = 0) :
    ∀ n : Nat, ∀ st1,
      st1 = (List.range' cb n).foldl (fun st2 _ => end_fill_step_aa aaramp st2) st →
      st1.src = st.src + (n : Int) ∧ st1.dest = st.dest + (n : Int) ∧
      st1.mask = flag_bytes_xor st.data st.src n ∧
      (∀ a, st1.data a = if st.src ≤ a ∧ a < st.src + (n : Int) then 0 else st.data a) ∧
      (∀ a, st1.fbData a =
        if st.dest ≤ a ∧ a < st.dest + (n : Int) ∧
            0 < countBits (flag_bytes_xor st.data st.src ((a - st.dest).toNat + 1)) then
          aaramp.getD (countBits (flag_bytes_xor st.data st.src ((a - st.dest).toNat + 1))) 0
        else st.fbData a) := by
  intro n
  induction n with
  | zero =>
    intro st1 h
    subst h
    simp only [List.range'_zero, List.foldl_nil, Nat.cast_zero, add_zero, flag_bytes_xor]
    refine ⟨trivial, trivial, hm, ?_, ?_⟩
    · intro a
      rw [if_neg (by omega)]
    · intro a
      rw [if_neg (by omega)]
  | succ n ih =>
    intro st1 h
    rw [List.range'_concat, List.foldl_append] at h
    obtain ⟨hsrc, hdest, hmask, hdata, hfb⟩ := ih _ rfl
    generalize (List.range' cb n).foldl (fun st2 _ => end_fill_step_aa aaramp st2) st = sn
      at h hsrc hdest hmask hdata hfb
    subst h
    simp only [List.foldl_cons, List.foldl_nil, end_fill_step_aa]
    have hcur : sn.data sn.src = st.data (st.src + (n : Int)) := by
      rw [hdata, hsrc, if_neg (by omega)]
    have hmask1 : (sn.mask ^^^ sn.data sn.src) % 256 = flag_bytes_xor st.data st.src (n + 1) := by
      rw [hmask, hcur]
      rfl
    rw [hmask1]
    refine ⟨by rw [hsrc]; push_cast; ring, by rw [hdest]; push_cast; ring, rfl, ?_, ?_⟩
    · intro a
      by_cases ha : a = sn.src
      · subst ha
        rw [Function.update_same, if_pos (by rw [hsrc]; push_cast; omega)]
      · rw [Function.update_noteq ha, hdata]
        rw [hsrc] at ha
        by_cases h1 : st.src ≤ a ∧ a < st.src + (n : Int)
        · rw [if_pos h1, if_pos (by push_cast; omega)]
        · rw [if_neg h1, if_neg (by push_cast; omega)]
    · intro a
      by_cases ha : a = sn.dest
      · subst ha
        have hk : (sn.dest - st.dest).toNat + 1 = n + 1 := by rw [hdest]; omega
        rw [hk]
        by_cases hc : 0 < countBits (flag_bytes_xor st.data st.src (n + 1))
        · rw [if_pos hc, Function.update_same,
            if_pos ⟨by rw [hdest]; omega, by rw [hdest]; push_cast; omega, hc⟩]
        · rw [if_neg hc, if_neg (fun h => hc h.2.2), hfb, if_neg (by rw [hdest]; omega)]
      · have hne : a ≠ st.dest + (n : Int) := by rw [← hdest]; exact ha
        have hstep : (if 0 < countBits (flag_bytes_xor st.data st.src (n + 1)) then
              Function.update sn.fbData sn.dest
                (aaramp.getD (countBits (flag_bytes_xor st.data st.src (n + 1))) 0)
            else sn.fbData) a = sn.fbData a := by
          split
          · rw [Function.update_noteq ha]
          · rfl
        rw [hstep, hfb]
        by_cases h1 : st.dest ≤ a ∧ a < st.dest + (n : Int) ∧
            0 < countBits (flag_bytes_xor st.data st.src ((a - st.dest).toNat + 1))
        · rw [if_pos h1, if_pos ⟨h1.1, by push_cast; omega, h1.2.2⟩]
        · rw [if_neg h1, if_neg]
          rintro ⟨h2, h3, h4⟩
          exact h1 ⟨h2, by push_cast at h3; omega, h4⟩

theorem row_offset_lt (k i n : Nat) (S : Int) (hk : k < i) (hn : (n : Int) ≤ S) (h0 : 0 < n) :
    (k : Int) * S + (n : Int) ≤ (i : Int) * S := by
  have h1 : (k : Int) + 1 ≤ (i : Int) := by omega
  have h2 : (0 : Int) ≤ S := by omega
  nlinarith [mul_le_mul_of_nonneg_right h1 h2]

theorem end_fill_rows_aa (aaramp : List Nat) (cb ce : Nat) (stride fbStride : Int)
    (data0 fb0 : Int → Nat) (s0 d0 : Int)
    (hn : ((ce - cb : Nat) : Int) ≤ stride) (hnf : ((ce - cb : Nat) : Int) ≤ fbStride)
    (rb : Nat) :
    ∀ m : Nat, RowsScannedAA aaramp data0 fb0 s0 d0 stride fbStride (ce - cb) m
      ((List.range' rb m).foldl
        (fun st1 _ => end_fill_row_aa aaramp cb ce (fbStride - ((ce - cb : Nat) : Int))
          (stride - ((ce - cb : Nat) : Int)) st1)
        { data := data0, fbData := fb0, mask := 0, dest := d0, src := s0 }) := by
  intro m
  induction m with
  | zero =>
    refine ⟨by simp, by simp, ?_, ?_, ?_, ?_⟩
    · intro k j hk
      omega
    · intro a _
      rfl
    · intro k j hk
      omega
    · intro a _
      rfl
  | succ i ih =>
    rw [List.range'_concat, List.foldl_append]
    generalize (List.range' rb i).foldl
      (fun st1 _ => end_fill_row_aa aaramp cb ce (fbStride - ((ce - cb : Nat) : Int))
        (stride - ((ce - cb : Nat) : Int)) st1)
      { data := data0, fbData := fb0, mask := 0, dest := d0, src := s0 } = st at ih
    obtain ⟨hsrc, hdest, hz, hkeep, hfb, hfbkeep⟩ := ih
    simp only [List.foldl_cons, List.foldl_nil, end_fill_row_aa]
    obtain ⟨csrc, cdest, _, cdata, cfb⟩ :=
      end_fill_cols_aa aaramp cb { st with mask := 0 } rfl (ce - cb) _ rfl
    generalize (List.range' cb (ce - cb)).foldl (fun st2 _ => end_fill_step_aa aaramp st2)
      { st with mask := 0 } = st1 at csrc cdest cdata cfb
    simp only at csrc cdest cdata cfb
    generalize hnn : ce - cb = n at *
    -- the flag bytes of the row being passed are still those of `data0`
    have hrow : ∀ j : Nat, j < n → st.data (st.src + (j : Int)) = data0 (st.src + (j : Int)) := by
      intro j hj
      apply hkeep
      intro k hk
      have := row_offset_lt k i n stride hk hn (by omega)
      rw [hsrc]
      omega
    have hfrow : ∀ j : Nat, j < n →
        st.fbData (st.dest + (j : Int)) = fb0 (st.dest + (j : Int)) := by
      intro j hj
      apply hfbkeep
      intro k hk
      have := row_offset_lt k i n fbStride hk hnf (by omega)
      rw [hdest]
      omega
    refine ⟨?_, ?_, ?_, ?_, ?_, ?_⟩
    · simp only [csrc, hsrc]
      push_cast
      ring
    · simp only [cdest, hdest]
      push_cast
      ring
    · intro k j hk hj
      simp only [cdata]
      split
      · rfl
      · rcases Nat.lt_or_ge k i with hki | hki
        · exact hz k j hki hj
        · have hke : k = i := by omega
          subst hke
          rename_i hnot
          exact absurd ⟨by rw [hsrc]; omega, by rw [hsrc]; omega⟩ hnot
    · intro a ha
      simp only [cdata]
      rw [if_neg]
      · exact hkeep a fun k hk => ha k (by omega)
      · have := ha i (by omega)
        rw [hsrc]
        exact this
    · intro k j hk hj
      simp only [cfb]
      rcases Nat.lt_or_ge k i with hki | hki
      · have := row_offset_lt k i n fbStride hki hnf (by omega)
        rw [if_neg (by rw [hdest]; omega)]
        exact hfb k j hki hj
      · have hke : k = i := by omega
        subst hke
        have hj1 : (d0 + (k : Int) * fbStride + (j : Int) - st.dest).toNat + 1 = j + 1 := by
          rw [hdest]
          omega
        rw [hj1]
        have hx : flag_bytes_xor st.data st.src (j + 1) =
            flag_bytes_xor data0 (s0 + (k : Int) * stride) (j + 1) := by
          rw [← hsrc]
          exact flag_bytes_xor_congr data0 st.data st.src (j + 1)
            fun j1 hj1 => hrow j1 (by omega)
        rw [hx]
        by_cases hc : 0 < countBits (flag_bytes_xor data0 (s0 + (k : Int) * stride) (j + 1))
        · rw [if_pos hc, if_pos ⟨by rw [hdest]; omega, by rw [hdest]; omega, hc⟩]
        · rw [if_neg hc, if_neg (fun h => hc h.2.2)]
          have := hfrow j hj
          rw [hdest] at this
          exact this
    · intro a ha
      simp only [cfb]
      rw [if_neg]
      · exact hfbkeep a fun k hk => ha k (by omega)
      · have := ha i (by omega)
        rw [hdest]
        exact fun h => this ⟨h.1, h.2.1⟩

theorem toUInt16_nat (v : Int) (h0 : 0 ≤ v) (h1 : v < 65536) :
    ∃ n : Nat, toUInt16 v = n ∧ (n : Int) = v :=
  ⟨_, rfl, toUInt16_eq v h0 h1⟩

theorem end_fill_aa_pixels (fctx : FContext)
    (hy0 : 0 ≤ FIXED_TO_INT fctx.min.y) (hy1 : FIXED_TO_INT fctx.max.y + 2 < 65536)
    (hx0 : 0 ≤ FIXED_TO_INT fctx.min.x) (hx1 : FIXED_TO_INT fctx.max.x + 2 < 65536)
    (hs : fctx.flagBuffer.row_size_bytes < 65536)
    (hfs : fctx.frameBuffer.row_size_bytes < 65536)
    (hstride : FIXED_TO_INT fctx.max.x + 2 - FIXED_TO_INT fctx.min.x ≤
      fctx.flagBuffer.row_size_bytes)
    (hfb : FIXED_TO_INT fctx.max.x + 2 - FIXED_TO_INT fctx.min.x ≤
      fctx.frameBuffer.row_size_bytes)
    (r c : Int) (hr0 : FIXED_TO_INT fctx.min.y ≤ r) (hr1 : r < FIXED_TO_INT fctx.max.y + 2)
    (hc0 : FIXED_TO_INT fctx.min.x ≤ c) (hc1 : c < FIXED_TO_INT fctx.max.x + 2) :
    (fpath_end_fill_aa fctx).frameBuffer.data (r * fctx.frameBuffer.row_size_bytes + c) =
      if 0 < coverage_aa fctx r c then (ramp_in_use fctx).getD (coverage_aa fctx r c) 0
      else fctx.frameBuffer.data (r * fctx.frameBuffer.row_size_bytes + c) := by
  have hF : ∀ F : FContext, (if fctx.aarampDirty then fpath_calc_ramp_aa fctx else fctx) = F →
      F.min = fctx.min ∧ F.max = fctx.max ∧ F.flagBuffer = fctx.flagBuffer ∧
      F.frameBuffer = fctx.frameBuffer := by
    intro F hF
    subst hF
    split <;> exact ⟨rfl, rfl, rfl, rfl⟩
  unfold fpath_end_fill_aa coverage_aa ramp_in_use
  generalize hFdef : (if fctx.aarampDirty then fpath_calc_ramp_aa fctx else fctx) = F
  obtain ⟨hmin, hmax, hflag, hframe⟩ := hF F hFdef
  simp only [hmin, hmax, hflag, hframe]
  obtain ⟨rb, erb, hrb⟩ := toUInt16_nat (FIXED_TO_INT fctx.min.y) hy0 (by omega)
  obtain ⟨re, ere, hre⟩ := toUInt16_nat (FIXED_TO_INT fctx.max.y + 2) (by omega) hy1
  obtain ⟨cb, ecb, hcb⟩ := toUInt16_nat (FIXED_TO_INT fctx.min.x) hx0 (by omega)
  obtain ⟨ce, ece, hce⟩ := toUInt16_nat (FIXED_TO_INT fctx.max.x + 2) (by omega) hx1
  obtain ⟨S, eS, hS⟩ := toUInt16_nat fctx.flagBuffer.row_size_bytes (by omega) hs
  obtain ⟨FS, eFS, hFS⟩ := toUInt16_nat fctx.frameBuffer.row_size_bytes (by omega) hfs
  rw [erb, ere, ecb, ece, eS, eFS]
  have hn : ((ce - cb : Nat) : Int) = (ce : Int) - (cb : Int) := by omega
  obtain ⟨st, est, hst⟩ := toUInt16_nat ((S : Int) - ((ce : Int) - (cb : Int)))
    (by omega) (by omega)
  obtain ⟨fstep, efst, hfst⟩ := toUInt16_nat ((FS : Int) - ((ce : Int) - (cb : Int)))
    (by omega) (by omega)
  rw [est, efst, hst, hfst, ← hn]
  have hrows := end_fill_rows_aa F.aaramp cb ce (S : Int) (FS : Int) fctx.flagBuffer.data
    fctx.frameBuffer.data ((rb : Int) * (S : Int) + (cb : Int))
    ((rb : Int) * (FS : Int) + (cb : Int)) (by omega) (by omega) rb (re - rb)
  have h5 := hrows.2.2.2.2.1 (r - (rb : Int)).toNat (c - (cb : Int)).toNat (by omega) (by omega)
  have ea : (rb : Int) * (FS : Int) + (cb : Int) + (((r - (rb : Int)).toNat : Nat) : Int) * (FS : Int)
      + (((c - (cb : Int)).toNat : Nat) : Int) = r * fctx.frameBuffer.row_size_bytes + c := by
    rw [Int.toNat_of_nonneg (by omega), Int.toNat_of_nonneg (by omega), hFS]
    ring
  have es : (rb : Int) * (S : Int) + (cb : Int) + (((r - (rb : Int)).toNat : Nat) : Int) * (S : Int)
      = r * fctx.flagBuffer.row_size_bytes + (cb : Int) := by
    rw [Int.toNat_of_nonneg (by omega), hS]
    ring
  rw [ea, es] at h5
  rw [← hcb]
  exact h5

/-- Coverage and ramp where the row steps do not wrap. For every byte `v`,
`countBits v` is the number of set bits of `v`, at most 8. In
`fpath_end_fill_aa`, when the row and column bounds fit `uint16_t` and the
scanned width `colEnd - colBegin` exceeds neither the row size of the flag
bitmap nor that of the frame buffer,
for every scanned pixel (row `r`, column `c`) the coverage, `countBits` of
the XOR of the flag bytes of row `r` from column `colBegin` through `c`, is
at most 8, and the destination byte of the pixel holds `aaramp[coverage]`
when the coverage is positive and its value from before otherwise. -/
theorem aa_coverage_selects_ramp (fctx : FContext)
    (hy0 : 0 ≤ FIXED_TO_INT fctx.min.y) (hy1 : FIXED_TO_INT fctx.max.y + 2 < 65536)
    (hx0 : 0 ≤ FIXED_TO_INT fctx.min.x) (hx1 : FIXED_TO_INT fctx.max.x + 2 < 65536)
    (hs : fctx.flagBuffer.row_size_bytes < 65536)
    (hfs : fctx.frameBuffer.row_size_bytes < 65536)
    (hstride : FIXED_TO_INT fctx.max.x + 2 - FIXED_TO_INT fctx.min.x ≤
      fctx.flagBuffer.row_size_bytes)
    (hfb : FIXED_TO_INT fctx.max.x + 2 - FIXED_TO_INT fctx.min.x ≤
      fctx.frameBuffer.row_size_bytes) :
    (∀ v, v < 256 → countBits v = bit_count v ∧ countBits v ≤ 8) ∧
    ∀ r c : Int, FIXED_TO_INT fctx.min.y ≤ r → r < FIXED_TO_INT fctx.max.y + 2 →
      FIXED_TO_INT fctx.min.x ≤ c → c < FIXED_TO_INT fctx.max.x + 2 →
      coverage_aa fctx r c ≤ 8 ∧
      (fpath_end_fill_aa fctx).frameBuffer.data (r * fctx.frameBuffer.row_size_bytes + c) =
        if 0 < coverage_aa fctx r c then (ramp_in_use fctx).getD (coverage_aa fctx r c) 0
        else fctx.frameBuffer.data (r * fctx.frameBuffer.row_size_bytes + c) := by
  refine ⟨countBits_byte, ?_⟩
  intro r c hr0 hr1 hc0 hc1
  exact ⟨(countBits_byte _ (flag_bytes_xor_lt _ _ _)).2,
    end_fill_aa_pixels fctx hy0 hy1 hx0 hx1 hs hfs hstride hfb r c hr0 hr1 hc0 hc1⟩

theorem aa_coverage_selects_ramp_witness :
    coverage_aa one_flag_context 1 1 ≤ 8 ∧
    (fpath_end_fill_aa one_flag_context).frameBuffer.data
        (1 * one_flag_context.frameBuffer.row_size_bytes + 1) =
      if 0 < coverage_aa one_flag_context 1 1 then
        (ramp_in_use one_flag_context).getD (coverage_aa one_flag_context 1 1) 0
      else one_flag_context.frameBuffer.data
        (1 * one_flag_context.frameBuffer.row_size_bytes + 1) :=
  (aa_coverage_selects_ramp one_flag_context (by decide) (by decide) (by decide) (by decide)
    (by decide) (by decide) (by decide) (by decide)).2 1 1 (by decide) (by decide) (by decide)
    (by decide)

set_option maxRecDepth 100000 in
theorem thin_triangle_drawn :
    fpath_draw_filled_aa cos_zero sin_zero true (fpath_begin_fill_bw (blank_context_aa 2 2 2 3))
      thin_triangle_path = some thin_triangle_context := by
  rfl

set_option maxRecDepth 100000 in
/-- C17, the code at the failing input: a 2 by 2 surface whose flag bitmap
has 3-byte rows and whose frame buffer has 2-byte rows. After drawing the
transformed triangle (0,14), (32,14), (32,18), within `-2 < x ≤ 32` and
`-2 < y ≤ 32`, the scan covers the rows 0..2 and the columns 0..3;
for the scanned pixel of row 1, column 1 the XOR of the flag bytes of row 1
from column 0 through 1 has one set bit and `aaramp[1]` is 192, yet the byte
of that pixel still holds 0 after `fpath_end_fill_aa`: the `uint16_t` row step
`stride - (colEnd - colBegin) = 3 - 4` wraps to 65535, so that from row 1 on
the scan reads far outside the flag bytes. -/
theorem end_fill_aa_row_step_wraps :
    (fpath_draw_filled_aa cos_zero sin_zero true (fpath_begin_fill_bw (blank_context_aa 2 2 2 3))
        thin_triangle_path).map
      (fun c1 => (c1.min, c1.max, coverage_aa c1 1 1, (ramp_in_use c1).getD 1 0,
        c1.frameBuffer.data (1 * 2 + 1),
        (fpath_end_fill_aa c1).frameBuffer.data (1 * 2 + 1))) =
      some (⟨0, 14⟩, ⟨32, 18⟩, 1, 192, 0, 0) := by
  rw [thin_triangle_drawn]
  decide

set_option maxRecDepth 100000 in
/-- C18, the code at the failing input. On a 2 by 2 surface whose 3 by 3 flag
bitmap has 3-byte rows and is all zero, `fpath_begin_fill_bw`, one
`fpath_draw_filled_aa` of a triangle whose transformed points (0,14), (32,14),
(32,18) are within `-2 < x ≤ 32` and `-2 < y ≤ 32`, and `fpath_end_fill_aa`
leave the flag bytes at the offsets 4 and 5 (row 1, columns 1 and 2) set: the
scan has 4 columns, one more than a flag row has bytes, so the `uint16_t`
step `stride - (colEnd - colBegin)` wraps to 65535 and only the first row
scanned is cleared. -/
theorem aa_fill_leaves_flags_set :
    transformed_points_aa cos_zero sin_zero thin_triangle_path =
      [⟨0, 14⟩, ⟨32, 14⟩, ⟨32, 18⟩] ∧
    (fpath_draw_filled_aa cos_zero sin_zero true (fpath_begin_fill_bw (blank_context_aa 2 2 2 3))
        thin_triangle_path).map
      (fun c1 => (c1.flagBuffer.data 4, c1.flagBuffer.data 5,
        (fpath_end_fill_aa c1).flagBuffer.data 4, (fpath_end_fill_aa c1).flagBuffer.data 5)) =
      some (1, 1, 1, 1) := by
  rw [thin_triangle_drawn]
  refine ⟨by decide, by decide⟩


/-! ## Theorems: capacity zero and the angle test -/

/-- C21, the code at the failing input. On the builder that
`fpath_builder_create(0)` returns (`max_points = 0`, no slot allocated),
`fpath_builder_line_to_point` returns true and raises `num_points` to 1: the
guard compares `num_points` with `max_points - 1`, which on `uint32_t` is
4294967295, so the point is stored at index 0, which is not below
`max_points`. -/
theorem line_to_on_capacity_zero_stores :
    (fpath_builder_create true 0).map (fun b =>
      (b.max_points, b.num_points, b.points.length,
       (fpath_builder_line_to_point b ⟨16, 16⟩).1,
       (fpath_builder_line_to_point b ⟨16, 16⟩).2.num_points)) =
      some (0, 0, 0, true, 1) := by
  decide

theorem wrap_angle_of_lt (da : Int) (h : da < TRIG_MAX_ANGLE) : wrap_angle da = da := by
  unfold wrap_angle
  rw [if_neg (by omega)]

theorem natAbs_sub_lt (a b : Int) (ha0 : 0 ≤ a) (ha : a < TRIG_MAX_ANGLE) (hb0 : 0 ≤ b)
    (hb : b < TRIG_MAX_ANGLE) : ((Int.natAbs (a - b) : Nat) : Int) < TRIG_MAX_ANGLE := by
  unfold TRIG_MAX_ANGLE at *
  omega

/-- The wrap test of `recursive_bezier_fixed` never fires. For `atan2_lookup`
results in `[0, TRIG_MAX_ANGLE)` the two angular differences `da1` and `da2` of
`recursive_bezier_fixed` are the absolute differences of the chord directions:
the test `da >= TRIG_MAX_ANGLE` never holds, since an absolute difference of
two such directions is below `TRIG_MAX_ANGLE`, and nothing is folded into the
shorter arc. -/
theorem angle_difference_is_not_wrapped (atan2_lookup : Int → Int → Int)
    (hrange : ∀ y x, 0 ≤ atan2_lookup y x ∧ atan2_lookup y x < TRIG_MAX_ANGLE)
    (x1 y1 x2 y2 x3 y3 x4 y4 : Int) :
    bezier_da1 atan2_lookup x1 y1 x2 y2 x3 y3 =
      |chord_angle atan2_lookup (y3 - y2) (x3 - x2) -
        chord_angle atan2_lookup (y2 - y1) (x2 - x1)| ∧
    bezier_da2 atan2_lookup x2 y2 x3 y3 x4 y4 =
      |chord_angle atan2_lookup (y4 - y3) (x4 - x3) -
        chord_angle atan2_lookup (y3 - y2) (x3 - x2)| ∧
    bezier_da1 atan2_lookup x1 y1 x2 y2 x3 y3 < TRIG_MAX_ANGLE ∧
    bezier_da2 atan2_lookup x2 y2 x3 y3 x4 y4 < TRIG_MAX_ANGLE := by
  have h12 := hrange (toInt16 (Int.tdiv (y2 - y1) FIXED_POINT_SCALE))
    (toInt16 (Int.tdiv (x2 - x1) FIXED_POINT_SCALE))
  have h23 := hrange (toInt16 (Int.tdiv (y3 - y2) FIXED_POINT_SCALE))
    (toInt16 (Int.tdiv (x3 - x2) FIXED_POINT_SCALE))
  have h34 := hrange (toInt16 (Int.tdiv (y4 - y3) FIXED_POINT_SCALE))
    (toInt16 (Int.tdiv (x4 - x3) FIXED_POINT_SCALE))
  have l1 := natAbs_sub_lt _ _ h23.1 h23.2 h12.1 h12.2
  have l2 := natAbs_sub_lt _ _ h34.1 h34.2 h23.1 h23.2
  unfold bezier_da1 bezier_da2 chord_angle at *
  rw [wrap_angle_of_lt _ l1, wrap_angle_of_lt _ l2]
  refine ⟨?_, ?_, l1, l2⟩
  · rw [Int.natCast_natAbs]
  · rw [Int.natCast_natAbs]

theorem angle_difference_is_not_wrapped_witness :
    bezier_da1 atan2_near_axis 0 16 1600 0 3200 16 =
      |chord_angle atan2_near_axis (16 - 0) (3200 - 1600) -
        chord_angle atan2_near_axis (0 - 16) (1600 - 0)| ∧
    bezier_da1 atan2_near_axis 0 16 1600 0 3200 16 < TRIG_MAX_ANGLE :=
  have h := angle_difference_is_not_wrapped atan2_near_axis
    (fun y _ => by unfold atan2_near_axis TRIG_MAX_ANGLE; split <;> decide)
    0 16 1600 0 3200 16 3200 16
  ⟨h.1, h.2.2.1⟩

/-- C26, the code at the failing input: for a chord of direction 65000
followed by a chord of direction 100 the value `da1` that enters the test is
64900, above half a turn, where the shorter arc
`min(64900, TRIG_MAX_ANGLE - 64900)` is 636: the code folds `da` only when
`da >= TRIG_MAX_ANGLE`, which an absolute difference of two directions below
`TRIG_MAX_ANGLE` never reaches. -/
theorem angle_difference_across_zero :
    chord_angle atan2_near_axis (0 - 16) (1600 - 0) = 65000 ∧
    chord_angle atan2_near_axis (16 - 0) (3200 - 1600) = 100 ∧
    bezier_da1 atan2_near_axis 0 16 1600 0 3200 16 = 64900 ∧
    min (64900 : Int) (TRIG_MAX_ANGLE - 64900) = 636 ∧
    Int.tdiv TRIG_MAX_ANGLE 2 < bezier_da1 atan2_near_axis 0 16 1600 0 3200 16 := by
  decide

/-! ## Theorems: exactness of the DDA -/

theorem edge_step_inv_aa (top bottom : FPoint) (e : Edge) (h : EdgeInvAA top bottom e) :
    EdgeInvAA top bottom (edge_step e) := by
  obtain ⟨h1, h2, h3, h4, h5, h6, h7, h8⟩ := h
  simp only [edge_step]
  split
  · rename_i hge
    refine ⟨h1, h2, h3, h4, h5, ?_, ?_, ?_⟩
    · simp only; omega
    · simp only; omega
    · simp only
      linear_combination h8 + h5
  · rename_i hlt
    refine ⟨h1, h2, h3, h4, h5, ?_, ?_, ?_⟩
    · simp only; omega
    · simp only; omega
    · simp only
      linear_combination h8 + h5

theorem edge_inv_x_aa (top bottom : FPoint) (e : Edge) (h : EdgeInvAA top bottom e) :
    e.x = crossing_column_aa top bottom e.y := by
  obtain ⟨h1, h2, _, _, _, h6, h7, h8⟩ := h
  symm
  unfold crossing_column_aa
  rw [ceil_div_eq_iff _ _ _ h1]
  rw [h2] at h7 h8
  constructor
  · nlinarith
  · nlinarith

theorem edge_init_aa_spec (e0 : Edge) (top bottom : FPoint) (h : top.y ≤ bottom.y) :
    ∃ e, edge_init_aa e0 top bottom = some e ∧ e.y = ceil_div top.y 2 ∧
      e.height = ceil_div bottom.y 2 - ceil_div top.y 2 ∧ 0 ≤ e.height ∧
      (e.height ≠ 0 → EdgeInvAA top bottom e) := by
  have hmono := ceil_div_mono top.y bottom.y 2 (by norm_num) h
  unfold edge_init_aa
  simp only [fceil_aa_eq]
  split
  · rename_i hh
    have hlt : top.y < bottom.y := by
      rcases lt_or_eq_of_le h with h' | h'
      · exact h'
      · rw [h'] at hh; simp at hh
    have hD : 0 < (bottom.y - top.y) * 2 := by omega
    rw [floorDivMod_eq _ _ hD, floorDivMod_eq _ _ hD]
    refine ⟨_, rfl, rfl, rfl, by simp only; omega, ?_⟩
    intro _
    have hne : (bottom.y - top.y) * 2 ≠ 0 := ne_of_gt hD
    refine ⟨by omega, by simp only; ring, Int.emod_nonneg _ hne, Int.emod_lt_of_pos _ hD, ?_,
      Int.emod_nonneg _ hne, Int.emod_lt_of_pos _ hD, ?_⟩
    · simp only
      have := Int.ediv_add_emod ((bottom.x - top.x) * 2) ((bottom.y - top.y) * 2)
      linear_combination this
    · simp only
      have := Int.ediv_add_emod ((bottom.x - top.x) * 2 * ceil_div top.y 2
        - (bottom.x - top.x) * top.y + (bottom.y - top.y) * top.x - 1
        + (bottom.y - top.y) * 2) ((bottom.y - top.y) * 2)
      linear_combination this
  · rename_i hh
    have h0 : ceil_div bottom.y 2 - ceil_div top.y 2 = 0 := by
      by_contra hc; exact hh hc
    refine ⟨_, rfl, rfl, rfl, by simp only; omega, ?_⟩
    intro hne
    exact absurd h0 hne

theorem plot_edge_init_aa_eq (a b : FPoint) :
    plot_edge_init_aa a b = edge_init_aa Edge.uninit (edge_top a b) (edge_bottom a b) := by
  unfold plot_edge_init_aa edge_top edge_bottom
  split <;> rfl

theorem iterate_edge_step (top bottom : FPoint) (e : Edge) (he : EdgeInv top bottom e) :
    ∀ k : Nat, EdgeInv top bottom (edge_step^[k] e) ∧ (edge_step^[k] e).y = e.y + (k : Int) ∧
      (edge_step^[k] e).height = e.height - (k : Int) := by
  intro k
  induction k with
  | zero => exact ⟨he, by simp, by simp⟩
  | succ k ih =>
    rw [Function.iterate_succ_apply']
    refine ⟨edge_step_inv top bottom _ ih.1, ?_, ?_⟩
    · rw [edge_step_y, ih.2.1]; push_cast; ring
    · rw [edge_step_height, ih.2.2]; push_cast; ring

theorem iterate_edge_step_aa (top bottom : FPoint) (e : Edge) (he : EdgeInvAA top bottom e) :
    ∀ k : Nat, EdgeInvAA top bottom (edge_step^[k] e) ∧
      (edge_step^[k] e).y = e.y + (k : Int) ∧
      (edge_step^[k] e).height = e.height - (k : Int) := by
  intro k
  induction k with
  | zero => exact ⟨he, by simp, by simp⟩
  | succ k ih =>
    rw [Function.iterate_succ_apply']
    refine ⟨edge_step_inv_aa top bottom _ ih.1, ?_, ?_⟩
    · rw [edge_step_y, ih.2.1]; push_cast; ring
    · rw [edge_step_height, ih.2.2]; push_cast; ring

/-- C22. Exactness of the DDA: for `top.y < bottom.y` and a height
`h0 = ceil(bottom.y/16) - ceil(top.y/16) > 0`, `edge_init` returns, and after
`k ≤ h0` calls of `edge_step` the edge has `y = ceil(top.y/16) + k`,
`height = h0 - k` (0 exactly at `k = h0`), `0 ≤ errorTerm < denominator`, and
`x` is the ceiling of the exact intersection with scanline `y`,
`ceil((top.x * dN + (16 y - top.y) * dM) / (16 dN))`. The same holds for
`edge_init_aa` with 2 in place of 16. -/
theorem dda_is_exact (e0 : Edge) (top bottom : FPoint) (hlt : top.y < bottom.y) :
    (0 < ceil_div bottom.y 16 - ceil_div top.y 16 →
      ∃ e, edge_init e0 top bottom = some e ∧
        ∀ k : Nat, (k : Int) ≤ ceil_div bottom.y 16 - ceil_div top.y 16 →
          (edge_step^[k] e).y = ceil_div top.y 16 + (k : Int) ∧
          (edge_step^[k] e).height = ceil_div bottom.y 16 - ceil_div top.y 16 - (k : Int) ∧
          ((edge_step^[k] e).height = 0 ↔
            (k : Int) = ceil_div bottom.y 16 - ceil_div top.y 16) ∧
          0 ≤ (edge_step^[k] e).errorTerm ∧
          (edge_step^[k] e).errorTerm < (edge_step^[k] e).denominator ∧
          (edge_step^[k] e).x =
            ceil_div (top.x * (bottom.y - top.y) +
                (16 * (edge_step^[k] e).y - top.y) * (bottom.x - top.x))
              (16 * (bottom.y - top.y))) ∧
    (0 < ceil_div bottom.y 2 - ceil_div top.y 2 →
      ∃ e, edge_init_aa e0 top bottom = some e ∧
        ∀ k : Nat, (k : Int) ≤ ceil_div bottom.y 2 - ceil_div top.y 2 →
          (edge_step^[k] e).y = ceil_div top.y 2 + (k : Int) ∧
          (edge_step^[k] e).height = ceil_div bottom.y 2 - ceil_div top.y 2 - (k : Int) ∧
          ((edge_step^[k] e).height = 0 ↔
            (k : Int) = ceil_div bottom.y 2 - ceil_div top.y 2) ∧
          0 ≤ (edge_step^[k] e).errorTerm ∧
          (edge_step^[k] e).errorTerm < (edge_step^[k] e).denominator ∧
          (edge_step^[k] e).x =
            ceil_div (top.x * (bottom.y - top.y) +
                (2 * (edge_step^[k] e).y - top.y) * (bottom.x - top.x))
              (2 * (bottom.y - top.y))) := by
  constructor
  · intro hh
    obtain ⟨e, he, hy, hht, _, hinv⟩ := edge_init_spec e0 top bottom (le_of_lt hlt)
    refine ⟨e, he, ?_⟩
    intro k _
    obtain ⟨i1, i2, i3⟩ := iterate_edge_step top bottom e (hinv (by omega)) k
    refine ⟨by rw [i2, hy], by rw [i3, hht], by rw [i3, hht]; omega, i1.2.2.2.2.2.1,
      i1.2.2.2.2.2.2.1, ?_⟩
    exact edge_inv_x top bottom _ i1
  · intro hh
    obtain ⟨e, he, hy, hht, _, hinv⟩ := edge_init_aa_spec e0 top bottom (le_of_lt hlt)
    refine ⟨e, he, ?_⟩
    intro k _
    obtain ⟨i1, i2, i3⟩ := iterate_edge_step_aa top bottom e (hinv (by omega)) k
    refine ⟨by rw [i2, hy], by rw [i3, hht], by rw [i3, hht]; omega, i1.2.2.2.2.2.1,
      i1.2.2.2.2.2.2.1, ?_⟩
    exact edge_inv_x_aa top bottom _ i1

theorem dda_is_exact_witness :
    ∃ e, edge_init Edge.uninit ⟨0, 0⟩ ⟨24, 40⟩ = some e ∧
      (edge_step^[2] e).y = ceil_div 0 16 + 2 ∧
      (edge_step^[2] e).x =
        ceil_div ((0 : Int) * (40 - 0) + (16 * (edge_step^[2] e).y - 0) * (24 - 0))
          (16 * (40 - 0)) :=
  ((dda_is_exact Edge.uninit ⟨0, 0⟩ ⟨24, 40⟩ (by decide)).1 (by decide)).imp
    fun _ he => ⟨he.1, (he.2 2 (by decide)).1, (he.2 2 (by decide)).2.2.2.2.2⟩

/-- C23. For `top.y ≤ bottom.y`, `edge_init` returns with
`y = ceil(top.y/16)` and `height = ceil(bottom.y/16) - ceil(top.y/16) ≥ 0`;
when the height is not 0 then `bottom.y > top.y`, the denominator
`16 * (bottom.y - top.y)` handed to `floorDivMod` is positive and
`floorDivMod` does not fail. The same holds for `edge_init_aa` with 2. As
`fpath_plot_edge_bw` and `fpath_plot_edge_aa` hand over the point with the
smaller `y` as `top`, their `edge_init` calls return, with a height `≥ 0`, for
every pair of points. -/
theorem edge_init_height_nonneg (e0 : Edge) (top bottom : FPoint) (h : top.y ≤ bottom.y) :
    (∃ e, edge_init e0 top bottom = some e ∧ e.y = ceil_div top.y 16 ∧
      e.height = ceil_div bottom.y 16 - ceil_div top.y 16 ∧ 0 ≤ e.height ∧
      (e.height ≠ 0 → top.y < bottom.y ∧ 0 < (bottom.y - top.y) * 16 ∧
        ∀ n, floorDivMod n ((bottom.y - top.y) * 16) ≠ none)) ∧
    (∃ e, edge_init_aa e0 top bottom = some e ∧ e.y = ceil_div top.y 2 ∧
      e.height = ceil_div bottom.y 2 - ceil_div top.y 2 ∧ 0 ≤ e.height ∧
      (e.height ≠ 0 → top.y < bottom.y ∧ 0 < (bottom.y - top.y) * 2 ∧
        ∀ n, floorDivMod n ((bottom.y - top.y) * 2) ≠ none)) ∧
    (∀ a b : FPoint, ∃ e, plot_edge_init a b = some e ∧ 0 ≤ e.height) ∧
    (∀ a b : FPoint, ∃ e, plot_edge_init_aa a b = some e ∧ 0 ≤ e.height) := by
  refine ⟨?_, ?_, ?_, ?_⟩
  · obtain ⟨e, he, hy, hh, h0, hinv⟩ := edge_init_spec e0 top bottom h
    refine ⟨e, he, hy, hh, h0, ?_⟩
    intro hne
    have hd := (hinv hne).1
    refine ⟨by omega, by omega, ?_⟩
    intro n
    rw [floorDivMod_eq _ _ (by omega)]
    simp
  · obtain ⟨e, he, hy, hh, h0, hinv⟩ := edge_init_aa_spec e0 top bottom h
    refine ⟨e, he, hy, hh, h0, ?_⟩
    intro hne
    have hd := (hinv hne).1
    refine ⟨by omega, by omega, ?_⟩
    intro n
    rw [floorDivMod_eq _ _ (by omega)]
    simp
  · intro a b
    obtain ⟨e, he, _, _, h0, _⟩ :=
      edge_init_spec Edge.uninit (edge_top a b) (edge_bottom a b) (edge_top_le_bottom a b)
    exact ⟨e, by rw [plot_edge_init_eq]; exact he, h0⟩
  · intro a b
    obtain ⟨e, he, _, _, h0, _⟩ :=
      edge_init_aa_spec Edge.uninit (edge_top a b) (edge_bottom a b) (edge_top_le_bottom a b)
    exact ⟨e, by rw [plot_edge_init_aa_eq]; exact he, h0⟩

theorem edge_init_height_nonneg_witness :
    ∃ e, edge_init Edge.uninit ⟨0, 8⟩ ⟨24, 40⟩ = some e ∧ e.y = ceil_div 8 16 ∧
      e.height = ceil_div 40 16 - ceil_div 8 16 ∧ 0 ≤ e.height :=
  (edge_init_height_nonneg Edge.uninit ⟨0, 8⟩ ⟨24, 40⟩ (by decide)).1.imp
    fun _ he => ⟨he.1, he.2.1, he.2.2.1, he.2.2.2.1⟩

/-! ## Theorems: the flags that `fpath_plot_edge_bw` toggles -/

theorem plot_edge_bw_eq_toggles (fctx : FContext) (a b : FPoint) (e : Edge)
    (he : plot_edge_init a b = some e) :
    fpath_plot_edge_bw fctx a b =
      some { fctx with flagBuffer := { fctx.flagBuffer with
        data := (edge_positions e.height.toNat e).foldl
          (fun d p => toggle_flag_bw fctx.flagBuffer.row_size_bytes d p.1 p.2)
          fctx.flagBuffer.data } } := by
  unfold fpath_plot_edge_bw
  rw [he]
  simp only [plot_loop_bw_eq]

/-- C24. Flag-buffer bounds: for transformed points `a`, `b` with
`-16 < x ≤ 16 w` and `-16 < y ≤ 16 h`, `fpath_plot_edge_bw` returns and toggles
the flags of the positions `edge_positions`, and every such position
`(edge.x, edge.y)` has `0 ≤ edge.x ≤ w` and `0 ≤ edge.y ≤ h - 1`: its byte lies
within the `h + 1` rows of a flag bitmap whose rows hold `w + 1` bits. Column
`w` is reached: the edge from `(16 w, 0)` to `(16 w, 16)` toggles `(w, 0)`. -/
theorem plot_edge_bw_stays_in_flag_buffer (w h : Int) (a b : FPoint)
    (ha : PointInSurface w h a) (hb : PointInSurface w h b) :
    (∃ e, plot_edge_init a b = some e ∧
      (∀ fctx : FContext, fpath_plot_edge_bw fctx a b =
        some { fctx with flagBuffer := { fctx.flagBuffer with
          data := (edge_positions e.height.toNat e).foldl
            (fun d p => toggle_flag_bw fctx.flagBuffer.row_size_bytes d p.1 p.2)
            fctx.flagBuffer.data } }) ∧
      ∀ p ∈ edge_positions e.height.toNat e,
        0 ≤ p.1 ∧ p.1 ≤ w ∧ 0 ≤ p.2 ∧ p.2 ≤ h - 1 ∧
        ∀ stride : Int, w + 1 ≤ 8 * stride →
          0 ≤ flag_addr stride p.1 p.2 ∧ flag_addr stride p.1 p.2 < stride * (h + 1)) ∧
    (0 ≤ w → 1 ≤ h → PointInSurface w h ⟨16 * w, 0⟩ ∧ PointInSurface w h ⟨16 * w, 16⟩ ∧
      ∃ e, plot_edge_init ⟨16 * w, 0⟩ ⟨16 * w, 16⟩ = some e ∧
        edge_positions e.height.toNat e = [(w, 0)]) := by
  constructor
  · obtain ⟨e, he, h0, hh, hpos⟩ := plot_edge_positions a b
    refine ⟨e, he, fun fctx => plot_edge_bw_eq_toggles fctx a b e he, ?_⟩
    intro p hp
    rw [hpos, List.mem_map] at hp
    obtain ⟨k, hk, rfl⟩ := hp
    rw [List.mem_range] at hk
    have hk' : (k : Int) < e.height := by omega
    have hsp : spans_row a b (ceil_div (edge_top a b).y 16 + (k : Int)) = true := by
      rw [spans_row_iff]
      omega
    have hx := spanned_crossing_le a b _ w ⟨ha.1, ha.2.1⟩ ⟨hb.1, hb.2.1⟩ hsp
    have hty : -16 < (edge_top a b).y := by
      unfold edge_top; split
      · exact hb.2.2.1
      · exact ha.2.2.1
    have hby : (edge_bottom a b).y ≤ 16 * h := by
      unfold edge_bottom; split
      · exact ha.2.2.2
      · exact hb.2.2.2
    have c1 : 0 ≤ ceil_div (edge_top a b).y 16 := by
      rw [ceil_div_16]; omega
    have c2 : ceil_div (edge_bottom a b).y 16 ≤ h := by
      rw [ceil_div_16]; omega
    simp only
    refine ⟨hx.1, hx.2, by omega, by omega, ?_⟩
    intro stride hs
    unfold flag_addr
    rw [Int.tdiv_eq_ediv hx.1 (by norm_num)]
    have d1 : 0 ≤ crossing_column (edge_top a b) (edge_bottom a b)
        (ceil_div (edge_top a b).y 16 + (k : Int)) / 8 := by omega
    have d2 : crossing_column (edge_top a b) (edge_bottom a b)
        (ceil_div (edge_top a b).y 16 + (k : Int)) / 8 < stride := by omega
    have hy0 : 0 ≤ ceil_div (edge_top a b).y 16 + (k : Int) := by omega
    have hy1 : ceil_div (edge_top a b).y 16 + (k : Int) ≤ h - 1 := by omega
    have e1 : 0 ≤ (ceil_div (edge_top a b).y 16 + (k : Int)) * stride :=
      mul_nonneg hy0 (by omega)
    have e2 : 0 ≤ (h - 1 - (ceil_div (edge_top a b).y 16 + (k : Int))) * stride :=
      mul_nonneg (by omega) (by omega)
    constructor
    · omega
    · nlinarith
  · intro hw hh
    refine ⟨⟨by simp only; omega, by simp only; omega, by simp only; omega, by simp only; omega⟩,
      ⟨by simp only; omega, by simp only; omega, by simp only; omega, by simp only; omega⟩, ?_⟩
    obtain ⟨e, he, h0, hht, hpos⟩ := plot_edge_positions ⟨16 * w, 0⟩ ⟨16 * w, 16⟩
    refine ⟨e, he, ?_⟩
    have ht : edge_top ⟨16 * w, 0⟩ ⟨16 * w, 16⟩ = ⟨16 * w, 0⟩ := by
      unfold edge_top; rw [if_neg (by simp)]
    have hbm : edge_bottom ⟨16 * w, 0⟩ ⟨16 * w, 16⟩ = ⟨16 * w, 16⟩ := by
      unfold edge_bottom; rw [if_neg (by simp)]
    rw [ht, hbm] at hht hpos
    have c16 : ceil_div 16 16 = 1 := by decide
    have c0 : ceil_div 0 16 = 0 := by decide
    simp only [c16, c0] at hht hpos
    have hone : e.height.toNat = 1 := by omega
    rw [hpos, hone]
    have hcc : crossing_column ⟨16 * w, 0⟩ ⟨16 * w, 16⟩ 0 = w := by
      unfold crossing_column
      simp only [sub_self, mul_zero, add_zero, sub_zero]
      rw [ceil_div_mul_right (16 * w) 16 (by norm_num), ceil_div_16_mul]
    have hr : List.range 1 = [0] := rfl
    rw [hr]
    simp only [List.map_cons, List.map_nil, Nat.cast_zero, add_zero, hcc]

theorem plot_edge_bw_stays_in_flag_buffer_witness :
    ∃ e, plot_edge_init ⟨-8, 8⟩ ⟨64, 64⟩ = some e ∧
      ∀ p ∈ edge_positions e.height.toNat e,
        0 ≤ p.1 ∧ p.1 ≤ 4 ∧ 0 ≤ p.2 ∧ p.2 ≤ 4 - 1 :=
  (plot_edge_bw_stays_in_flag_buffer 4 4 ⟨-8, 8⟩ ⟨64, 64⟩
    (by unfold PointInSurface; decide) (by unfold PointInSurface; decide)).1.imp
    fun _ he => ⟨he.1, fun p hp =>
      ⟨(he.2.2 p hp).1, (he.2.2 p hp).2.1, (he.2.2 p hp).2.2.1, (he.2.2 p hp).2.2.2.1⟩⟩

/-! ## Theorems: termination of the curve flattening -/

theorem tdiv_2 (a : Int) : Int.tdiv a 2 = if 0 ≤ a then a / 2 else -((-a) / 2) := by
  split
  · rw [Int.tdiv_eq_ediv] <;> omega
  · rw [← neg_neg a, Int.neg_tdiv, Int.tdiv_eq_ediv]
    · simp
    · omega
    · omega

theorem mid_bounds (a b : Int) : 2 * mid a b ≤ a + b + 1 ∧ a + b ≤ 2 * mid a b + 1 := by
  unfold mid
  rw [tdiv_2]
  split <;> omega

theorem coord_shrink (D : Nat) (x1 x2 x3 x4 : Int) (hD : 16 ≤ D)
    (h1 : (x2 - x1).natAbs ≤ D) (h2 : (x3 - x2).natAbs ≤ D) (h3 : (x4 - x3).natAbs ≤ D) :
    (mid x1 x2 - x1).natAbs < D ∧
    (mid (mid x1 x2) (mid x2 x3) - mid x1 x2).natAbs < D ∧
    (mid (mid (mid x1 x2) (mid x2 x3)) (mid (mid x2 x3) (mid x3 x4)) -
      mid (mid x1 x2) (mid x2 x3)).natAbs < D ∧
    (mid (mid x2 x3) (mid x3 x4) -
      mid (mid (mid x1 x2) (mid x2 x3)) (mid (mid x2 x3) (mid x3 x4))).natAbs < D ∧
    (mid x3 x4 - mid (mid x2 x3) (mid x3 x4)).natAbs < D ∧
    (x4 - mid x3 x4).natAbs < D := by
  have m12 := mid_bounds x1 x2
  have m23 := mid_bounds x2 x3
  have m34 := mid_bounds x3 x4
  have m123 := mid_bounds (mid x1 x2) (mid x2 x3)
  have m234 := mid_bounds (mid x2 x3) (mid x3 x4)
  have m1234 := mid_bounds (mid (mid x1 x2) (mid x2 x3)) (mid (mid x2 x3) (mid x3 x4))
  generalize mid (mid (mid x1 x2) (mid x2 x3)) (mid (mid x2 x3) (mid x3 x4)) = x1234 at *
  generalize mid (mid x1 x2) (mid x2 x3) = x123 at *
  generalize mid (mid x2 x3) (mid x3 x4) = x234 at *
  generalize mid x1 x2 = x12 at *
  generalize mid x2 x3 = x23 at *
  generalize mid x3 x4 = x34 at *
  refine ⟨?_, ?_, ?_, ?_, ?_, ?_⟩ <;> omega

theorem control_span_le_iff (D : Nat) (x1 y1 x2 y2 x3 y3 x4 y4 : Int) :
    control_span x1 y1 x2 y2 x3 y3 x4 y4 ≤ D ↔
      ((x2 - x1).natAbs ≤ D ∧ (x3 - x2).natAbs ≤ D ∧ (x4 - x3).natAbs ≤ D) ∧
      ((y2 - y1).natAbs ≤ D ∧ (y3 - y2).natAbs ≤ D ∧ (y4 - y3).natAbs ≤ D) := by
  unfold control_span
  simp only [max_le_iff]
  tauto

theorem chord_angle_short (atan2_lookup : Int → Int → Int) (dy dx : Int)
    (hy : dy.natAbs < 16) (hx : dx.natAbs < 16) :
    chord_angle atan2_lookup dy dx = atan2_lookup 0 0 := by
  unfold chord_angle FIXED_POINT_SCALE
  have e1 : Int.tdiv dy 16 = 0 := by rw [tdiv_16]; split <;> omega
  have e2 : Int.tdiv dx 16 = 0 := by rw [tdiv_16]; split <;> omega
  rw [e1, e2]
  rfl

/-- Below a span of 16 the three chords have the arguments (0, 0), both
angular differences are 0 and the subdivision stops. -/
theorem bezier_flat_of_short (atan2_lookup : Int → Int → Int)
    (x1 y1 x2 y2 x3 y3 x4 y4 : Int) (h : control_span x1 y1 x2 y2 x3 y3 x4 y4 < 16) :
    chord_angle atan2_lookup (y2 - y1) (x2 - x1) = atan2_lookup 0 0 ∧
    chord_angle atan2_lookup (y3 - y2) (x3 - x2) = atan2_lookup 0 0 ∧
    chord_angle atan2_lookup (y4 - y3) (x4 - x3) = atan2_lookup 0 0 ∧
    bezier_da1 atan2_lookup x1 y1 x2 y2 x3 y3 = 0 ∧
    bezier_da2 atan2_lookup x2 y2 x3 y3 x4 y4 = 0 ∧
    bezier_flat atan2_lookup x1 y1 x2 y2 x3 y3 x4 y4 = true := by
  have hle := (control_span_le_iff 15 x1 y1 x2 y2 x3 y3 x4 y4).1 (by omega)
  obtain ⟨⟨a1, a2, a3⟩, b1, b2, b3⟩ := hle
  have c1 := chord_angle_short atan2_lookup (y2 - y1) (x2 - x1) (by omega) (by omega)
  have c2 := chord_angle_short atan2_lookup (y3 - y2) (x3 - x2) (by omega) (by omega)
  have c3 := chord_angle_short atan2_lookup (y4 - y3) (x4 - x3) (by omega) (by omega)
  have d1 : bezier_da1 atan2_lookup x1 y1 x2 y2 x3 y3 = 0 := by
    unfold bezier_da1
    rw [c1, c2, sub_self]
    rfl
  have d2 : bezier_da2 atan2_lookup x2 y2 x3 y3 x4 y4 = 0 := by
    unfold bezier_da2
    rw [c2, c3, sub_self]
    rfl
  refine ⟨c1, c2, c3, d1, d2, ?_⟩
  unfold bezier_flat
  rw [d1, d2]
  decide

theorem control_span_shrinks (x1 y1 x2 y2 x3 y3 x4 y4 : Int)
    (h : 16 ≤ control_span x1 y1 x2 y2 x3 y3 x4 y4) :
    control_span x1 y1 (mid x1 x2) (mid y1 y2) (mid (mid x1 x2) (mid x2 x3))
      (mid (mid y1 y2) (mid y2 y3))
      (mid (mid (mid x1 x2) (mid x2 x3)) (mid (mid x2 x3) (mid x3 x4)))
      (mid (mid (mid y1 y2) (mid y2 y3)) (mid (mid y2 y3) (mid y3 y4))) <
        control_span x1 y1 x2 y2 x3 y3 x4 y4 ∧
    control_span (mid (mid (mid x1 x2) (mid x2 x3)) (mid (mid x2 x3) (mid x3 x4)))
      (mid (mid (mid y1 y2) (mid y2 y3)) (mid (mid y2 y3) (mid y3 y4)))
      (mid (mid x2 x3) (mid x3 x4)) (mid (mid y2 y3) (mid y3 y4))
      (mid x3 x4) (mid y3 y4) x4 y4 <
        control_span x1 y1 x2 y2 x3 y3 x4 y4 := by
  generalize hD : control_span x1 y1 x2 y2 x3 y3 x4 y4 = D at *
  obtain ⟨⟨a1, a2, a3⟩, b1, b2, b3⟩ :=
    (control_span_le_iff D x1 y1 x2 y2 x3 y3 x4 y4).1 (le_of_eq hD)
  obtain ⟨p1, p2, p3, p4, p5, p6⟩ := coord_shrink D x1 x2 x3 x4 h a1 a2 a3
  obtain ⟨q1, q2, q3, q4, q5, q6⟩ := coord_shrink D y1 y2 y3 y4 h b1 b2 b3
  constructor
  · have := (control_span_le_iff (D - 1) x1 y1 (mid x1 x2) (mid y1 y2)
      (mid (mid x1 x2) (mid x2 x3)) (mid (mid y1 y2) (mid y2 y3))
      (mid (mid (mid x1 x2) (mid x2 x3)) (mid (mid x2 x3) (mid x3 x4)))
      (mid (mid (mid y1 y2) (mid y2 y3)) (mid (mid y2 y3) (mid y3 y4)))).2
      ⟨⟨by omega, by omega, by omega⟩, by omega, by omega, by omega⟩
    omega
  · have := (control_span_le_iff (D - 1)
      (mid (mid (mid x1 x2) (mid x2 x3)) (mid (mid x2 x3) (mid x3 x4)))
      (mid (mid (mid y1 y2) (mid y2 y3)) (mid (mid y2 y3) (mid y3 y4)))
      (mid (mid x2 x3) (mid x3 x4)) (mid (mid y2 y3) (mid y3 y4))
      (mid x3 x4) (mid y3 y4) x4 y4).2
      ⟨⟨by omega, by omega, by omega⟩, by omega, by omega, by omega⟩
    omega

theorem recursive_bezier_returns (atan2_lookup : Int → Int → Int) :
    ∀ (fuel : Nat) (builder : FPathBuilder) (x1 y1 x2 y2 x3 y3 x4 y4 : Int),
      control_span x1 y1 x2 y2 x3 y3 x4 y4 < fuel →
      ∃ r, recursive_bezier_fixed atan2_lookup fuel builder x1 y1 x2 y2 x3 y3 x4 y4 = some r := by
  intro fuel
  induction fuel with
  | zero => intro _ _ _ _ _ _ _ _ _ h; omega
  | succ fuel ih =>
    intro builder x1 y1 x2 y2 x3 y3 x4 y4 h
    simp only [recursive_bezier_fixed]
    by_cases hflat : bezier_flat atan2_lookup x1 y1 x2 y2 x3 y3 x4 y4 = true
    · rw [if_pos hflat]
      exact ⟨_, rfl⟩
    · rw [if_neg hflat]
      have h16 : 16 ≤ control_span x1 y1 x2 y2 x3 y3 x4 y4 := by
        by_contra hc
        exact hflat (bezier_flat_of_short atan2_lookup x1 y1 x2 y2 x3 y3 x4 y4
          (by omega)).2.2.2.2.2
      obtain ⟨s1, s2⟩ := control_span_shrinks x1 y1 x2 y2 x3 y3 x4 y4 h16
      obtain ⟨r1, hr1⟩ := ih builder x1 y1 (mid x1 x2) (mid y1 y2)
        (mid (mid x1 x2) (mid x2 x3)) (mid (mid y1 y2) (mid y2 y3))
        (mid (mid (mid x1 x2) (mid x2 x3)) (mid (mid x2 x3) (mid x3 x4)))
        (mid (mid (mid y1 y2) (mid y2 y3)) (mid (mid y2 y3) (mid y3 y4))) (by omega)
      rw [hr1]
      rcases r1 with ⟨f1, b1⟩
      cases f1 with
      | false => exact ⟨_, rfl⟩
      | true =>
        obtain ⟨r2, hr2⟩ := ih b1
          (mid (mid (mid x1 x2) (mid x2 x3)) (mid (mid x2 x3) (mid x3 x4)))
          (mid (mid (mid y1 y2) (mid y2 y3)) (mid (mid y2 y3) (mid y3 y4)))
          (mid (mid x2 x3) (mid x3 x4)) (mid (mid y2 y3) (mid y3 y4))
          (mid x3 x4) (mid y3 y4) x4 y4 (by omega)
        simp only [hr2]
        rcases r2 with ⟨f2, b2⟩
        cases f2 <;> exact ⟨_, rfl⟩

theorem recursive_bezier_fuel_mono (atan2_lookup : Int → Int → Int) :
    ∀ (fuel : Nat) (builder : FPathBuilder) (x1 y1 x2 y2 x3 y3 x4 y4 : Int)
      (r : Bool × FPathBuilder),
      recursive_bezier_fixed atan2_lookup fuel builder x1 y1 x2 y2 x3 y3 x4 y4 = some r →
      recursive_bezier_fixed atan2_lookup (fuel + 1) builder x1 y1 x2 y2 x3 y3 x4 y4 =
        some r := by
  intro fuel
  induction fuel with
  | zero => intro _ _ _ _ _ _ _ _ _ _ h; simp [recursive_bezier_fixed] at h
  | succ fuel ih =>
    intro builder x1 y1 x2 y2 x3 y3 x4 y4 r h
    rw [recursive_bezier_fixed] at h ⊢
    split at h
    · rename_i hflat
      rw [if_pos hflat]
      exact h
    · rename_i hflat
      rw [if_neg hflat]
      split at h
      · exact absurd h (by simp)
      · rename_i b1 hr1
        rw [ih _ _ _ _ _ _ _ _ _ _ hr1]
        exact h
      · rename_i b1 hr1
        rw [ih _ _ _ _ _ _ _ _ _ _ hr1]
        simp only
        split at h
        · exact absurd h (by simp)
        · rename_i b2 hr2
          rw [ih _ _ _ _ _ _ _ _ _ _ hr2]
          exact h
        · rename_i b2 hr2
          rw [ih _ _ _ _ _ _ _ _ _ _ hr2]
          exact h

theorem recursive_bezier_fuel_le (atan2_lookup : Int → Int → Int)
    (builder : FPathBuilder) (x1 y1 x2 y2 x3 y3 x4 y4 : Int) (r : Bool × FPathBuilder)
    (fuel : Nat)
    (h : recursive_bezier_fixed atan2_lookup fuel builder x1 y1 x2 y2 x3 y3 x4 y4 = some r) :
    ∀ fuel1, fuel ≤ fuel1 →
      recursive_bezier_fixed atan2_lookup fuel1 builder x1 y1 x2 y2 x3 y3 x4 y4 = some r := by
  intro fuel1 hle
  induction fuel1, hle using Nat.le_induction with
  | base => exact h
  | succ n _ ih => exact recursive_bezier_fuel_mono atan2_lookup n _ _ _ _ _ _ _ _ _ _ ih

/-- C25. Termination of curve flattening: `max_angle_tolerance` is positive,
and for every builder, every `atan2_lookup` and every four control points
`recursive_bezier_fixed` returns, with one and the same result for every bound
on the recursion depth above `control_span`, the largest coordinate difference
between consecutive control points; the bound does not depend on the builder.
While the span is at least 16 both halves of a subdivision have a smaller
span; below 16 the three chords have the `atan2_lookup` arguments (0, 0),
`da1 = da2 = 0`, and the call stops with one `fpath_builder_line_to_point`. -/
theorem curve_flattening_terminates (atan2_lookup : Int → Int → Int) (builder : FPathBuilder)
    (x1 y1 x2 y2 x3 y3 x4 y4 : Int) :
    0 < max_angle_tolerance ∧
    (∃ r, ∀ fuel, control_span x1 y1 x2 y2 x3 y3 x4 y4 < fuel →
      recursive_bezier_fixed atan2_lookup fuel builder x1 y1 x2 y2 x3 y3 x4 y4 = some r) ∧
    (16 ≤ control_span x1 y1 x2 y2 x3 y3 x4 y4 →
      control_span x1 y1 (mid x1 x2) (mid y1 y2) (mid (mid x1 x2) (mid x2 x3))
        (mid (mid y1 y2) (mid y2 y3))
        (mid (mid (mid x1 x2) (mid x2 x3)) (mid (mid x2 x3) (mid x3 x4)))
        (mid (mid (mid y1 y2) (mid y2 y3)) (mid (mid y2 y3) (mid y3 y4))) <
          control_span x1 y1 x2 y2 x3 y3 x4 y4 ∧
      control_span (mid (mid (mid x1 x2) (mid x2 x3)) (mid (mid x2 x3) (mid x3 x4)))
        (mid (mid (mid y1 y2) (mid y2 y3)) (mid (mid y2 y3) (mid y3 y4)))
        (mid (mid x2 x3) (mid x3 x4)) (mid (mid y2 y3) (mid y3 y4))
        (mid x3 x4) (mid y3 y4) x4 y4 <
          control_span x1 y1 x2 y2 x3 y3 x4 y4) ∧
    (control_span x1 y1 x2 y2 x3 y3 x4 y4 < 16 →
      chord_angle atan2_lookup (y2 - y1) (x2 - x1) = atan2_lookup 0 0 ∧
      chord_angle atan2_lookup (y3 - y2) (x3 - x2) = atan2_lookup 0 0 ∧
      chord_angle atan2_lookup (y4 - y3) (x4 - x3) = atan2_lookup 0 0 ∧
      bezier_da1 atan2_lookup x1 y1 x2 y2 x3 y3 = 0 ∧
      bezier_da2 atan2_lookup x2 y2 x3 y3 x4 y4 = 0 ∧
      ∀ fuel, recursive_bezier_fixed atan2_lookup (fuel + 1) builder
          x1 y1 x2 y2 x3 y3 x4 y4 =
        some (fpath_builder_line_to_point builder
          (bezier_midpoint ⟨x1, y1⟩ ⟨x2, y2⟩ ⟨x3, y3⟩ ⟨x4, y4⟩))) := by
  refine ⟨by decide, ?_, control_span_shrinks x1 y1 x2 y2 x3 y3 x4 y4, ?_⟩
  · obtain ⟨r, hr⟩ := recursive_bezier_returns atan2_lookup
      (control_span x1 y1 x2 y2 x3 y3 x4 y4 + 1) builder x1 y1 x2 y2 x3 y3 x4 y4 (by omega)
    exact ⟨r, fun fuel hf =>
      recursive_bezier_fuel_le atan2_lookup builder _ _ _ _ _ _ _ _ r _ hr fuel (by omega)⟩
  · intro hs
    obtain ⟨c1, c2, c3, d1, d2, hflat⟩ :=
      bezier_flat_of_short atan2_lookup x1 y1 x2 y2 x3 y3 x4 y4 hs
    refine ⟨c1, c2, c3, d1, d2, ?_⟩
    intro fuel
    simp only [recursive_bezier_fixed]
    rw [if_pos hflat]
    rfl

/-! ## Theorems: the colour ramp stays fresh -/

theorem same_ramp_fresh (c c1 : FContext) (h : SameRamp c c1) (hf : RampFresh c) :
    RampFresh c1 := by
  obtain ⟨h1, h2, h3, h4⟩ := h
  unfold RampFresh fpath_calc_ramp_aa at *
  rw [h1, h2, h3, h4]
  exact hf

theorem foldl_grow_bounds_same_ramp :
    ∀ (qs : List FPoint) (c : FContext), SameRamp c (qs.foldl grow_bounds c) := by
  intro qs
  induction qs with
  | nil => intro c; exact ⟨rfl, rfl, rfl, rfl⟩
  | cons q qs ih =>
    intro c
    rw [List.foldl_cons]
    obtain ⟨h1, h2, h3, h4⟩ := ih (grow_bounds c q)
    exact ⟨h1, h2, h3, h4⟩

theorem plot_edge_aa_same_ramp (fctx : FContext) (a b : FPoint) :
    ∃ fctx1, fpath_plot_edge_aa fctx a b = some fctx1 ∧ SameRamp fctx fctx1 := by
  obtain ⟨e, he, _⟩ :=
    edge_init_aa_spec Edge.uninit (edge_top a b) (edge_bottom a b) (edge_top_le_bottom a b)
  rw [← plot_edge_init_aa_eq] at he
  unfold fpath_plot_edge_aa
  rw [he]
  exact ⟨_, rfl, rfl, rfl, rfl, rfl⟩

theorem plot_edges_aa_same_ramp (n : Nat) (points : List FPoint) :
    ∀ (ks : List Nat) (fctx : FContext),
      ∃ fctx1, plot_edges_aa n points ks fctx = some fctx1 ∧ SameRamp fctx fctx1 := by
  intro ks
  induction ks with
  | nil => intro fctx; exact ⟨fctx, rfl, rfl, rfl, rfl, rfl⟩
  | cons k ks ih =>
    intro fctx
    obtain ⟨c1, hc1, s1⟩ := plot_edge_aa_same_ramp fctx (points.getD k FPointZero)
      (points.getD ((k + 1) % n) FPointZero)
    obtain ⟨c2, hc2, s2⟩ := ih c1
    refine ⟨c2, ?_, ?_⟩
    · simp only [plot_edges_aa, hc1]
      exact hc2
    · exact ⟨s2.1.trans s1.1, s2.2.1.trans s1.2.1, s2.2.2.1.trans s1.2.2.1,
        s2.2.2.2.trans s1.2.2.2⟩

/-- `fpath_draw_filled_aa` returns and leaves the colours and the ramp
alone. -/
theorem draw_filled_aa_same_ramp (cos_lookup sin_lookup : Int → Int) (malloc_ok : Bool)
    (fctx : FContext) (fpath : FPath) :
    ∃ fctx1, fpath_draw_filled_aa cos_lookup sin_lookup malloc_ok fctx fpath = some fctx1 ∧
      SameRamp fctx fctx1 := by
  unfold fpath_draw_filled_aa
  cases malloc_ok with
  | false => exact ⟨fctx, rfl, rfl, rfl, rfl, rfl⟩
  | true =>
    simp only [if_true]
    obtain ⟨c2, hc2, s2⟩ := plot_edges_aa_same_ramp fpath.num_points
      (transformed_points_aa cos_lookup sin_lookup fpath) (List.range fpath.num_points)
      ((transformed_points_aa cos_lookup sin_lookup fpath).foldl grow_bounds fctx)
    have s1 := foldl_grow_bounds_same_ramp
      (transformed_points_aa cos_lookup sin_lookup fpath) fctx
    exact ⟨c2, hc2, s2.1.trans s1.1, s2.2.1.trans s1.2.1, s2.2.2.1.trans s1.2.2.1,
      s2.2.2.2.trans s1.2.2.2⟩

theorem end_fill_aa_fresh (fctx : FContext) (hf : RampFresh fctx) :
    RampFresh (fpath_end_fill_aa fctx) := by
  right
  unfold fpath_end_fill_aa
  simp only
  by_cases hd : fctx.aarampDirty = true
  · rw [if_pos hd]
    rfl
  · rw [if_neg hd]
    rcases hf with h | h
    · exact absurd h hd
    · exact h

theorem run_call_aa_fresh (cos_lookup sin_lookup : Int → Int) (fctx : FContext)
    (call : AACall) (hf : RampFresh fctx) :
    ∃ fctx1, run_call_aa cos_lookup sin_lookup fctx call = some fctx1 ∧ RampFresh fctx1 := by
  cases call with
  | set_stroke_color c => exact ⟨_, rfl, Or.inl rfl⟩
  | set_fill_color c => exact ⟨_, rfl, Or.inl rfl⟩
  | begin_fill => exact ⟨_, rfl, same_ramp_fresh fctx _ ⟨rfl, rfl, rfl, rfl⟩ hf⟩
  | draw_filled malloc_ok fpath =>
    obtain ⟨c1, hc1, s1⟩ :=
      draw_filled_aa_same_ramp cos_lookup sin_lookup malloc_ok fctx fpath
    exact ⟨c1, hc1, same_ramp_fresh fctx c1 s1 hf⟩
  | end_fill => exact ⟨_, rfl, end_fill_aa_fresh fctx hf⟩

theorem run_calls_aa_fresh (cos_lookup sin_lookup : Int → Int) :
    ∀ (calls : List AACall) (fctx : FContext), RampFresh fctx →
      ∃ fctx1, run_calls_aa cos_lookup sin_lookup fctx calls = some fctx1 ∧
        RampFresh fctx1 := by
  intro calls
  induction calls with
  | nil => intro fctx hf; exact ⟨fctx, rfl, hf⟩
  | cons call rest ih =>
    intro fctx hf
    obtain ⟨c1, hc1, f1⟩ := run_call_aa_fresh cos_lookup sin_lookup fctx call hf
    obtain ⟨c2, hc2, f2⟩ := ih c1 f1
    refine ⟨c2, ?_, f2⟩
    simp only [run_calls_aa, hc1]
    exact hc2

theorem ramp_in_use_of_fresh (fctx : FContext) (hf : RampFresh fctx) :
    ramp_in_use fctx = (fpath_calc_ramp_aa fctx).aaramp := by
  unfold ramp_in_use
  by_cases hd : fctx.aarampDirty = true
  · rw [if_pos hd]
  · rw [if_neg hd]
    rcases hf with h | h
    · exact absurd h hd
    · exact h

/-- C27. Ramp freshness: from a context that `fpath_init_context_aa`
initialised, every finite sequence of `fpath_set_stroke_color`,
`fpath_set_fill_color`, `fpath_begin_fill_bw`, `fpath_draw_filled_aa` and
`fpath_end_fill_aa` calls returns and leaves a context in which `aarampDirty`
is true or `aaramp` is the ramp that `fpath_calc_ramp_aa` computes from the
current colours; so the ramp that a following `fpath_end_fill_aa` reads is
that ramp, with the current stroke colour at index 0 and the current fill
colour at index 8. -/
theorem ramp_stays_fresh (cos_lookup sin_lookup : Int → Int) (fctx0 : FContext)
    (frameBuffer : GBitmap) (flag_stride : Int) (calls : List AACall) :
    ∃ fctx, run_calls_aa cos_lookup sin_lookup
        (fpath_init_context_aa fctx0 frameBuffer flag_stride) calls = some fctx ∧
      (fctx.aarampDirty = true ∨ fctx.aaramp = (fpath_calc_ramp_aa fctx).aaramp) ∧
      ramp_in_use fctx = (fpath_calc_ramp_aa fctx).aaramp ∧
      (ramp_in_use fctx).getD 0 0 = fctx.strokeColor ∧
      (ramp_in_use fctx).getD 8 0 = fctx.fillColor := by
  obtain ⟨c, hc, hf⟩ := run_calls_aa_fresh cos_lookup sin_lookup calls
    (fpath_init_context_aa fctx0 frameBuffer flag_stride) (Or.inl rfl)
  have hr := ramp_in_use_of_fresh c hf
  refine ⟨c, hc, hf, hr, ?_, ?_⟩
  · rw [hr]; rfl
  · rw [hr]; rfl

/-! ## Theorems: the bounding box of a fill -/

theorem plot_edges_bw_returns (n : Nat) (points : List FPoint) :
    ∀ (ks : List Nat) (fctx : FContext),
      ∃ fctx1, plot_edges_bw n points ks fctx = some fctx1 := by
  intro ks
  induction ks with
  | nil => intro fctx; exact ⟨fctx, rfl⟩
  | cons k ks ih =>
    intro fctx
    obtain ⟨e, he, _⟩ := plot_edge_positions (points.getD k FPointZero)
      (points.getD ((k + 1) % n) FPointZero)
    obtain ⟨c2, hc2⟩ := ih { fctx with flagBuffer := { fctx.flagBuffer with
      data := plot_loop_bw fctx.flagBuffer.row_size_bytes e.height.toNat
        fctx.flagBuffer.data e } }
    refine ⟨c2, ?_⟩
    simp only [plot_edges_bw, fpath_plot_edge_bw, he]
    exact hc2

/-- The box after the loop that grows it: it contains the box before, and
each of its four sides is a side of the box before or passes through a
point visited. -/
theorem foldl_grow_bounds_tight :
    ∀ (qs : List FPoint) (c : FContext),
      ((qs.foldl grow_bounds c).min.x = c.min.x ∨ ∃ q ∈ qs, q.x = (qs.foldl grow_bounds c).min.x) ∧
      ((qs.foldl grow_bounds c).min.y = c.min.y ∨ ∃ q ∈ qs, q.y = (qs.foldl grow_bounds c).min.y) ∧
      ((qs.foldl grow_bounds c).max.x = c.max.x ∨ ∃ q ∈ qs, q.x = (qs.foldl grow_bounds c).max.x) ∧
      ((qs.foldl grow_bounds c).max.y = c.max.y ∨ ∃ q ∈ qs, q.y = (qs.foldl grow_bounds c).max.y) := by
  intro qs
  induction qs with
  | nil => intro c; exact ⟨Or.inl rfl, Or.inl rfl, Or.inl rfl, Or.inl rfl⟩
  | cons q qs ih =>
    intro c
    rw [List.foldl_cons]
    obtain ⟨i1, i2, i3, i4⟩ := ih (grow_bounds c q)
    refine ⟨?_, ?_, ?_, ?_⟩
    · rcases i1 with h | ⟨q1, hq1, h⟩
      · by_cases hlt : q.x < c.min.x
        · right
          refine ⟨q, List.mem_cons_self _ _, ?_⟩
          rw [h]
          simp only [grow_bounds, if_pos hlt]
        · left
          rw [h]
          simp only [grow_bounds, if_neg hlt]
      · exact Or.inr ⟨q1, List.mem_cons_of_mem _ hq1, h⟩
    · rcases i2 with h | ⟨q1, hq1, h⟩
      · by_cases hlt : q.y < c.min.y
        · right
          refine ⟨q, List.mem_cons_self _ _, ?_⟩
          rw [h]
          simp only [grow_bounds, if_pos hlt]
        · left
          rw [h]
          simp only [grow_bounds, if_neg hlt]
      · exact Or.inr ⟨q1, List.mem_cons_of_mem _ hq1, h⟩
    · rcases i3 with h | ⟨q1, hq1, h⟩
      · by_cases hlt : q.x > c.max.x
        · right
          refine ⟨q, List.mem_cons_self _ _, ?_⟩
          rw [h]
          simp only [grow_bounds, if_pos hlt]
        · left
          rw [h]
          simp only [grow_bounds, if_neg hlt]
      · exact Or.inr ⟨q1, List.mem_cons_of_mem _ hq1, h⟩
    · rcases i4 with h | ⟨q1, hq1, h⟩
      · by_cases hlt : q.y > c.max.y
        · right
          refine ⟨q, List.mem_cons_self _ _, ?_⟩
          rw [h]
          simp only [grow_bounds, if_pos hlt]
        · left
          rw [h]
          simp only [grow_bounds, if_neg hlt]
      · exact Or.inr ⟨q1, List.mem_cons_of_mem _ hq1, h⟩

/-- C28, as the code has it. `fpath_begin_fill_bw` seeds `min` with the far
corner of the flag bitmap and `max` with its origin; after
`fpath_draw_filled_bw` of a path with at least one point whose transformed
points lie strictly inside the `w` by `h` surface, the box is the extent of
those points: it contains them all, each of its four sides passes through
one of them, and so it lies strictly inside the surface. The rows and
columns that `fpath_end_fill_bw` scans are those of this box. -/
theorem fill_box_is_extent_of_points (cos_lookup sin_lookup : Int → Int) (w h : Int)
    (fctx : FContext) (fpath : FPath)
    (hbounds : fctx.flagBuffer.bounds = ⟨0, 0, w + 1, h + 1⟩)
    (hn : 1 ≤ fpath.num_points)
    (hpts : ∀ q ∈ transformed_points_bw cos_lookup sin_lookup fpath,
      0 < q.x ∧ q.x < 16 * w ∧ 0 < q.y ∧ q.y < 16 * h) :
    (fpath_begin_fill_bw fctx).min = ⟨16 * (w + 1), 16 * (h + 1)⟩ ∧
    (fpath_begin_fill_bw fctx).max = ⟨0, 0⟩ ∧
    ∃ fctx1, fpath_draw_filled_bw cos_lookup sin_lookup true (fpath_begin_fill_bw fctx) fpath
        = some fctx1 ∧
      (∀ q ∈ transformed_points_bw cos_lookup sin_lookup fpath,
        fctx1.min.x ≤ q.x ∧ q.x ≤ fctx1.max.x ∧ fctx1.min.y ≤ q.y ∧ q.y ≤ fctx1.max.y) ∧
      (∃ q ∈ transformed_points_bw cos_lookup sin_lookup fpath, q.x = fctx1.min.x) ∧
      (∃ q ∈ transformed_points_bw cos_lookup sin_lookup fpath, q.y = fctx1.min.y) ∧
      (∃ q ∈ transformed_points_bw cos_lookup sin_lookup fpath, q.x = fctx1.max.x) ∧
      (∃ q ∈ transformed_points_bw cos_lookup sin_lookup fpath, q.y = fctx1.max.y) ∧
      0 < fctx1.min.x ∧ 0 < fctx1.min.y ∧ fctx1.max.x < 16 * w ∧ fctx1.max.y < 16 * h := by
  have hmin : (fpath_begin_fill_bw fctx).min = ⟨16 * (w + 1), 16 * (h + 1)⟩ := by
    simp only [fpath_begin_fill_bw, hbounds, INT_TO_FIXED, FIXED_POINT_SCALE]
    congr 1 <;> ring
  have hmax : (fpath_begin_fill_bw fctx).max = ⟨0, 0⟩ := by
    simp [fpath_begin_fill_bw, hbounds, INT_TO_FIXED]
  refine ⟨hmin, hmax, ?_⟩
  obtain ⟨c1, hc1⟩ := plot_edges_bw_returns fpath.num_points
    (transformed_points_bw cos_lookup sin_lookup fpath) (List.range fpath.num_points)
    ((transformed_points_bw cos_lookup sin_lookup fpath).foldl grow_bounds
      (fpath_begin_fill_bw fctx))
  have hbox := plot_edges_bw_box _ _ _ _ _ hc1
  obtain ⟨_, g2, _, _, _⟩ := foldl_grow_bounds_spec w h
    (transformed_points_bw cos_lookup sin_lookup fpath) (fpath_begin_fill_bw fctx)
  obtain ⟨t1, t2, t3, t4⟩ := foldl_grow_bounds_tight
    (transformed_points_bw cos_lookup sin_lookup fpath) (fpath_begin_fill_bw fctx)
  rw [← hbox.1, hmin] at t1 t2
  rw [← hbox.2, hmax] at t3 t4
  have hlen := transformed_points_bw_length cos_lookup sin_lookup fpath
  have hq0 := getD_mem_of_lt (transformed_points_bw cos_lookup sin_lookup fpath) 0
    (by rw [hlen]; omega)
  have hc := fun q hq => by
    have := g2 q hq
    unfold BoxContains at this
    rw [← hbox.1, ← hbox.2] at this
    exact this
  have hb0 := hc _ hq0
  have hp0 := hpts _ hq0
  have e1 : ∃ q ∈ transformed_points_bw cos_lookup sin_lookup fpath, q.x = c1.min.x := by
    rcases t1 with h1 | h1
    · simp only at h1; omega
    · exact h1
  have e2 : ∃ q ∈ transformed_points_bw cos_lookup sin_lookup fpath, q.y = c1.min.y := by
    rcases t2 with h1 | h1
    · simp only at h1; omega
    · exact h1
  have e3 : ∃ q ∈ transformed_points_bw cos_lookup sin_lookup fpath, q.x = c1.max.x := by
    rcases t3 with h1 | h1
    · simp only at h1; omega
    · exact h1
  have e4 : ∃ q ∈ transformed_points_bw cos_lookup sin_lookup fpath, q.y = c1.max.y := by
    rcases t4 with h1 | h1
    · simp only at h1; omega
    · exact h1
  refine ⟨c1, ?_, hc, e1, e2, e3, e4, ?_, ?_, ?_, ?_⟩
  · unfold fpath_draw_filled_bw
    simp only [if_true]
    exact hc1
  · obtain ⟨q, hq, h1⟩ := e1
    have := hpts q hq
    omega
  · obtain ⟨q, hq, h1⟩ := e2
    have := hpts q hq
    omega
  · obtain ⟨q, hq, h1⟩ := e3
    have := hpts q hq
    omega
  · obtain ⟨q, hq, h1⟩ := e4
    have := hpts q hq
    omega

theorem fill_box_is_extent_of_points_witness :
    ∃ fctx1, fpath_draw_filled_bw cos_zero sin_zero true
        (fpath_begin_fill_bw (blank_context 4 4 4 1 1)) square_path = some fctx1 ∧
      0 < fctx1.min.x ∧ 0 < fctx1.min.y ∧ fctx1.max.x < 16 * 4 ∧ fctx1.max.y < 16 * 4 :=
  (fill_box_is_extent_of_points cos_zero sin_zero 4 4 (blank_context 4 4 4 1 1) square_path
    rfl (by decide)
    (by
      intro q hq
      rw [square_path_points] at hq
      simp only [List.mem_cons, List.mem_singleton, List.not_mem_nil, or_false] at hq
      rcases hq with h | h | h | h <;> subst h <;> decide)).2.2.imp
    fun _ he => ⟨he.1, he.2.2.2.2.2.2⟩

set_option maxRecDepth 100000 in
/-- C28 fails as stated: on a blank 4 by 4 surface the square with the
transformed corners (16,16) and (48,48) lies strictly inside, and after
`fpath_begin_fill_bw` (which sets `min` to (80,80) and `max` to (0,0)) and
`fpath_draw_filled_bw` the box is `min = (16,16)`, `max = (48,48)`, neither the
origin nor the far corner; `fpath_end_fill_bw` then scans the rows 1..3 and
the columns 1..4, not row 0 nor column 0. -/
theorem fill_box_shrinks_to_path :
    transformed_points_bw cos_zero sin_zero square_path =
      [⟨16, 16⟩, ⟨48, 16⟩, ⟨48, 48⟩, ⟨16, 48⟩] ∧
    (fpath_begin_fill_bw (blank_context 4 4 4 1 1)).min = ⟨80, 80⟩ ∧
    (fpath_begin_fill_bw (blank_context 4 4 4 1 1)).max = ⟨0, 0⟩ ∧
    (fpath_draw_filled_bw cos_zero sin_zero true
        (fpath_begin_fill_bw (blank_context 4 4 4 1 1)) square_path).map
      (fun c1 => (c1.min, c1.max,
        toUInt16 (FIXED_TO_INT c1.min.y), toUInt16 (FIXED_TO_INT c1.max.y + 1),
        toUInt16 (FIXED_TO_INT c1.min.x), toUInt16 (FIXED_TO_INT c1.max.x + 1))) =
      some (⟨16, 16⟩, ⟨48, 48⟩, 1, 4, 1, 4) := by
  refine ⟨by decide, by decide, by decide, by decide⟩

/-! ## Theorems: closed-polygon parity -/

theorem countP_range_eq (t r : Int) :
    ∀ H : Nat, (List.range H).countP (fun (k : Nat) => decide (t + (k : Int) = r)) =
      if t ≤ r ∧ r < t + (H : Int) then 1 else 0 := by
  intro H
  induction H with
  | zero =>
    rw [if_neg (by push_cast; omega)]
    rfl
  | succ H ih =>
    rw [List.range_succ, List.countP_append, ih]
    simp only [List.countP_cons, List.countP_nil, zero_add, decide_eq_true_eq]
    by_cases h1 : t ≤ r ∧ r < t + (H : Int)
    · rw [if_pos h1, if_neg (by omega), if_pos (by push_cast; omega)]
    · rw [if_neg h1]
      by_cases h2 : t + (H : Int) = r
      · rw [if_pos h2, if_pos (by push_cast; omega)]
      · rw [if_neg h2, if_neg (by push_cast; omega)]

theorem row_toggles_eq (a b : FPoint) (r : Int) :
    row_toggles a b r = if spans_row a b r = true then 1 else 0 := by
  obtain ⟨e, he, h0, hh, hpos⟩ := plot_edge_positions a b
  unfold row_toggles
  rw [he]
  simp only [hpos, List.countP_map]
  have hfun : ((fun (p : Int × Int) => decide (p.2 = r)) ∘ fun (k : Nat) =>
      (crossing_column (edge_top a b) (edge_bottom a b)
          (ceil_div (edge_top a b).y 16 + (k : Int)),
        ceil_div (edge_top a b).y 16 + (k : Int))) =
      fun (k : Nat) => decide (ceil_div (edge_top a b).y 16 + (k : Int) = r) := rfl
  rw [hfun, countP_range_eq]
  have hiff := spans_row_iff a b r
  by_cases hs : spans_row a b r = true
  · have := hiff.1 hs
    rw [if_pos hs, if_pos (by omega)]
  · have hn : ¬(ceil_div (edge_top a b).y 16 ≤ r ∧ r < ceil_div (edge_bottom a b).y 16) :=
      fun h => hs (hiff.2 h)
    rw [if_neg hs, if_neg (by omega)]

theorem sum_map_indicator (p : Nat → Bool) :
    ∀ l : List Nat, (l.map fun k => if p k = true then 1 else 0).sum = l.countP p := by
  intro l
  induction l with
  | nil => rfl
  | cons a l ih =>
    rw [List.map_cons, List.sum_cons, ih, List.countP_cons]
    omega

theorem end_fill_cols_inside (pbl_color : Bool) (color : Nat) (stride fbStride : Int)
    (row cb : Nat) (g : Nat → Bool) (st : ScanState) :
    ∀ m : Nat,
      (∀ j, j < m → ((cb + j : Nat) : Int) < 8 * stride) →
      (∀ j, j < m → flag_at stride st.data ((cb + j : Nat) : Int) row = g (cb + j)) →
      ((List.range' cb m).foldl (end_fill_step_bw pbl_color color stride fbStride row)
        st).inside = (st.inside ^^ prefix_xor g cb m) ∧
      (∀ x y : Int, 0 ≤ x → x < 8 * stride →
        flag_at stride ((List.range' cb m).foldl
          (end_fill_step_bw pbl_color color stride fbStride row) st).data x y =
          (flag_at stride st.data x y &&
            !decide (y = (row : Int) ∧ (cb : Int) ≤ x ∧ x < (cb : Int) + m))) := by
  intro m
  induction m with
  | zero =>
    intro _ _
    refine ⟨by simp [prefix_xor], ?_⟩
    intro x y _ _
    have : ¬(y = (row : Int) ∧ (cb : Int) ≤ x ∧ x < (cb : Int) + ((0 : Nat) : Int)) := by
      rintro ⟨_, h1, h2⟩
      simp at h2
      omega
    rw [decide_eq_false this]
    simp
  | succ m ih =>
    intro hin hg
    obtain ⟨i1, i2⟩ := ih (fun j hj => hin j (Nat.lt_succ_of_lt hj))
      (fun j hj => hg j (Nat.lt_succ_of_lt hj))
    rw [List.range'_concat, List.foldl_append]
    simp only [one_mul, List.foldl_cons, List.foldl_nil]
    generalize (List.range' cb m).foldl
      (end_fill_step_bw pbl_color color stride fbStride row) st = prev at i1 i2
    have hcol := hin m (Nat.lt_succ_self m)
    have hbit : flag_at stride prev.data ((cb + m : Nat) : Int) row = g (cb + m) := by
      rw [i2 _ _ (by omega) hcol, hg m (Nat.lt_succ_self m)]
      have : ¬((row : Int) = (row : Int) ∧ (cb : Int) ≤ ((cb + m : Nat) : Int) ∧
          ((cb + m : Nat) : Int) < (cb : Int) + m) := by
        rintro ⟨_, _, h⟩
        push_cast at h
        omega
      rw [decide_eq_false this]
      simp
    refine ⟨?_, ?_⟩
    · rw [end_fill_step_inside, i1, hbit]
      simp only [prefix_xor, Bool.xor_assoc]
    · intro x y hx hxs
      rw [end_fill_step_data, flag_at_clear stride _ _ _ x y hx hxs hcol, i2 x y hx hxs,
        Bool.and_assoc]
      congr 1
      by_cases h1 : y = (row : Int) ∧ (cb : Int) ≤ x ∧ x < (cb : Int) + m
      · have h2 : ¬(x = ((cb + m : Nat) : Int) ∧ y = (row : Int)) := by
          rintro ⟨h, _⟩; push_cast at h; omega
        have h3 : y = (row : Int) ∧ (cb : Int) ≤ x ∧ x < (cb : Int) + ((m + 1 : Nat) : Int) :=
          ⟨h1.1, h1.2.1, by push_cast; omega⟩
        rw [decide_eq_true h1, decide_eq_false h2, decide_eq_true h3]
        rfl
      · by_cases h2 : x = ((cb + m : Nat) : Int) ∧ y = (row : Int)
        · have h3 : y = (row : Int) ∧ (cb : Int) ≤ x ∧
              x < (cb : Int) + ((m + 1 : Nat) : Int) := by
            obtain ⟨hx', hy'⟩ := h2
            push_cast at hx' ⊢
            exact ⟨hy', by omega, by omega⟩
          rw [decide_eq_false h1, decide_eq_true h2, decide_eq_true h3]
          rfl
        · have h3 : ¬(y = (row : Int) ∧ (cb : Int) ≤ x ∧
              x < (cb : Int) + ((m + 1 : Nat) : Int)) := by
            rintro ⟨hy', hx1, hx2⟩
            push_cast at hx2 h2
            by_cases hxe : x = (cb : Int) + m
            · exact h2 ⟨hxe, hy'⟩
            · exact h1 ⟨hy', hx1, by omega⟩
          rw [decide_eq_false h1, decide_eq_false h2, decide_eq_false h3]
          rfl

/-- The first `m` rows of the scan of `fpath_end_fill_bw`, for flags that are
the parities of the edge hits of a closed polygon within the bounds: the flags
scanned are cleared and the others are as before. -/
theorem end_fill_bw_rows_flags (pbl_color : Bool) (w h : Int) (n : Nat) (Q : List FPoint)
    (fctx1 : FContext) (hw : 0 ≤ w) (hw16 : w < 32767) (hh : 0 ≤ h) (hh16 : h < 32767)
    (hstride : FIXED_TO_INT fctx1.max.x + 1 < 8 * fctx1.flagBuffer.row_size_bytes)
    (hfb : if pbl_color = true then w ≤ fctx1.frameBuffer.row_size_bytes
      else w ≤ 8 * fctx1.frameBuffer.row_size_bytes)
    (hsane : BoxSane w h fctx1)
    (hQ : ∀ k, k < n → PointInSurface w h (Q.getD k FPointZero) ∧
      BoxContains fctx1 (Q.getD k FPointZero))
    (hflags : ∀ x y : Int, 0 ≤ x → x < 8 * fctx1.flagBuffer.row_size_bytes → 0 ≤ y → y ≤ h →
      flag_at fctx1.flagBuffer.row_size_bytes fctx1.flagBuffer.data x y =
        Nat.bodd ((List.range n).countP (edge_hits n Q y x)))
    (m : Nat)
    (hm : m ≤ toUInt16 (FIXED_TO_INT fctx1.max.y + 1) - toUInt16 (FIXED_TO_INT fctx1.min.y)) :
    ∀ x y : Int, 0 ≤ x → x < 8 * fctx1.flagBuffer.row_size_bytes →
      flag_at fctx1.flagBuffer.row_size_bytes (scan_state_bw pbl_color fctx1 m).data x y =
        (flag_at fctx1.flagBuffer.row_size_bytes fctx1.flagBuffer.data x y &&
          !decide ((toUInt16 (FIXED_TO_INT fctx1.min.y) : Int) ≤ y ∧
            y < (toUInt16 (FIXED_TO_INT fctx1.min.y) : Int) + m ∧
            (toUInt16 (FIXED_TO_INT fctx1.min.x) : Int) ≤ x ∧
            x ≤ (toUInt16 (FIXED_TO_INT fctx1.max.x + 1) : Int))) := by
  obtain ⟨u1, u2, u3, u4, b1, b2, b3, b4⟩ := scan_bounds w h fctx1 hw hw16 hh hh16 hsane
  -- every spanning edge crosses inside the scan range and inside the surface
  have hspan : ∀ k, k < n → ∀ y : Int,
      spans_row (Q.getD k FPointZero) (Q.getD ((k + 1) % n) FPointZero) y = true →
      InScanRange fctx1 (crossing_column
        (edge_top (Q.getD k FPointZero) (Q.getD ((k + 1) % n) FPointZero))
        (edge_bottom (Q.getD k FPointZero) (Q.getD ((k + 1) % n) FPointZero)) y, y) ∧
      crossing_column
        (edge_top (Q.getD k FPointZero) (Q.getD ((k + 1) % n) FPointZero))
        (edge_bottom (Q.getD k FPointZero) (Q.getD ((k + 1) % n) FPointZero)) y ≤ w := by
    intro k hk y hsp
    have hk1 : (k + 1) % n < n := Nat.mod_lt _ (by omega)
    have ha := hQ k hk
    have hb := hQ _ hk1
    exact ⟨spanned_in_scan_range fctx1 _ _ y ha.2 hb.2 hsp,
      (spanned_crossing_le _ _ y w ⟨ha.1.1, ha.1.2.1⟩ ⟨hb.1.1, hb.1.2.1⟩ hsp).2⟩
  -- the exclusive or of the flags of a row up to column `c0` counts the crossings `≤ c0`
  have hpre : ∀ (y c0 : Nat), toUInt16 (FIXED_TO_INT fctx1.min.x) ≤ c0 →
      prefix_xor (fun x => Nat.bodd ((List.range n).countP (edge_hits n Q (y : Int) (x : Int))))
        (toUInt16 (FIXED_TO_INT fctx1.min.x))
        (c0 - toUInt16 (FIXED_TO_INT fctx1.min.x) + 1) =
      Nat.bodd (edge_crossings n Q y c0) := by
    intro y c0 hc0
    have := prefix_xor_count
      (fun k => spans_row (Q.getD k FPointZero) (Q.getD ((k + 1) % n) FPointZero) y)
      (fun k => crossing_column
        (edge_top (Q.getD k FPointZero) (Q.getD ((k + 1) % n) FPointZero))
        (edge_bottom (Q.getD k FPointZero) (Q.getD ((k + 1) % n) FPointZero)) y)
      (List.range n) (toUInt16 (FIXED_TO_INT fctx1.min.x))
      (c0 - toUInt16 (FIXED_TO_INT fctx1.min.x) + 1)
    unfold edge_hits
    rw [this]
    congr 1
    unfold edge_crossings
    apply List.countP_congr
    intro k hk
    rw [List.mem_range] at hk
    simp only [Bool.and_eq_true, decide_eq_true_eq]
    constructor
    · rintro ⟨hsp, _, h2⟩
      refine ⟨hsp, ?_⟩
      push_cast at h2
      omega
    · rintro ⟨hsp, h2⟩
      refine ⟨hsp, ?_, ?_⟩
      · have := (hspan k hk y hsp).1.1
        simp only at this
        omega
      · push_cast
        omega
  have hrows := end_fill_rows_spec pbl_color fctx1.fillColor fctx1.flagBuffer.row_size_bytes
    fctx1.frameBuffer.row_size_bytes w hfb
    (toUInt16 (FIXED_TO_INT fctx1.min.y)) (toUInt16 (FIXED_TO_INT fctx1.min.x))
    (toUInt16 (FIXED_TO_INT fctx1.max.x + 1))
    (fun y x => Nat.bodd ((List.range n).countP (edge_hits n Q (y : Int) (x : Int))))
    { data := fctx1.flagBuffer.data, fbData := fctx1.frameBuffer.data, inside := false }
    (by omega)
    m
    (fun i hi c0 hc1 hc2 => by
      apply hflags
      · omega
      · omega
      · omega
      · have : ((toUInt16 (FIXED_TO_INT fctx1.min.y) + i : Nat) : Int) <
            (toUInt16 (FIXED_TO_INT fctx1.max.y + 1) : Int) := by
          exact_mod_cast (by omega : toUInt16 (FIXED_TO_INT fctx1.min.y) + i <
            toUInt16 (FIXED_TO_INT fctx1.max.y + 1))
        omega)
    (fun i hi c0 hc1 hc2 hp => by
      rw [hpre _ c0 hc1] at hp
      by_contra hcw
      have hcw' : w ≤ (c0 : Int) := by omega
      have hall : edge_crossings n Q
          ((toUInt16 (FIXED_TO_INT fctx1.min.y) + i : Nat) : Int) (c0 : Int) =
          (List.range n).countP fun k =>
            spans_row (Q.getD k FPointZero) (Q.getD ((k + 1) % n) FPointZero)
              ((toUInt16 (FIXED_TO_INT fctx1.min.y) + i : Nat) : Int) := by
        unfold edge_crossings
        apply List.countP_congr
        intro k hk
        rw [List.mem_range] at hk
        simp only [Bool.and_eq_true, decide_eq_true_eq]
        constructor
        · exact fun h => h.1
        · intro hsp
          exact ⟨hsp, le_trans (hspan k hk _ hsp).2 hcw'⟩
      rw [hall, bodd_spanning_edges] at hp
      exact absurd hp (by simp))
  exact hrows.1

/-- One row of the scan, for flags that are the parities of the edge hits of
a closed polygon: once the columns scanned hold every crossing of the row,
`inside` is false again. -/
theorem scan_row_inside_false (n : Nat) (Q : List FPoint) (pbl_color : Bool) (color : Nat)
    (stride fbStride : Int) (row cb m : Nat) (st : ScanState)
    (hin : ∀ j, j < m → ((cb + j : Nat) : Int) < 8 * stride)
    (hg : ∀ j, j < m → flag_at stride st.data ((cb + j : Nat) : Int) row =
      Nat.bodd ((List.range n).countP (edge_hits n Q (row : Int) ((cb + j : Nat) : Int))))
    (hcross : ∀ k, k < n →
      spans_row (Q.getD k FPointZero) (Q.getD ((k + 1) % n) FPointZero) (row : Int) = true →
      (cb : Int) ≤ crossing_column
        (edge_top (Q.getD k FPointZero) (Q.getD ((k + 1) % n) FPointZero))
        (edge_bottom (Q.getD k FPointZero) (Q.getD ((k + 1) % n) FPointZero)) (row : Int) ∧
      crossing_column
        (edge_top (Q.getD k FPointZero) (Q.getD ((k + 1) % n) FPointZero))
        (edge_bottom (Q.getD k FPointZero) (Q.getD ((k + 1) % n) FPointZero)) (row : Int) <
        (cb : Int) + (m : Int)) :
    ((List.range' cb m).foldl (end_fill_step_bw pbl_color color stride fbStride row)
      { st with inside := false }).inside = false := by
  have h1 := (end_fill_cols_inside pbl_color color stride fbStride row cb
    (fun x => Nat.bodd ((List.range n).countP (edge_hits n Q (row : Int) (x : Int))))
    { st with inside := false } m hin hg).1
  rw [h1]
  have h2 := prefix_xor_count
    (fun k => spans_row (Q.getD k FPointZero) (Q.getD ((k + 1) % n) FPointZero) (row : Int))
    (fun k => crossing_column
      (edge_top (Q.getD k FPointZero) (Q.getD ((k + 1) % n) FPointZero))
      (edge_bottom (Q.getD k FPointZero) (Q.getD ((k + 1) % n) FPointZero)) (row : Int))
    (List.range n) cb m
  unfold edge_hits
  rw [h2]
  have hall : ((List.range n).countP fun k =>
      spans_row (Q.getD k FPointZero) (Q.getD ((k + 1) % n) FPointZero) (row : Int) &&
      decide ((cb : Int) ≤ crossing_column
          (edge_top (Q.getD k FPointZero) (Q.getD ((k + 1) % n) FPointZero))
          (edge_bottom (Q.getD k FPointZero) (Q.getD ((k + 1) % n) FPointZero)) (row : Int) ∧
        crossing_column
          (edge_top (Q.getD k FPointZero) (Q.getD ((k + 1) % n) FPointZero))
          (edge_bottom (Q.getD k FPointZero) (Q.getD ((k + 1) % n) FPointZero)) (row : Int) <
          (cb : Int) + (m : Int))) =
      (List.range n).countP fun k =>
        spans_row (Q.getD k FPointZero) (Q.getD ((k + 1) % n) FPointZero) (row : Int) := by
    apply List.countP_congr
    intro k hk
    rw [List.mem_range] at hk
    simp only [Bool.and_eq_true, decide_eq_true_eq]
    constructor
    · exact fun h => h.1
    · exact fun hsp => ⟨hsp, hcross k hk hsp⟩
  rw [hall, bodd_spanning_edges]
  rfl

/-- Closed-polygon parity. For the transformed points of a path and every row
`r`, the number of edges `(Q_k, Q_((k+1) mod n))` that span row `r` is even,
and so is the number of flag positions on row `r` that the
`fpath_plot_edge_bw` calls of `fpath_draw_filled_bw` toggle. -/
theorem closed_polygon_rows_even (cos_lookup sin_lookup : Int → Int) (fpath : FPath)
    (r : Int) :
    ((List.range fpath.num_points).countP fun k =>
      spans_row ((transformed_points_bw cos_lookup sin_lookup fpath).getD k FPointZero)
        ((transformed_points_bw cos_lookup sin_lookup fpath).getD
          ((k + 1) % fpath.num_points) FPointZero) r) % 2 = 0 ∧
    ((List.range fpath.num_points).map fun k =>
      row_toggles ((transformed_points_bw cos_lookup sin_lookup fpath).getD k FPointZero)
        ((transformed_points_bw cos_lookup sin_lookup fpath).getD
          ((k + 1) % fpath.num_points) FPointZero) r).sum % 2 = 0 := by
  have hb := bodd_spanning_edges fpath.num_points
    (transformed_points_bw cos_lookup sin_lookup fpath) r
  have heven : ((List.range fpath.num_points).countP fun k =>
      spans_row ((transformed_points_bw cos_lookup sin_lookup fpath).getD k FPointZero)
        ((transformed_points_bw cos_lookup sin_lookup fpath).getD
          ((k + 1) % fpath.num_points) FPointZero) r) % 2 = 0 := by
    rw [Nat.mod_two_of_bodd, hb]
    rfl
  refine ⟨heven, ?_⟩
  have hsum : ((List.range fpath.num_points).map fun k =>
      row_toggles ((transformed_points_bw cos_lookup sin_lookup fpath).getD k FPointZero)
        ((transformed_points_bw cos_lookup sin_lookup fpath).getD
          ((k + 1) % fpath.num_points) FPointZero) r) =
      (List.range fpath.num_points).map fun k =>
        if spans_row ((transformed_points_bw cos_lookup sin_lookup fpath).getD k FPointZero)
          ((transformed_points_bw cos_lookup sin_lookup fpath).getD
            ((k + 1) % fpath.num_points) FPointZero) r = true then 1 else 0 := by
    apply List.map_congr_left
    intro k _
    exact row_toggles_eq _ _ r
  rw [hsum, sum_map_indicator]
  exact heven

/-- The parity scan where every flag row has a spare bit. After
`fpath_begin_fill_bw` and one `fpath_draw_filled_bw` on all-zero flags (points
within `-16 < x ≤ 16 w`, `-16 < y ≤ 16 h`, flag rows of at least `w + 2` bits),
in every row that `fpath_end_fill_bw` scans the running `inside` is false
after the last column of the row, and already after any column from which on
no edge crosses the row. -/
theorem scan_inside_false_with_spare_bit (cos_lookup sin_lookup : Int → Int) (pbl_color : Bool)
    (w h : Int) (fctx : FContext) (fpath : FPath)
    (hw : 0 ≤ w) (hw16 : w < 32767) (hh : 0 ≤ h) (hh16 : h < 32767)
    (hbounds : fctx.flagBuffer.bounds = ⟨0, 0, w + 1, h + 1⟩)
    (hstride : w + 2 ≤ 8 * fctx.flagBuffer.row_size_bytes)
    (hfb : if pbl_color = true then w ≤ fctx.frameBuffer.row_size_bytes
      else w ≤ 8 * fctx.frameBuffer.row_size_bytes)
    (hzero : ∀ a, 0 ≤ a → a < fctx.flagBuffer.row_size_bytes * (h + 1) →
      fctx.flagBuffer.data a = 0)
    (hpts : ∀ q ∈ transformed_points_bw cos_lookup sin_lookup fpath,
      -16 < q.x ∧ q.x ≤ 16 * w ∧ -16 < q.y ∧ q.y ≤ 16 * h) :
    ∃ fctx1, fpath_draw_filled_bw cos_lookup sin_lookup true (fpath_begin_fill_bw fctx) fpath
        = some fctx1 ∧
      (fpath_end_fill_bw pbl_color fctx1).flagBuffer.data =
        (scan_state_bw pbl_color fctx1 (toUInt16 (FIXED_TO_INT fctx1.max.y + 1) -
          toUInt16 (FIXED_TO_INT fctx1.min.y))).data ∧
      ∀ i : Nat, i < toUInt16 (FIXED_TO_INT fctx1.max.y + 1) -
          toUInt16 (FIXED_TO_INT fctx1.min.y) →
        (end_fill_row_bw pbl_color (fill_byte_bw pbl_color fctx1.fillColor)
          fctx1.flagBuffer.row_size_bytes fctx1.frameBuffer.row_size_bytes
          (toUInt16 (FIXED_TO_INT fctx1.min.x)) (toUInt16 (FIXED_TO_INT fctx1.max.x + 1))
          (scan_state_bw pbl_color fctx1 i)
          (toUInt16 (FIXED_TO_INT fctx1.min.y) + i)).inside = false ∧
        ∀ m : Nat, m ≤ toUInt16 (FIXED_TO_INT fctx1.max.x + 1) + 1 -
            toUInt16 (FIXED_TO_INT fctx1.min.x) →
          (∀ k, k < fpath.num_points →
            spans_row ((transformed_points_bw cos_lookup sin_lookup fpath).getD k FPointZero)
              ((transformed_points_bw cos_lookup sin_lookup fpath).getD
                ((k + 1) % fpath.num_points) FPointZero)
              ((toUInt16 (FIXED_TO_INT fctx1.min.y) + i : Nat) : Int) = true →
            crossing_column
              (edge_top ((transformed_points_bw cos_lookup sin_lookup fpath).getD k FPointZero)
                ((transformed_points_bw cos_lookup sin_lookup fpath).getD
                  ((k + 1) % fpath.num_points) FPointZero))
              (edge_bottom
                ((transformed_points_bw cos_lookup sin_lookup fpath).getD k FPointZero)
                ((transformed_points_bw cos_lookup sin_lookup fpath).getD
                  ((k + 1) % fpath.num_points) FPointZero))
              ((toUInt16 (FIXED_TO_INT fctx1.min.y) + i : Nat) : Int) <
              (toUInt16 (FIXED_TO_INT fctx1.min.x) : Int) + (m : Int)) →
          ((List.range' (toUInt16 (FIXED_TO_INT fctx1.min.x)) m).foldl
            (end_fill_step_bw pbl_color (fill_byte_bw pbl_color fctx1.fillColor)
              fctx1.flagBuffer.row_size_bytes fctx1.frameBuffer.row_size_bytes
              (toUInt16 (FIXED_TO_INT fctx1.min.y) + i))
            { scan_state_bw pbl_color fctx1 i with inside := false }).inside = false := by
  have hsane0 := begin_fill_bw_sane w h fctx hw hh hbounds
  obtain ⟨c1, hc1, hs1, hsane1, hbox1, hfl1⟩ :=
    draw_filled_bw_grid cos_lookup sin_lookup w h (fpath_begin_fill_bw fctx) fpath
      (by show w < 8 * fctx.flagBuffer.row_size_bytes; omega) hsane0 hpts
  refine ⟨c1, hc1, rfl, ?_⟩
  have hstr : c1.flagBuffer.row_size_bytes = fctx.flagBuffer.row_size_bytes := hs1.2.1
  have hfbeq : c1.frameBuffer = fctx.frameBuffer := hs1.1
  have hlen := transformed_points_bw_length cos_lookup sin_lookup fpath
  obtain ⟨u1, u2, u3, u4, b1, b2, b3, b4⟩ := scan_bounds w h c1 hw hw16 hh hh16 hsane1
  have hce : FIXED_TO_INT c1.max.x + 1 < 8 * c1.flagBuffer.row_size_bytes := by
    rw [hstr]; omega
  have hQ : ∀ k, k < fpath.num_points →
      PointInSurface w h
        ((transformed_points_bw cos_lookup sin_lookup fpath).getD k FPointZero) ∧
      BoxContains c1
        ((transformed_points_bw cos_lookup sin_lookup fpath).getD k FPointZero) := by
    intro k hk
    have hmem := getD_mem_of_lt (transformed_points_bw cos_lookup sin_lookup fpath) k
      (by rw [hlen]; exact hk)
    exact ⟨hpts _ hmem, hbox1 _ hmem⟩
  have hflags : ∀ x y : Int, 0 ≤ x → x < 8 * c1.flagBuffer.row_size_bytes → 0 ≤ y → y ≤ h →
      flag_at c1.flagBuffer.row_size_bytes c1.flagBuffer.data x y =
        Nat.bodd ((List.range fpath.num_points).countP
          (edge_hits fpath.num_points
            (transformed_points_bw cos_lookup sin_lookup fpath) y x)) := by
    intro x y hx hxs hy hyh
    rw [hstr] at hxs ⊢
    have hf := hfl1 x y hx hxs
    have hz : flag_at (fpath_begin_fill_bw fctx).flagBuffer.row_size_bytes
        (fpath_begin_fill_bw fctx).flagBuffer.data x y = false :=
      flag_at_zero _ h _ x y hzero hx hxs hy hyh
    change flag_at fctx.flagBuffer.row_size_bytes c1.flagBuffer.data x y = _ at hf
    rw [hf, hz, Bool.false_xor]
  intro i hi
  have hrowle : ((toUInt16 (FIXED_TO_INT c1.min.y) + i : Nat) : Int) ≤ h := by
    have : ((toUInt16 (FIXED_TO_INT c1.min.y) + i : Nat) : Int) <
        (toUInt16 (FIXED_TO_INT c1.max.y + 1) : Int) := by
      exact_mod_cast (by omega : toUInt16 (FIXED_TO_INT c1.min.y) + i <
        toUInt16 (FIXED_TO_INT c1.max.y + 1))
    omega
  have hstate := end_fill_bw_rows_flags pbl_color w h fpath.num_points
    (transformed_points_bw cos_lookup sin_lookup fpath) c1 hw hw16 hh hh16 hce
    (by rw [hfbeq]; exact hfb) hsane1 hQ hflags i (by omega)
  have hmain : ∀ m : Nat, m ≤ toUInt16 (FIXED_TO_INT c1.max.x + 1) + 1 -
        toUInt16 (FIXED_TO_INT c1.min.x) →
      (∀ k, k < fpath.num_points →
        spans_row ((transformed_points_bw cos_lookup sin_lookup fpath).getD k FPointZero)
          ((transformed_points_bw cos_lookup sin_lookup fpath).getD
            ((k + 1) % fpath.num_points) FPointZero)
          ((toUInt16 (FIXED_TO_INT c1.min.y) + i : Nat) : Int) = true →
        crossing_column
          (edge_top ((transformed_points_bw cos_lookup sin_lookup fpath).getD k FPointZero)
            ((transformed_points_bw cos_lookup sin_lookup fpath).getD
              ((k + 1) % fpath.num_points) FPointZero))
          (edge_bottom
            ((transformed_points_bw cos_lookup sin_lookup fpath).getD k FPointZero)
            ((transformed_points_bw cos_lookup sin_lookup fpath).getD
              ((k + 1) % fpath.num_points) FPointZero))
          ((toUInt16 (FIXED_TO_INT c1.min.y) + i : Nat) : Int) <
          (toUInt16 (FIXED_TO_INT c1.min.x) : Int) + (m : Int)) →
      ((List.range' (toUInt16 (FIXED_TO_INT c1.min.x)) m).foldl
        (end_fill_step_bw pbl_color (fill_byte_bw pbl_color c1.fillColor)
          c1.flagBuffer.row_size_bytes c1.frameBuffer.row_size_bytes
          (toUInt16 (FIXED_TO_INT c1.min.y) + i))
        { scan_state_bw pbl_color c1 i with inside := false }).inside = false := by
    intro m hm hcr
    apply scan_row_inside_false fpath.num_points
      (transformed_points_bw cos_lookup sin_lookup fpath)
    · intro j hj
      push_cast
      omega
    · intro j hj
      have hx0 : (0 : Int) ≤ ((toUInt16 (FIXED_TO_INT c1.min.x) + j : Nat) : Int) := by
        omega
      have hxs : ((toUInt16 (FIXED_TO_INT c1.min.x) + j : Nat) : Int) <
          8 * c1.flagBuffer.row_size_bytes := by
        push_cast
        omega
      show flag_at c1.flagBuffer.row_size_bytes (scan_state_bw pbl_color c1 i).data _ _ = _
      rw [hstate _ _ hx0 hxs, hflags _ _ hx0 hxs (by omega) hrowle]
      have hnot : ¬((toUInt16 (FIXED_TO_INT c1.min.y) : Int) ≤
            ((toUInt16 (FIXED_TO_INT c1.min.y) + i : Nat) : Int) ∧
          ((toUInt16 (FIXED_TO_INT c1.min.y) + i : Nat) : Int) <
            (toUInt16 (FIXED_TO_INT c1.min.y) : Int) + (i : Int) ∧
          (toUInt16 (FIXED_TO_INT c1.min.x) : Int) ≤
            ((toUInt16 (FIXED_TO_INT c1.min.x) + j : Nat) : Int) ∧
          ((toUInt16 (FIXED_TO_INT c1.min.x) + j : Nat) : Int) ≤
            (toUInt16 (FIXED_TO_INT c1.max.x + 1) : Int)) := by
        rintro ⟨_, h2, _⟩
        push_cast at h2
        omega
      rw [decide_eq_false hnot]
      simp
    · intro k hk hsp
      have hk1 : (k + 1) % fpath.num_points < fpath.num_points :=
        Nat.mod_lt _ (by omega)
      have hr := spanned_in_scan_range c1 _ _ _ (hQ k hk).2 (hQ _ hk1).2 hsp
      obtain ⟨r1, _, _, _⟩ := hr
      simp only at r1
      exact ⟨by omega, hcr k hk hsp⟩
  refine ⟨?_, hmain⟩
  unfold end_fill_row_bw
  apply hmain _ (le_refl _)
  intro k hk hsp
  have hk1 : (k + 1) % fpath.num_points < fpath.num_points := Nat.mod_lt _ (by omega)
  have hr := spanned_in_scan_range c1 _ _ _ (hQ k hk).2 (hQ _ hk1).2 hsp
  obtain ⟨r1, r2, _, _⟩ := hr
  simp only at r1 r2
  have : ((toUInt16 (FIXED_TO_INT c1.max.x + 1) + 1 -
      toUInt16 (FIXED_TO_INT c1.min.x) : Nat) : Int) =
      (toUInt16 (FIXED_TO_INT c1.max.x + 1) : Int) + 1 -
        (toUInt16 (FIXED_TO_INT c1.min.x) : Int) := by
    omega
  rw [this]
  omega

theorem scan_inside_false_with_spare_bit_witness :
    ∃ fctx1, fpath_draw_filled_bw cos_zero sin_zero true
        (fpath_begin_fill_bw (blank_context 4 4 4 1 1)) square_path = some fctx1 ∧
      ∀ i : Nat, i < toUInt16 (FIXED_TO_INT fctx1.max.y + 1) -
          toUInt16 (FIXED_TO_INT fctx1.min.y) →
        (end_fill_row_bw true (fill_byte_bw true fctx1.fillColor)
          fctx1.flagBuffer.row_size_bytes fctx1.frameBuffer.row_size_bytes
          (toUInt16 (FIXED_TO_INT fctx1.min.x)) (toUInt16 (FIXED_TO_INT fctx1.max.x + 1))
          (scan_state_bw true fctx1 i)
          (toUInt16 (FIXED_TO_INT fctx1.min.y) + i)).inside = false :=
  have h := scan_inside_false_with_spare_bit cos_zero sin_zero true 4 4
    (blank_context 4 4 4 1 1) square_path (by decide) (by decide) (by decide) (by decide) rfl
    (by decide) (by decide) (fun _ _ _ => rfl)
    (by
      intro q hq
      rw [square_path_points] at hq
      simp only [List.mem_cons, List.mem_singleton, List.not_mem_nil, or_false] at hq
      rcases hq with h | h | h | h <;> subst h <;> decide)
  h.imp fun _ hc => ⟨hc.1, fun i hi => (hc.2.2 i hi).1⟩

end FPathBezier
